import Mathlib

/-!
# Int32 column decoders of parquet-go (`parquet/type_int32.go`)

A shallow embedding of the three int32 value decoders (PLAIN, dictionary and
DELTA_BINARY_PACKED) together with theorems about them.

Conventions of the embedding:

* a Go `[]byte` is a `List Nat` (each element a byte value), a Go `[]int32` is a
  `List Int`; `int32` arithmetic is made explicit with `toInt32`;
* a Go run-time panic (index out of range, slice bounds out of range, integer
  divide by zero, negative `make` length, call of a nil function) is the
  constructor `fault` of the result types;
* a Go `error` is a value of `DecodeError`, `nil` is `none`;
* the loops of the decoders are driven by a fuel argument which is the length of
  the output buffer; every iteration fills one more slot, so this fuel is always
  enough.
-/

namespace Parquet

/-! ## Shared data model -/

/-- Error values built by `fmt.Errorf` in `type_int32.go`, one constructor per message,
plus `keys c` for the errors of the external key decoder of the dictionary decoder. -/
inductive DecodeError where
  | plainNotEnoughData
  | plainNoMoreData
  | deltaBlockSize
  | deltaMiniBlocks
  | deltaTotalValueCount
  | deltaFirstValue
  | deltaMinDelta
  | deltaBitWidths
  | deltaNotEnoughData
  | deltaNoMoreData
  | keys (code : Nat)
  deriving DecidableEq, Repr

/-- Result of a `decodeInt32` call: either the call returns `(n, err)` leaving the decoder in
state `d` and the output buffer as `buf`, or it panics. -/
inductive Outcome (σ : Type) where
  | ret (d : σ) (buf : List Int) (n : Nat) (err : Option DecodeError)
  | fault
  deriving DecidableEq, Repr

/-- Conversion of an integer to `int32` (two's complement wrap-around modulo `2^32`). -/
def toInt32 (x : Int) : Int := (x + 2147483648) % 4294967296 - 2147483648

/-- The Go slice expression `data[pos:]`; `none` when it panics. -/
def sliceFrom (data : List Nat) (pos : Int) : Option (List Nat) :=
  if 0 ≤ pos ∧ pos ≤ data.length then some (data.drop pos.toNat) else none

/-! ## PLAIN decoder -/

/-- State of `int32PlainDecoder`. -/
structure Int32PlainDecoder where
  data : List Nat
  pos : Nat
  deriving DecidableEq, Repr

/-- Go `binary.LittleEndian.Uint32(b)`: panics (here `none`) when `b` has fewer than 4 bytes. -/
def uint32LE : List Nat → Option Nat
  | b0 :: b1 :: b2 :: b3 :: _ => some (b0 + 256 * b1 + 65536 * b2 + 16777216 * b3)
  | _ => none

/-- Method `int32PlainDecoder.init`: the declared count is not stored. -/
def Int32PlainDecoder.init (_d : Int32PlainDecoder) (data : List Nat) (_count : Int) :
    Int32PlainDecoder × Option DecodeError :=
  ({ data := data, pos := 0 }, none)

/-- Value returned after the loop of `int32PlainDecoder.decodeInt32`. -/
def plainFinish (d : Int32PlainDecoder) (buf : List Int) (i : Nat) (err : Option DecodeError) :
    Outcome Int32PlainDecoder :=
  if i = 0 then .ret d buf i (some .plainNoMoreData) else .ret d buf i err

/-- Loop of `int32PlainDecoder.decodeInt32`, with the local variables `i` and `err`. -/
def plainLoop : Nat → Int32PlainDecoder → List Int → Nat → Option DecodeError →
    Outcome Int32PlainDecoder
  | 0, d, buf, i, err => plainFinish d buf i err
  | fuel + 1, d, buf, i, err =>
    if i < buf.length ∧ d.pos < d.data.length then
      let err1 := if d.pos + 4 > d.data.length then some DecodeError.plainNotEnoughData else err
      match uint32LE (d.data.drop d.pos) with
      | none => .fault
      | some u => plainLoop fuel { d with pos := d.pos + 4 } (buf.set i (toInt32 u)) (i + 1) err1
    else plainFinish d buf i err

/-- Method `int32PlainDecoder.decodeInt32`. -/
def Int32PlainDecoder.decodeInt32 (d : Int32PlainDecoder) (buf : List Int) :
    Outcome Int32PlainDecoder :=
  plainLoop buf.length d buf 0 none

/-- The 4-byte little-endian encoding of an int32 value (the PLAIN wire format). -/
def le32 (v : Int) : List Nat :=
  let u := (v % 4294967296).toNat
  [u % 256, u / 256 % 256, u / 65536 % 256, u / 16777216 % 256]

/-- PLAIN encoding of a sequence: the concatenation of the 4-byte encodings. -/
def encodePlain : List Int → List Nat
  | [] => []
  | v :: vs => le32 v ++ encodePlain vs

/-- A caller making one `decodeInt32` call per buffer of `bufs`, in order, whatever error each
call reports; the result is the concatenation of the valid output (first `n` slots) of every
call and the final decoder state, or `none` if a call panics. -/
def plainDecodeAll (d : Int32PlainDecoder) : List (List Int) →
    Option (List Int × Int32PlainDecoder)
  | [] => some ([], d)
  | buf :: rest =>
    match d.decodeInt32 buf with
    | .fault => none
    | .ret d1 buf1 n _ =>
      match plainDecodeAll d1 rest with
      | none => none
      | some (out, d2) => some (buf1.take n ++ out, d2)

/-- Fourteen sample values for the chunking example of the plain decoder. -/
def sampleValues : List Int :=
  [0, 1, -1, 2147483647, -2147483648, 256, -256, 65536, 7, 8, 9, 10, -11, 12]

/-! ## Dictionary decoder -/

/-- State of `int32DictDecoder`: the embedded `dictDecoder`, which is declared outside
`type_int32.go` and whose state is kept abstract as a value of `κ`, and the value table. -/
structure Int32DictDecoder (κ : Type) where
  dictDecoder : κ
  values : List Int
  deriving DecidableEq, Repr

/-- The loop `for i, k := range keys { buf[i] = d.values[k] }` from slot `i` on; `none` when
one of the two index expressions panics (index out of range). -/
def dictFill (values : List Int) : List Int → Nat → List Int → Option (List Int)
  | [], _, buf => some buf
  | k :: ks, i, buf =>
    if 0 ≤ k ∧ k < values.length ∧ i < buf.length then
      dictFill values ks (i + 1) (buf.set i (values.getD k.toNat 0))
    else none

/-- Method `int32DictDecoder.decodeInt32`. The method `decodeKeys` of the embedded `dictDecoder`
is a parameter: from the key decoder state and the requested count it gives the new state, the
keys and the error. -/
def Int32DictDecoder.decodeInt32 {κ : Type}
    (decodeKeys : κ → Nat → κ × List Int × Option DecodeError)
    (d : Int32DictDecoder κ) (buf : List Int) : Outcome (Int32DictDecoder κ) :=
  match decodeKeys d.dictDecoder buf.length with
  | (s, _, some e) => .ret { d with dictDecoder := s } buf 0 (some e)
  | (s, keys, none) =>
    match dictFill d.values keys 0 buf with
    | none => .fault
    | some buf1 => .ret { d with dictDecoder := s } buf1 keys.length none

/-! ## DELTA_BINARY_PACKED decoder -/

/-- The primitives that `type_int32.go` uses and that are declared elsewhere in the package:
the two varint readers, each returning `(value, bytesConsumed)`, and the table
`unpack8Int32FuncByWidth` (entry `w`, for `0 ≤ w ≤ 32`, turns `w` bytes into 8 values). -/
structure Primitives where
  varInt32 : List Nat → Int × Int
  zigZagVarInt32 : List Nat → Int × Int
  unpack8Int32FuncByWidth : Nat → List Nat → Fin 8 → Int

/-- State of `int32DeltaBinaryPackedDecoder`. The fields `i` and `miniBlock` are Go `int`s
that start at 0 and are only incremented, hence naturals; `unpacker` holds the index of the
table entry it was assigned, `none` being the nil function. -/
structure Int32DeltaBinaryPackedDecoder where
  data : List Nat
  blockSize : Int
  miniBlocks : Int
  miniBlockSize : Int
  numValues : Int
  minDelta : Int
  miniBlockWidths : List Nat
  pos : Int
  i : Nat
  value : Int
  miniBlock : Nat
  miniBlockWidth : Nat
  unpacker : Option Nat
  miniBlockPos : Int
  miniBlockValues : List Int
  deriving DecidableEq, Repr

/-- The zero value of the decoder struct (a freshly constructed decoder). -/
def Int32DeltaBinaryPackedDecoder.zero : Int32DeltaBinaryPackedDecoder where
  data := []
  blockSize := 0
  miniBlocks := 0
  miniBlockSize := 0
  numValues := 0
  minDelta := 0
  miniBlockWidths := []
  pos := 0
  i := 0
  value := 0
  miniBlock := 0
  miniBlockWidth := 0
  unpacker := none
  miniBlockPos := 0
  miniBlockValues := List.replicate 8 0

/-- Result of the header readers and of `init`: the returned error (`none` for nil) with the
decoder state left behind, or a panic. -/
inductive HeaderResult where
  | ret (d : Int32DeltaBinaryPackedDecoder) (err : Option DecodeError)
  | fault
  deriving DecidableEq, Repr

/-- Method `int32DeltaBinaryPackedDecoder.readPageHeader`. -/
def Int32DeltaBinaryPackedDecoder.readPageHeader (P : Primitives)
    (d : Int32DeltaBinaryPackedDecoder) : HeaderResult :=
  match sliceFrom d.data d.pos with
  | none => .fault
  | some s1 =>
    let r1 := P.varInt32 s1
    let d := { d with blockSize := r1.1 }
    if r1.2 ≤ 0 then .ret d (some .deltaBlockSize) else
    let d := { d with pos := d.pos + r1.2 }
    match sliceFrom d.data d.pos with
    | none => .fault
    | some s2 =>
      let r2 := P.varInt32 s2
      let d := { d with miniBlocks := r2.1 }
      if r2.2 ≤ 0 then .ret d (some .deltaMiniBlocks) else
      -- `make([]byte, d.miniBlocks, d.miniBlocks)` panics on a negative length
      if d.miniBlocks < 0 then .fault else
      let d := { d with miniBlockWidths := List.replicate d.miniBlocks.toNat 0 }
      let d := { d with pos := d.pos + r2.2 }
      -- `d.blockSize / d.miniBlocks` panics on a zero divisor
      if d.miniBlocks = (0 : Int) then .fault else
      let d := { d with miniBlockSize := toInt32 (Int.tdiv d.blockSize d.miniBlocks) }
      match sliceFrom d.data d.pos with
      | none => .fault
      | some s3 =>
        let r3 := P.varInt32 s3
        let d := { d with numValues := r3.1 }
        if r3.2 ≤ 0 then .ret d (some .deltaTotalValueCount) else
        let d := { d with pos := d.pos + r3.2 }
        match sliceFrom d.data d.pos with
        | none => .fault
        | some s4 =>
          let r4 := P.zigZagVarInt32 s4
          let d := { d with value := r4.1 }
          if r4.2 ≤ 0 then .ret d (some .deltaFirstValue) else
          .ret { d with pos := d.pos + r4.2 } none

/-- Method `int32DeltaBinaryPackedDecoder.readBlockHeader`. The builtin `copy` overwrites the
first `min (len widths) (len rest)` entries of the bit-width table. -/
def Int32DeltaBinaryPackedDecoder.readBlockHeader (P : Primitives)
    (d : Int32DeltaBinaryPackedDecoder) : HeaderResult :=
  match sliceFrom d.data d.pos with
  | none => .fault
  | some s1 =>
    let r := P.zigZagVarInt32 s1
    let d := { d with minDelta := r.1 }
    if r.2 ≤ 0 then .ret d (some .deltaMinDelta) else
    let d := { d with pos := d.pos + r.2 }
    match sliceFrom d.data d.pos with
    | none => .fault
    | some s2 =>
      let n := min d.miniBlockWidths.length s2.length
      let d := { d with miniBlockWidths := s2.take n ++ d.miniBlockWidths.drop n }
      if n ≠ d.miniBlockWidths.length then .ret d (some .deltaBitWidths) else
      .ret { d with pos := d.pos + n, miniBlock := 0 } none

/-- Method `int32DeltaBinaryPackedDecoder.init`; the `count` argument is not used. -/
def Int32DeltaBinaryPackedDecoder.init (P : Primitives) (d : Int32DeltaBinaryPackedDecoder)
    (data : List Nat) (_count : Int) : HeaderResult :=
  let d := { d with data := data, pos := 0, i := 0 }
  match d.readPageHeader P with
  | .fault => .fault
  | .ret d (some e) => .ret d (some e)
  | .ret d none =>
    match d.readBlockHeader P with
    | .fault => .fault
    | .ret d (some e) => .ret d (some e)
    | .ret d none => .ret d none

/-- Lines 211-221 of `decodeInt32`: the start of a new mini block, reading a new block header
first when the mini blocks of the current block are used up. -/
def Int32DeltaBinaryPackedDecoder.startMiniBlock (P : Primitives)
    (d : Int32DeltaBinaryPackedDecoder) : HeaderResult :=
  let r := if (d.miniBlock : Int) ≥ d.miniBlocks then d.readBlockHeader P else .ret d none
  match r with
  | .fault => .fault
  | .ret d (some e) => .ret d (some e)
  | .ret d none =>
    match d.miniBlockWidths[d.miniBlock]? with
    | none => .fault
    | some w =>
      -- `unpack8Int32FuncByWidth` has 33 entries
      if w > 32 then .fault else
      .ret { d with miniBlockWidth := w, unpacker := some w, miniBlockPos := 0,
                    miniBlock := d.miniBlock + 1 } none

/-- Lines 223-232 of `decodeInt32`: unpack the next group of 8 raw deltas. -/
def Int32DeltaBinaryPackedDecoder.unpackGroup (P : Primitives)
    (d : Int32DeltaBinaryPackedDecoder) : HeaderResult :=
  let w : Int := d.miniBlockWidth
  if d.pos + w > d.data.length then .ret d (some .deltaNotEnoughData) else
  -- the slice `d.data[d.pos : d.pos+w]` panics on a negative bound
  if d.pos < 0 then .fault else
  match d.unpacker with
  | none => .fault
  | some t =>
    let group := P.unpack8Int32FuncByWidth t ((d.data.drop d.pos.toNat).take d.miniBlockWidth)
    let d := { d with miniBlockValues := List.ofFn group }
    let d := { d with miniBlockPos := d.miniBlockPos + w }
    let d := { d with pos := d.pos + w }
    if (d.i : Int) + 8 ≥ d.numValues then
      .ret { d with pos := d.pos + (Int.tdiv d.miniBlockSize 8 * w - d.miniBlockPos) } none
    else .ret d none

/-- Result of one iteration of the loop of `decodeInt32`. -/
inductive StepResult where
  | emit (d : Int32DeltaBinaryPackedDecoder) (v : Int)
  | err (d : Int32DeltaBinaryPackedDecoder) (e : DecodeError)
  | fault
  deriving DecidableEq, Repr

/-- Lines 234-237 of `decodeInt32`: the value stored in `buf[n]` and the state update. -/
def Int32DeltaBinaryPackedDecoder.emitValue (d : Int32DeltaBinaryPackedDecoder) :
    StepResult :=
  .emit { d with value := toInt32 (d.value +
                    toInt32 (d.miniBlockValues.getD (d.i % 8) 0 + d.minDelta)),
                 i := d.i + 1 } d.value

/-- Body of the loop of `int32DeltaBinaryPackedDecoder.decodeInt32` (lines 209-237). -/
def Int32DeltaBinaryPackedDecoder.loopBody (P : Primitives)
    (d : Int32DeltaBinaryPackedDecoder) : StepResult :=
  if d.i % 8 = 0 then
    -- `d.i % int(d.miniBlockSize)` panics on a zero divisor
    if d.miniBlockSize = 0 then .fault else
    let r := if Int.tmod d.i d.miniBlockSize = 0 then d.startMiniBlock P else .ret d none
    match r with
    | .fault => .fault
    | .ret d (some e) => .err d e
    | .ret d none =>
      match d.unpackGroup P with
      | .fault => .fault
      | .ret d (some e) => .err d e
      | .ret d none => d.emitValue
  else d.emitValue

/-- Value returned after the loop of `int32DeltaBinaryPackedDecoder.decodeInt32`. -/
def deltaFinish (d : Int32DeltaBinaryPackedDecoder) (buf : List Int) (n : Nat) :
    Outcome Int32DeltaBinaryPackedDecoder :=
  if n = 0 then .ret d buf 0 (some .deltaNoMoreData) else .ret d buf n none

/-- Loop of `int32DeltaBinaryPackedDecoder.decodeInt32`, with the result variable `n`. -/
def deltaLoop (P : Primitives) : Nat → Int32DeltaBinaryPackedDecoder → List Int → Nat →
    Outcome Int32DeltaBinaryPackedDecoder
  | 0, d, buf, n => deltaFinish d buf n
  | fuel + 1, d, buf, n =>
    if n < buf.length ∧ (d.i : Int) < d.numValues then
      match d.loopBody P with
      | .fault => .fault
      | .err d1 e => .ret d1 buf n (some e)
      | .emit d1 v => deltaLoop P fuel d1 (buf.set n v) (n + 1)
    else deltaFinish d buf n

/-- Method `int32DeltaBinaryPackedDecoder.decodeInt32`. -/
def Int32DeltaBinaryPackedDecoder.decodeInt32 (P : Primitives)
    (d : Int32DeltaBinaryPackedDecoder) (buf : List Int) :
    Outcome Int32DeltaBinaryPackedDecoder :=
  deltaLoop P buf.length d buf 0

/-! ## Reference primitives

Concrete readers and unpackers, used to evaluate the decoders on example pages. -/

/-- Modelled from the spec: the variable-length integer reader behind `varInt32` and
`zigZagVarInt32` (declared outside `type_int32.go`): base-128 groups, least significant
first, the high bit of a byte marking continuation; it returns `(value, bytesConsumed)` and
`bytesConsumed = 0` on truncated input. Arguments: remaining bytes, current shift,
accumulated value, bytes consumed so far. -/
def uvarint : List Nat → Nat → Nat → Int → Nat × Int
  | [], _, _, _ => (0, 0)
  | b :: bs, shift, acc, cnt =>
    if b < 128 then (acc + b * 2 ^ shift, cnt + 1)
    else uvarint bs (shift + 7) (acc + (b - 128) * 2 ^ shift) (cnt + 1)

/-- Modelled from the spec: `varInt32`, which is missing from the sources; a plain varint
converted to `int32`. -/
def refVarInt32 (bs : List Nat) : Int × Int :=
  let r := uvarint bs 0 0 0
  (toInt32 r.1, r.2)

/-- Modelled from the spec: `zigZagVarInt32`, which is missing from the sources; a varint `u`
standing for `u / 2` when `u` is even and for `-(u + 1) / 2` when `u` is odd. -/
def refZigZagVarInt32 (bs : List Nat) : Int × Int :=
  let r := uvarint bs 0 0 0
  let u : Int := r.1 % 4294967296
  (toInt32 (if u % 2 = 0 then u / 2 else -((u + 1) / 2)), r.2)

/-- The little-endian number held by a byte string. -/
def leNat : List Nat → Nat
  | [] => 0
  | b :: bs => b + 256 * leNat bs

/-- Modelled from the spec: the table `unpack8Int32FuncByWidth`, which is missing from the
sources; entry `w` reads `w` bytes holding 8 values of `w` bits each, least significant bit
first. -/
def refUnpack8 (w : Nat) (bs : List Nat) (k : Fin 8) : Int :=
  toInt32 ((leNat bs / 2 ^ (k.val * w) % 2 ^ w : Nat) : Int)

/-- The reference primitives bundled. -/
def refPrimitives : Primitives where
  varInt32 := refVarInt32
  zigZagVarInt32 := refZigZagVarInt32
  unpack8Int32FuncByWidth := refUnpack8

/-- The example page of the spec: block size 8, one mini block per block, 5 values, first
value 100 (zig-zag 200), then one block with min delta 2 (zig-zag 4) and bit width 0. -/
def examplePage : List Nat := [8, 1, 5, 200, 1, 4, 0]

/-- The four fields of the page header as the readers decode them from `data`, one after the
other: block size, number of mini blocks, total value count, first value. -/
def pageHeaderFields (P : Primitives) (data : List Nat) : Int × Int × Int × Int :=
  let r1 := P.varInt32 data
  let r2 := P.varInt32 (data.drop r1.2.toNat)
  let r3 := P.varInt32 (data.drop (r1.2 + r2.2).toNat)
  let r4 := P.zigZagVarInt32 (data.drop (r1.2 + r2.2 + r3.2).toNat)
  (r1.1, r2.1, r3.1, r4.1)

/-! ## Callers and traces of the delta decoder -/

/-- A caller making one `decodeInt32` call per buffer of `bufs`, in order, and stopping at the
first call that reports an error (the no-more-data error included); the result is the
concatenation of the valid output (first `n` slots) of the calls made and the final decoder
state, or `none` if a call panics. -/
def deltaDecodeUntilError (P : Primitives) (d : Int32DeltaBinaryPackedDecoder) :
    List (List Int) → Option (List Int × Int32DeltaBinaryPackedDecoder)
  | [] => some ([], d)
  | buf :: rest =>
    match d.decodeInt32 P buf with
    | .fault => none
    | .ret d1 buf1 n (some _) => some (buf1.take n, d1)
    | .ret d1 buf1 n none =>
      match deltaDecodeUntilError P d1 rest with
      | none => none
      | some (out, d2) => some (buf1.take n ++ out, d2)

/-- The decoder state once `j` values have been emitted by `j` calls with one-slot buffers;
`none` when fewer than `j` values can be emitted. -/
def deltaStateAfter (P : Primitives) (d : Int32DeltaBinaryPackedDecoder) (j : Nat) :
    Option Int32DeltaBinaryPackedDecoder :=
  match deltaDecodeUntilError P d (List.replicate j [0]) with
  | some (out, dj) => if out.length = j then some dj else none
  | none => none

/-- At most `k` iterations of the loop of `decodeInt32` seen as a trace: the values emitted,
the state reached and the error that stopped the loop, if any; `none` is a panic. -/
def deltaRun (P : Primitives) : Nat → Int32DeltaBinaryPackedDecoder →
    Option (List Int × Int32DeltaBinaryPackedDecoder × Option DecodeError)
  | 0, d => some ([], d, none)
  | k + 1, d =>
    if (d.i : Int) < d.numValues then
      match d.loopBody P with
      | .fault => none
      | .err d1 e => some ([], d1, some e)
      | .emit d1 v =>
        match deltaRun P k d1 with
        | none => none
        | some (out, d2, e) => some (v :: out, d2, e)
    else some ([], d, none)

/-- The buffer `buf` with the values `out` written from slot `n` on. -/
def writeAt (buf : List Int) (n : Nat) (out : List Int) : List Int :=
  buf.take n ++ out ++ buf.drop (n + out.length)

/-- The result of `decodeInt32` that corresponds to a trace of the loop started with `n`
slots of `buf` already filled. -/
def outcomeOfRun (buf : List Int) (n : Nat) :
    Option (List Int × Int32DeltaBinaryPackedDecoder × Option DecodeError) →
    Outcome Int32DeltaBinaryPackedDecoder
  | none => .fault
  | some (out, d1, some e) => .ret d1 (writeAt buf n out) (n + out.length) (some e)
  | some (out, d1, none) => deltaFinish d1 (writeAt buf n out) (n + out.length)

/-- The decoder state after `init` on `examplePage` with the reference primitives. -/
def exampleState : Int32DeltaBinaryPackedDecoder where
  data := examplePage
  blockSize := 8
  miniBlocks := 1
  miniBlockSize := 8
  numValues := 5
  minDelta := 2
  miniBlockWidths := [0]
  pos := 7
  i := 0
  value := 100
  miniBlock := 0
  miniBlockWidth := 0
  unpacker := none
  miniBlockPos := 0
  miniBlockValues := List.replicate 8 0

/-- A second example page: block size 16, two mini blocks per block, 12 values, first value 1;
one block with min delta -1 and bit widths 3 and 0; the first mini block holds the raw
deltas 0..7 in 3 bytes, the second one takes no bytes. -/
def packedPage : List Nat := [16, 2, 12, 2, 1, 3, 0, 136, 198, 250]

/-- The decoder state after `init` on `packedPage` with the reference primitives. -/
def packedState : Int32DeltaBinaryPackedDecoder where
  data := packedPage
  blockSize := 16
  miniBlocks := 2
  miniBlockSize := 8
  numValues := 12
  minDelta := -1
  miniBlockWidths := [3, 0]
  pos := 7
  i := 0
  value := 1
  miniBlock := 0
  miniBlockWidth := 0
  unpacker := none
  miniBlockPos := 0
  miniBlockValues := List.replicate 8 0

/-- A truncated page: as `packedPage` but with bit widths 3 and 3, and no bytes for the second
mini block. -/
def truncatedPage : List Nat := [16, 2, 12, 2, 1, 3, 3, 136, 198, 250]

/-- The decoder state after `init` on `truncatedPage` with the reference primitives. -/
def truncatedState : Int32DeltaBinaryPackedDecoder :=
  { packedState with data := truncatedPage, miniBlockWidths := [3, 3] }

/-- The state left by a 12-slot `decodeInt32` call on `truncatedState`: 8 values emitted, then
the second mini block started and found truncated. -/
def truncatedStateAfter : Int32DeltaBinaryPackedDecoder :=
  { truncatedState with
    i := 8, pos := 10, value := 21, miniBlock := 2, miniBlockWidth := 3,
    unpacker := some 3, miniBlockValues := [0, 1, 2, 3, 4, 5, 6, 7] }

/-- The state of the decoder on `truncatedPage` once 8 values are emitted, that is right
before the first group of the second mini block is attempted. -/
def truncatedStateBefore : Int32DeltaBinaryPackedDecoder :=
  { truncatedState with
    i := 8, pos := 10, value := 21, miniBlock := 1, miniBlockWidth := 3,
    unpacker := some 3, miniBlockPos := 3, miniBlockValues := [0, 1, 2, 3, 4, 5, 6, 7] }

/-! ## Reachable states -/

/-- States of the delta decoder reachable from `d` by a sequence of `decodeInt32` calls, with
any output buffers. -/
inductive DeltaReachable (P : Primitives) (d : Int32DeltaBinaryPackedDecoder) :
    Int32DeltaBinaryPackedDecoder → Prop where
  | start : DeltaReachable P d d
  | call (s s1 : Int32DeltaBinaryPackedDecoder) (buf buf1 : List Int) (n : Nat)
      (e : Option DecodeError) :
      DeltaReachable P d s → s.decodeInt32 P buf = .ret s1 buf1 n e → DeltaReachable P d s1

/-- States of the delta decoder reachable from `d` by iterations of the loop of `decodeInt32`
(an iteration runs only while `i < numValues`); these are the states the decoder goes through
during and between calls. -/
inductive LoopReachable (P : Primitives) (d : Int32DeltaBinaryPackedDecoder) :
    Int32DeltaBinaryPackedDecoder → Prop where
  | start : LoopReachable P d d
  | emit (s s1 : Int32DeltaBinaryPackedDecoder) (v : Int) :
      LoopReachable P d s → (s.i : Int) < s.numValues → s.loopBody P = .emit s1 v →
      LoopReachable P d s1
  | err (s s1 : Int32DeltaBinaryPackedDecoder) (e : DecodeError) :
      LoopReachable P d s → (s.i : Int) < s.numValues → s.loopBody P = .err s1 e →
      LoopReachable P d s1

/-- States of the plain decoder reachable from `d` by a sequence of `decodeInt32` calls. -/
inductive PlainReachable (d : Int32PlainDecoder) : Int32PlainDecoder → Prop where
  | start : PlainReachable d d
  | call (s s1 : Int32PlainDecoder) (buf buf1 : List Int) (n : Nat)
      (e : Option DecodeError) :
      PlainReachable d s → s.decodeInt32 buf = .ret s1 buf1 n e → PlainReachable d s1

/-! ## Generic output buffers (`decodeE`) -/

/-- A Go `interface{}` value held by a slot of a generic output buffer: either a boxed `int32`
or any other value, identified by a tag. -/
inductive GenericValue where
  | int32 (v : Int)
  | other (tag : Nat)
  deriving DecidableEq, Repr

/-- Result of a `decodeE` call: as `Outcome`, with a generic buffer. -/
inductive OutcomeE (σ : Type) where
  | ret (d : σ) (buf : List GenericValue) (n : Nat) (err : Option DecodeError)
  | fault
  deriving DecidableEq, Repr

/-- The loop `for i := 0; i < n; i++ { buf[i] = b[i] }` of `decodeE`, from slot `i` on with
`k = n - i` iterations left; `none` when an index expression panics. -/
def copyLoop (b : List Int) : Nat → Nat → List GenericValue → Option (List GenericValue)
  | 0, _, buf => some buf
  | k + 1, i, buf =>
    match b[i]? with
    | none => none
    | some v => if i < buf.length then copyLoop b k (i + 1) (buf.set i (.int32 v)) else none

/-- The common body of the three `decodeE` methods: decode into a fresh `[]int32` of the
same length (zero filled by `make`), then copy the first `n` values into the generic
buffer. -/
def decodeEWith {σ : Type} (decodeInt32 : List Int → Outcome σ) (buf : List GenericValue) :
    OutcomeE σ :=
  match decodeInt32 (List.replicate buf.length 0) with
  | .fault => .fault
  | .ret d b n err =>
    match copyLoop b n 0 buf with
    | none => .fault
    | some buf1 => .ret d buf1 n err

/-- Method `int32PlainDecoder.decodeE`. -/
def Int32PlainDecoder.decodeE (d : Int32PlainDecoder) (buf : List GenericValue) :
    OutcomeE Int32PlainDecoder :=
  decodeEWith d.decodeInt32 buf

/-- Method `int32DictDecoder.decodeE`. -/
def Int32DictDecoder.decodeE {κ : Type}
    (decodeKeys : κ → Nat → κ × List Int × Option DecodeError)
    (d : Int32DictDecoder κ) (buf : List GenericValue) : OutcomeE (Int32DictDecoder κ) :=
  decodeEWith (d.decodeInt32 decodeKeys) buf

/-- Method `int32DeltaBinaryPackedDecoder.decodeE`. -/
def Int32DeltaBinaryPackedDecoder.decodeE (P : Primitives)
    (d : Int32DeltaBinaryPackedDecoder) (buf : List GenericValue) :
    OutcomeE Int32DeltaBinaryPackedDecoder :=
  decodeEWith (d.decodeInt32 P) buf

/-- The typed call `typed` (on an int32 buffer) and the generic call `generic` (on the generic
buffer `g`) agree: both panic, or both return the same state, count and error, the first `n`
generic slots hold the typed values and the generic slots from `n` on are those of `g`. -/
def SameResult {σ : Type} (typed : Outcome σ) (generic : OutcomeE σ)
    (g : List GenericValue) : Prop :=
  match typed, generic with
  | .fault, .fault => True
  | .ret d1 b1 n e, .ret d2 g1 n2 e2 =>
    d2 = d1 ∧ n2 = n ∧ e2 = e ∧ g1.length = g.length
      ∧ (∀ i, i < n → g1[i]? = (b1[i]?).map GenericValue.int32)
      ∧ (∀ i, n ≤ i → g1[i]? = g[i]?)
  | _, _ => False

/-- Two typed calls agree: both panic, or both return the same state, count and error and the
same values in the first `n` slots. -/
def SameTyped {σ : Type} (o o2 : Outcome σ) : Prop :=
  match o, o2 with
  | .fault, .fault => True
  | .ret d1 b1 n e, .ret d3 b3 n3 e3 =>
    d3 = d1 ∧ n3 = n ∧ e3 = e ∧ ∀ j, j < n → b3[j]? = b1[j]?
  | _, _ => False

/-! ## Invariants of the delta decoder on well-formed headers -/

/-- Bookkeeping of the in-mini-block byte offset for a mini-block size `m`: inside a mini
block (value index not a multiple of `m`) the offset is the active bit width times the number
of groups of this mini block unpacked so far. -/
def OffsetInvariant (m : Nat) (s : Int32DeltaBinaryPackedDecoder) : Prop :=
  s.miniBlockSize = (m : Int)
  ∧ (s.i % m ≠ 0 →
      s.miniBlockPos = (((s.i % m + 7) / 8 : Nat) : Int) * (s.miniBlockWidth : Int))

/-- The page used against cursor monotonicity: block size 3, one mini block per block (so a
mini-block size of 3, not a multiple of 8), 9 values, bit width 1, two groups of one byte. -/
def oddPage : List Nat := [3, 1, 9, 0, 0, 1, 255, 255]

/-- The decoder state after `init` on `oddPage` with the reference primitives. -/
def oddState : Int32DeltaBinaryPackedDecoder where
  data := oddPage
  blockSize := 3
  miniBlocks := 1
  miniBlockSize := 3
  numValues := 9
  minDelta := 0
  miniBlockWidths := [1]
  pos := 6
  i := 0
  value := 0
  miniBlock := 0
  miniBlockWidth := 0
  unpacker := none
  miniBlockPos := 0
  miniBlockValues := List.replicate 8 0

/-- The state on `oddPage` once 8 values are emitted. -/
def oddState8 : Int32DeltaBinaryPackedDecoder :=
  { oddState with
    pos := 7, i := 8, value := 8, miniBlock := 1, miniBlockWidth := 1, unpacker := some 1,
    miniBlockPos := 1, miniBlockValues := [1, 1, 1, 1, 1, 1, 1, 1] }

/-- The state on `oddPage` once all 9 values are emitted. -/
def oddState9 : Int32DeltaBinaryPackedDecoder :=
  { oddState with
    pos := 6, i := 9, value := 9, miniBlock := 1, miniBlockWidth := 1, unpacker := some 1,
    miniBlockPos := 2, miniBlockValues := [1, 1, 1, 1, 1, 1, 1, 1] }

/-- Progress of the cursor through the mini block that holds the last group of a page: `sa`
is the state right after that mini block was started, `m` the mini-block size, `N` the total
value count, `L` the value index of the last group. Up to index `L` the cursor is the start
offset plus the bytes consumed in the mini block; past `L` it is the start offset plus the
full byte span of the mini block. -/
def LastMiniBlockProgress (sa : Int32DeltaBinaryPackedDecoder) (m N L t : Nat)
    (s : Int32DeltaBinaryPackedDecoder) : Prop :=
  s.i = t ∧ s.miniBlockSize = (m : Int) ∧ s.numValues = (N : Int)
  ∧ s.miniBlockWidth = sa.miniBlockWidth
  ∧ (t ≤ L → s.pos - s.miniBlockPos = sa.pos)
  ∧ (L < t → s.pos = sa.pos + ((m / 8 : Nat) : Int) * (sa.miniBlockWidth : Int))

/-- A page with a partially used mini block: block size 16, one mini block per block, 5
values, bit width 3; the mini block spans 6 bytes of which the only group uses 3. -/
def paddedPage : List Nat := [16, 1, 5, 2, 1, 3, 136, 198, 250, 0, 0, 0]

/-- The decoder state after `init` on `paddedPage` with the reference primitives. -/
def paddedState : Int32DeltaBinaryPackedDecoder where
  data := paddedPage
  blockSize := 16
  miniBlocks := 1
  miniBlockSize := 16
  numValues := 5
  minDelta := -1
  miniBlockWidths := [3]
  pos := 6
  i := 0
  value := 1
  miniBlock := 0
  miniBlockWidth := 0
  unpacker := none
  miniBlockPos := 0
  miniBlockValues := List.replicate 8 0

/-- The state on `paddedPage` once all 5 values are emitted. -/
def paddedStateEnd : Int32DeltaBinaryPackedDecoder :=
  { paddedState with
    pos := 12, i := 5, value := 6, miniBlock := 1, miniBlockWidth := 3, unpacker := some 3,
    miniBlockPos := 3, miniBlockValues := [0, 1, 2, 3, 4, 5, 6, 7] }

/-- The number of bytes taken by the four fields of the page header, as the readers report
them (same slices as `pageHeaderFields`). -/
def pageHeaderLength (P : Primitives) (data : List Nat) : Int :=
  let r1 := P.varInt32 data
  let r2 := P.varInt32 (data.drop r1.2.toNat)
  let r3 := P.varInt32 (data.drop (r1.2 + r2.2).toNat)
  let r4 := P.zigZagVarInt32 (data.drop (r1.2 + r2.2 + r3.2).toNat)
  r1.2 + r2.2 + r3.2 + r4.2

/-- The condition under which an iteration of the loop of `decodeInt32` calls
`readBlockHeader` (lines 209-212): the value index is a multiple of 8 and of the mini-block
size, and the mini blocks of the current block are used up. -/
def headerDue (s : Int32DeltaBinaryPackedDecoder) : Prop :=
  s.i % 8 = 0 ∧ Int.tmod s.i s.miniBlockSize = 0 ∧ (s.miniBlock : Int) ≥ s.miniBlocks

/-- Bookkeeping of the mini-block index for `M` mini blocks of `m` values per block: before
the first value no mini block is started; afterwards, writing the value index as
`b * (M * m) + k * m + r` with `k < M` and `1 ≤ r ≤ m`, the mini-block index is `k + 1`. -/
def BlockCountInvariant (M m : Nat) (s : Int32DeltaBinaryPackedDecoder) : Prop :=
  s.miniBlocks = (M : Int) ∧ s.miniBlockSize = (m : Int)
  ∧ ((s.i = 0 ∧ s.miniBlock = 0)
    ∨ ∃ b k r, s.i = b * (M * m) + k * m + r ∧ k < M ∧ 1 ≤ r ∧ r ≤ m ∧ s.miniBlock = k + 1)

/-- A page of two blocks: block size 8, one mini block per block, 12 values, first value 0;
a first block with min delta 2 and bit width 0, a second block with min delta 3 and bit
width 0. -/
def twoBlockPage : List Nat := [8, 1, 12, 0, 4, 0, 6, 0]

/-- The decoder state after `init` on `twoBlockPage` with the reference primitives. -/
def twoBlockState : Int32DeltaBinaryPackedDecoder where
  data := twoBlockPage
  blockSize := 8
  miniBlocks := 1
  miniBlockSize := 8
  numValues := 12
  minDelta := 2
  miniBlockWidths := [0]
  pos := 6
  i := 0
  value := 0
  miniBlock := 0
  miniBlockWidth := 0
  unpacker := none
  miniBlockPos := 0
  miniBlockValues := List.replicate 8 0

/-- The state on `twoBlockPage` once 8 values are emitted, right before the second block. -/
def twoBlockState8 : Int32DeltaBinaryPackedDecoder :=
  { twoBlockState with i := 8, value := 16, miniBlock := 1, unpacker := some 0 }

/-- The conditions under which no step of a loop iteration can panic: a non-zero mini-block
size, a bit-width table with one entry per mini block (at least one), entries of at most 32
while mini blocks of the current block remain, an unpacker once a value has been emitted, and
a cursor inside the data unless no further group is due before the total count. -/
def SafeState (s : Int32DeltaBinaryPackedDecoder) : Prop :=
  s.miniBlockSize ≠ 0 ∧ 0 < s.miniBlocks
  ∧ s.miniBlockWidths.length = s.miniBlocks.toNat
  ∧ ((s.miniBlock : Int) < s.miniBlocks → ∀ w ∈ s.miniBlockWidths, w ≤ 32)
  ∧ (s.i ≠ 0 → s.unpacker ≠ none)
  ∧ ((0 ≤ s.pos ∧ s.pos ≤ (s.data.length : Int))
    ∨ s.numValues ≤ (((s.i + 7) / 8 * 8 : Nat) : Int))


/-- A page whose total value count field is the 5-byte varint of `0xFFFFFFFF`: block size 8,
one mini block per block, first value 0, then a block header with min delta 0 and bit
width 0. -/
def negCountPage : List Nat := [8, 1, 255, 255, 255, 255, 15, 0, 0, 0]

/-- The decoder state after `init` on `negCountPage` with the reference primitives: the count
converted to `int32` is -1. -/
def negCountState : Int32DeltaBinaryPackedDecoder where
  data := negCountPage
  blockSize := 8
  miniBlocks := 1
  miniBlockSize := 8
  numValues := -1
  minDelta := 0
  miniBlockWidths := [0]
  pos := 10
  i := 0
  value := 0
  miniBlock := 0
  miniBlockWidth := 0
  unpacker := none
  miniBlockPos := 0
  miniBlockValues := List.replicate 8 0

/-! ## Data supplied by a page -/

/-- The data at the cursor of `s` holds a block header: a min delta the reader can read,
followed by one byte per entry of the bit-width table (one per mini block), each at most
32. -/
def HeaderSupplied (P : Primitives) (s : Int32DeltaBinaryPackedDecoder) : Prop :=
  0 < (P.zigZagVarInt32 (s.data.drop s.pos.toNat)).2
  ∧ s.pos + (P.zigZagVarInt32 (s.data.drop s.pos.toNat)).2 + s.miniBlockWidths.length
      ≤ (s.data.length : Int)
  ∧ ∀ w ∈ (s.data.drop (s.pos + (P.zigZagVarInt32 (s.data.drop s.pos.toNat)).2).toNat).take
      s.miniBlockWidths.length, w ≤ 32

/-- The data supplies what the iteration of the loop at state `s` (value index a multiple of
8) reads: a block header at the cursor when one is due, and, at the cursor at which the group
is unpacked (after the start of a new mini block when one starts), as many bytes as the
active bit width. -/
def DataSupplied (P : Primitives) (s : Int32DeltaBinaryPackedDecoder) : Prop :=
  (headerDue s → HeaderSupplied P s)
  ∧ (Int.tmod s.i s.miniBlockSize ≠ 0 →
      s.pos + (s.miniBlockWidth : Int) ≤ (s.data.length : Int))
  ∧ (Int.tmod s.i s.miniBlockSize = 0 → ∀ sa, s.startMiniBlock P = .ret sa none →
      sa.pos + (sa.miniBlockWidth : Int) ≤ (sa.data.length : Int))

/-- The block header in force at value index `j` was read at value index `h` from the cursor
`hpos`: by `init` when `h = 0` (the cursor right after the page header, no header being due
in the first iteration), else by the iteration at index `h` (a header is due in the state
with `h` values emitted, whose cursor is `hpos`); and no header is due at the indices after
`h` up to `j`. -/
def HeaderInForce (P : Primitives) (d : Int32DeltaBinaryPackedDecoder) (data : List Nat)
    (j h : Nat) (hpos : Int) : Prop :=
  h ≤ j
  ∧ ((h = 0 ∧ hpos = pageHeaderLength P data ∧ ¬ headerDue d)
    ∨ (0 < h ∧ ∃ sh, deltaStateAfter P d h = some sh ∧ headerDue sh ∧ hpos = sh.pos))
  ∧ ∀ k, h < k → k ≤ j → ∀ sk, deltaStateAfter P d k = some sk → ¬ headerDue sk

/-- A page whose block size 1 is smaller than its number of mini blocks 2, so that the
mini-block size is 0: 5 values, first value 0, a block header with min delta 0 and bit
widths 0 and 0 (no group takes any byte). -/
def zeroSizePage : List Nat := [1, 2, 5, 0, 0, 0, 0]

/-- The decoder state after `init` on `zeroSizePage` with the reference primitives. -/
def zeroSizeState : Int32DeltaBinaryPackedDecoder where
  data := zeroSizePage
  blockSize := 1
  miniBlocks := 2
  miniBlockSize := 0
  numValues := 5
  minDelta := 0
  miniBlockWidths := [0, 0]
  pos := 7
  i := 0
  value := 0
  miniBlock := 0
  miniBlockWidth := 0
  unpacker := none
  miniBlockPos := 0
  miniBlockValues := List.replicate 8 0

/-- A page of two blocks with packed groups: block size 8, one mini block per block, 12
values, first value 0; a first block with min delta 2, bit width 1 and the group byte 170
(raw deltas 0,1,0,1,0,1,0,1); a second block with min delta -1, bit width 2 and the group
bytes 228, 228 (raw deltas 0,1,2,3,0,1,2,3). -/
def mixedPage : List Nat := [8, 1, 12, 0, 4, 1, 170, 1, 2, 228, 228]

/-- The decoder state after `init` on `mixedPage` with the reference primitives. -/
def mixedState : Int32DeltaBinaryPackedDecoder where
  data := mixedPage
  blockSize := 8
  miniBlocks := 1
  miniBlockSize := 8
  numValues := 12
  minDelta := 2
  miniBlockWidths := [1]
  pos := 6
  i := 0
  value := 0
  miniBlock := 0
  miniBlockWidth := 0
  unpacker := none
  miniBlockPos := 0
  miniBlockValues := List.replicate 8 0

/-- The state on `mixedPage` once 8 values are emitted, right before the second block. -/
def mixedState8 : Int32DeltaBinaryPackedDecoder :=
  { mixedState with
    pos := 7, i := 8, value := 20, miniBlock := 1, miniBlockWidth := 1, unpacker := some 1,
    miniBlockPos := 1, miniBlockValues := [0, 1, 0, 1, 0, 1, 0, 1] }

/-- The state on `mixedPage` in which the group of the second block is unpacked: the second
block header is read and its mini block started. -/
def mixedState8Start : Int32DeltaBinaryPackedDecoder :=
  { mixedState8 with
    pos := 9, minDelta := -1, miniBlockWidths := [2], miniBlockWidth := 2,
    unpacker := some 2, miniBlockPos := 0 }

/-- The state on `mixedPage` once all 12 values are emitted. -/
def mixedStateEnd : Int32DeltaBinaryPackedDecoder :=
  { mixedState8Start with
    pos := 11, i := 12, value := 22, miniBlockPos := 2,
    miniBlockValues := [0, 1, 2, 3, 0, 1, 2, 3] }
/-! ## Theorems: PLAIN decoder -/

theorem toInt32_of_range (v : Int) (h : -2147483648 ≤ v ∧ v < 2147483648) : toInt32 v = v := by
  unfold toInt32; omega

theorem uint32LE_le32 (v : Int) (h : -2147483648 ≤ v ∧ v < 2147483648) (rest : List Nat) :
    ∃ u, uint32LE (le32 v ++ rest) = some u ∧ toInt32 (u : Int) = v := by
  refine ⟨_, rfl, ?_⟩
  unfold toInt32
  push_cast
  omega

theorem encodePlain_length (vs : List Int) : (encodePlain vs).length = 4 * vs.length := by
  induction vs with
  | nil => rfl
  | cons v vs ih => simp [encodePlain, le32, ih]; omega

theorem drop_encodePlain (vs : List Int) (k : Nat) :
    (encodePlain vs).drop (4 * k) = encodePlain (vs.drop k) := by
  induction k generalizing vs with
  | zero => simp
  | succ k ih =>
    cases vs with
    | nil => simp [encodePlain]
    | cons v vs =>
      have h4 : 4 * (k + 1) = 4 * k + 4 := by ring
      simp [encodePlain, le32, h4, ih]


theorem take_succ_set (buf : List Int) (i : Nat) (v : Int) (h : i < buf.length) :
    (buf.set i v).take (i + 1) = buf.take i ++ [v] := by
  induction buf generalizing i with
  | nil => simp at h
  | cons b bs ih =>
    cases i with
    | zero => simp
    | succ i => simp at h; simp [ih i h]

theorem plainLoop_succ (fuel : Nat) (d : Int32PlainDecoder) (buf : List Int) (i : Nat)
    (err : Option DecodeError) :
    plainLoop (fuel + 1) d buf i err =
      if i < buf.length ∧ d.pos < d.data.length then
        match uint32LE (d.data.drop d.pos) with
        | none => .fault
        | some u => plainLoop fuel { d with pos := d.pos + 4 } (buf.set i (toInt32 u)) (i + 1)
            (if d.pos + 4 > d.data.length then some DecodeError.plainNotEnoughData else err)
      else plainFinish d buf i err := rfl

theorem plainLoop_encodePlain (vs : List Int) (hvs : ∀ v ∈ vs, -2147483648 ≤ v ∧ v < 2147483648)
    (fuel : Nat) : ∀ (k : Nat) (buf : List Int) (i : Nat) (err : Option DecodeError),
    fuel + i = buf.length →
    ∃ buf1, plainLoop fuel ⟨encodePlain vs, 4 * k⟩ buf i err
        = plainFinish ⟨encodePlain vs, 4 * (k + min fuel (vs.length - k))⟩ buf1
            (i + min fuel (vs.length - k)) err
      ∧ buf1.take (i + min fuel (vs.length - k))
        = buf.take i ++ (vs.drop k).take (min fuel (vs.length - k)) := by
  induction fuel with
  | zero =>
    intro k buf i err _
    exact ⟨buf, by simp [plainLoop], by simp⟩
  | succ fuel ih =>
    intro k buf i err hlen
    by_cases hk : k < vs.length
    · have hcond : i < buf.length ∧ 4 * k < (encodePlain vs).length := by
        rw [encodePlain_length]; omega
      have herr : ¬ (4 * k + 4 > (encodePlain vs).length) := by
        rw [encodePlain_length]; omega
      obtain ⟨v, tl, hdrop⟩ : ∃ v tl, vs.drop k = v :: tl := by
        cases hd : vs.drop k with
        | nil => simp at hd; omega
        | cons v tl => exact ⟨v, tl, rfl⟩
      have hv : v ∈ vs := List.mem_of_mem_drop (by rw [hdrop]; simp)
      have htl : vs.drop (k + 1) = tl := by
        have := congrArg (List.drop 1) hdrop
        simpa [List.drop_drop, Nat.add_comm] using this
      obtain ⟨u, hu, huv⟩ := uint32LE_le32 v (hvs v hv) (encodePlain tl)
      have hread : uint32LE ((encodePlain vs).drop (4 * k)) = some u := by
        rw [drop_encodePlain, hdrop]; exact hu
      obtain ⟨buf1, h1, h2⟩ := ih (k + 1) (buf.set i (toInt32 u)) (i + 1) err
        (by simp; omega)
      have hmin : min (fuel + 1) (vs.length - k) = 1 + min fuel (vs.length - (k + 1)) := by
        omega
      have e1 : i + (1 + min fuel (vs.length - (k + 1))) =
          i + 1 + min fuel (vs.length - (k + 1)) := by ring
      have e2 : k + (1 + min fuel (vs.length - (k + 1))) =
          k + 1 + min fuel (vs.length - (k + 1)) := by ring
      refine ⟨buf1, ?_, ?_⟩
      · rw [plainLoop_succ]
        simp only [hcond, herr, hread, and_self, if_true, if_false]
        have h4 : 4 * k + 4 = 4 * (k + 1) := by ring
        rw [h4, h1, hmin, e1, e2]
      · rw [hmin, e1, h2, huv, take_succ_set buf i v hcond.1, hdrop, htl]
        simp [Nat.add_comm 1]
    · have hcond : ¬ (i < buf.length ∧ 4 * k < (encodePlain vs).length) := by
        rw [encodePlain_length]; omega
      have hmin : min (fuel + 1) (vs.length - k) = 0 := by omega
      refine ⟨buf, ?_, ?_⟩
      · rw [plainLoop_succ, if_neg hcond, hmin]; rfl
      · simp [hmin]

theorem decodeInt32_encodePlain (vs : List Int)
    (hvs : ∀ v ∈ vs, -2147483648 ≤ v ∧ v < 2147483648) (k : Nat) (buf : List Int) :
    ∃ buf1 err, Int32PlainDecoder.decodeInt32 ⟨encodePlain vs, 4 * k⟩ buf
        = .ret ⟨encodePlain vs, 4 * (k + min buf.length (vs.length - k))⟩ buf1
            (min buf.length (vs.length - k)) err
      ∧ buf1.take (min buf.length (vs.length - k))
        = (vs.drop k).take (min buf.length (vs.length - k)) := by
  obtain ⟨buf1, h1, h2⟩ := plainLoop_encodePlain vs hvs buf.length k buf 0 none (by simp)
  simp only [Nat.zero_add, List.take_zero, List.nil_append] at h1 h2
  unfold Int32PlainDecoder.decodeInt32
  rw [h1]
  unfold plainFinish
  split
  · exact ⟨buf1, _, rfl, h2⟩
  · exact ⟨buf1, _, rfl, h2⟩

theorem plainDecodeAll_encodePlain (vs : List Int)
    (hvs : ∀ v ∈ vs, -2147483648 ≤ v ∧ v < 2147483648) (bufs : List (List Int)) :
    ∀ k : Nat, ∃ d1, plainDecodeAll ⟨encodePlain vs, 4 * k⟩ bufs
      = some ((vs.drop k).take (bufs.map List.length).sum, d1) := by
  induction bufs with
  | nil => intro k; exact ⟨⟨encodePlain vs, 4 * k⟩, by simp [plainDecodeAll]⟩
  | cons buf rest ih =>
    intro k
    obtain ⟨buf1, err, h1, h2⟩ := decodeInt32_encodePlain vs hvs k buf
    obtain ⟨d1, h3⟩ := ih (k + min buf.length (vs.length - k))
    refine ⟨d1, ?_⟩
    simp only [plainDecodeAll, h1, h3, h2, List.map_cons, List.sum_cons]
    congr 2
    rw [List.take_add, List.drop_drop]
    by_cases hm : buf.length ≤ vs.length - k
    · rw [Nat.min_eq_left hm]
    · have hm2 : min buf.length (vs.length - k) = vs.length - k := by omega
      have e1 : (vs.drop k).take (vs.length - k) = vs.drop k :=
        List.take_of_length_le (by simp)
      have e2 : (vs.drop k).take buf.length = vs.drop k :=
        List.take_of_length_le (by simp; omega)
      have e3 : vs.drop (k + (vs.length - k)) = [] := List.drop_of_length_le (by omega)
      have e4 : vs.drop (k + buf.length) = [] := List.drop_of_length_le (by omega)
      rw [hm2, e1, e2, e3, e4]

/-- C1 (plain round trip under arbitrary chunking): decoding the 4-byte little-endian
encoding of any list `vs` of int32 values with any sequence of output buffers yields valid
output that concatenates to the first `min (len vs) (total capacity)` values of `vs`. -/
theorem plain_round_trip_chunked (vs : List Int)
    (hvs : ∀ v ∈ vs, -2147483648 ≤ v ∧ v < 2147483648) (d0 : Int32PlainDecoder)
    (bufs : List (List Int)) :
    ∃ d1, plainDecodeAll (d0.init (encodePlain vs) vs.length).1 bufs
      = some (vs.take (min vs.length (bufs.map List.length).sum), d1) := by
  obtain ⟨d1, h⟩ := plainDecodeAll_encodePlain vs hvs bufs 0
  refine ⟨d1, ?_⟩
  simp only [Nat.mul_zero, List.drop_zero] at h
  rw [Int32PlainDecoder.init, h]
  congr 2
  by_cases hm : vs.length ≤ (bufs.map List.length).sum
  · rw [Nat.min_eq_left hm, List.take_of_length_le hm, List.take_of_length_le (le_refl _)]
  · rw [Nat.min_eq_right (by omega)]

/-- Witness for C1: fourteen values decoded with capacities `[3, 1, 10]` and with `[14]`. -/
theorem plain_round_trip_chunked_witness :
    (∀ v ∈ sampleValues, -2147483648 ≤ v ∧ v < 2147483648)
    ∧ (∃ d1, plainDecodeAll
          ((Int32PlainDecoder.mk [] 0).init (encodePlain sampleValues) sampleValues.length).1
          [List.replicate 3 0, List.replicate 1 0, List.replicate 10 0]
        = some (sampleValues.take (min sampleValues.length
            ([List.replicate 3 0, List.replicate 1 0, List.replicate 10 (0 : Int)].map
              List.length).sum), d1))
    ∧ (∃ d1, plainDecodeAll
          ((Int32PlainDecoder.mk [] 0).init (encodePlain sampleValues) sampleValues.length).1
          [List.replicate 14 0]
        = some (sampleValues.take (min sampleValues.length
            ([List.replicate 14 (0 : Int)].map List.length).sum), d1)) :=
  ⟨by decide,
   plain_round_trip_chunked sampleValues (by decide) ⟨[], 0⟩ _,
   plain_round_trip_chunked sampleValues (by decide) ⟨[], 0⟩ _⟩

theorem plainFinish_ret (d d1 : Int32PlainDecoder) (buf buf1 : List Int) (i n : Nat)
    (err e : Option DecodeError) (h : plainFinish d buf i err = .ret d1 buf1 n e) :
    d1 = d ∧ buf1 = buf ∧ n = i := by
  unfold plainFinish at h
  split at h <;> cases h <;> exact ⟨rfl, rfl, rfl⟩

theorem plainLoop_ret (fuel : Nat) : ∀ (d : Int32PlainDecoder) (buf : List Int) (i : Nat)
    (err : Option DecodeError) (d1 : Int32PlainDecoder) (buf1 : List Int) (n : Nat)
    (e : Option DecodeError), i ≤ buf.length →
    plainLoop fuel d buf i err = .ret d1 buf1 n e →
    d1.data = d.data ∧ d1.pos + 4 * i = d.pos + 4 * n ∧ buf1.length = buf.length
      ∧ n ≤ buf.length := by
  induction fuel with
  | zero =>
    intro d buf i err d1 buf1 n e hi h
    obtain ⟨rfl, rfl, rfl⟩ := plainFinish_ret _ _ _ _ _ _ _ _ h
    exact ⟨rfl, rfl, rfl, hi⟩
  | succ fuel ih =>
    intro d buf i err d1 buf1 n e hi h
    rw [plainLoop_succ] at h
    split at h
    · rename_i hc
      split at h
      · cases h
      · obtain ⟨h1, h2, h3, h4⟩ := ih _ _ _ _ _ _ _ _ (by simp; omega) h
        simp at h1 h2 h3 h4
        exact ⟨h1, by omega, h3, h4⟩
    · obtain ⟨rfl, rfl, rfl⟩ := plainFinish_ret _ _ _ _ _ _ _ _ h
      exact ⟨rfl, rfl, rfl, hi⟩

theorem plainDecodeAll_pos (bufs : List (List Int)) : ∀ (d d1 : Int32PlainDecoder)
    (out : List Int), plainDecodeAll d bufs = some (out, d1) →
    d1.data = d.data ∧ d1.pos = d.pos + 4 * out.length := by
  induction bufs with
  | nil =>
    intro d d1 out h
    simp [plainDecodeAll] at h
    obtain ⟨rfl, rfl⟩ := h
    simp
  | cons buf rest ih =>
    intro d d1 out h
    simp only [plainDecodeAll] at h
    split at h
    · cases h
    · rename_i d2 buf2 n e hdec
      split at h
      · cases h
      · rename_i out2 d3 hrest
        cases h
        obtain ⟨h1, h2, h3, h4⟩ := plainLoop_ret _ _ _ _ _ _ _ _ _ (Nat.zero_le _) hdec
        obtain ⟨h5, h6⟩ := ih _ _ _ hrest
        refine ⟨by rw [h5, h1], ?_⟩
        simp only [List.length_append, List.length_take]
        omega

theorem plain_decode_exhausted (d : Int32PlainDecoder) (buf : List Int)
    (h : d.data.length ≤ d.pos) :
    d.decodeInt32 buf = .ret d buf 0 (some .plainNoMoreData) := by
  unfold Int32PlainDecoder.decodeInt32
  cases hb : buf.length with
  | zero => rfl
  | succ m =>
    rw [plainLoop_succ, if_neg (by omega)]
    rfl

/-- C6 (counterexample): with declared count 1 and two values in the data, after exactly one
value has been emitted the next call with a one-slot buffer returns `n = 1` and no error. -/
theorem plain_declared_count_counterexample :
    Int32PlainDecoder.decodeInt32
        ((Int32PlainDecoder.mk [] 0).init [1, 0, 0, 0, 2, 0, 0, 0] 1).1 [0]
      = .ret ⟨[1, 0, 0, 0, 2, 0, 0, 0], 4⟩ [1] 1 none
    ∧ Int32PlainDecoder.decodeInt32 ⟨[1, 0, 0, 0, 2, 0, 0, 0], 4⟩ [0]
      = .ret ⟨[1, 0, 0, 0, 2, 0, 0, 0], 8⟩ [2] 1 none := by decide

/-- C6 (amended): when the data holds at most `c` values (`len data ≤ 4 * c`), once decode
calls made after `init data c` have emitted exactly `c` values, the next decode call returns
`n = 0` with the no-more-data error, and changes neither the decoder nor the buffer. -/
theorem plain_exhaustion_after_count (d0 : Int32PlainDecoder) (data : List Nat) (c : Nat)
    (bufs : List (List Int)) (out : List Int) (d1 : Int32PlainDecoder)
    (hlen : data.length ≤ 4 * c)
    (hrun : plainDecodeAll (d0.init data c).1 bufs = some (out, d1))
    (hc : out.length = c) (buf : List Int) :
    d1.decodeInt32 buf = .ret d1 buf 0 (some .plainNoMoreData) := by
  obtain ⟨h1, h2⟩ := plainDecodeAll_pos bufs _ _ _ hrun
  apply plain_decode_exhausted
  simp only [Int32PlainDecoder.init] at h1 h2
  rw [h1, h2, hc]
  omega

/-- Witness for C6 (amended): two values, declared count 2, decoded with capacities 1 and 1. -/
theorem plain_exhaustion_after_count_witness :
    Int32PlainDecoder.decodeInt32 ⟨[1, 0, 0, 0, 2, 0, 0, 0], 8⟩ [0]
      = .ret ⟨[1, 0, 0, 0, 2, 0, 0, 0], 8⟩ [0] 0 (some .plainNoMoreData) :=
  plain_exhaustion_after_count ⟨[], 0⟩ [1, 0, 0, 0, 2, 0, 0, 0] 2 [[0], [0]] [1, 2]
    ⟨[1, 0, 0, 0, 2, 0, 0, 0], 8⟩ (by decide) (by decide) (by decide) [0]

theorem plain_truncated_unit_faults (d : Int32PlainDecoder) (buf : List Int)
    (h1 : d.pos < d.data.length) (h2 : d.data.length < d.pos + 4) (hb : buf ≠ []) :
    d.decodeInt32 buf = .fault := by
  unfold Int32PlainDecoder.decodeInt32
  cases buf with
  | nil => exact absurd rfl hb
  | cons b bs =>
    have hdrop : uint32LE (d.data.drop d.pos) = none := by
      have hl : (d.data.drop d.pos).length < 4 := by simp; omega
      match hd : d.data.drop d.pos, hl with
      | [], _ => rfl
      | [_], _ => rfl
      | [_, _], _ => rfl
      | [_, _, _], _ => rfl
      | _ :: _ :: _ :: _ :: _, hl => simp at hl; omega
    simp only [List.length_cons, plainLoop_succ]
    rw [if_pos ⟨Nat.succ_pos _, h1⟩, hdrop]

/-- C7 (code evaluated at the failing input): a 6-byte PLAIN buffer (one value and a 2-byte
tail) decoded into a two-slot buffer panics in `Uint32` instead of returning the one valid
value with the not-enough-data error. -/
theorem plain_truncated_tail_panics :
    Int32PlainDecoder.decodeInt32
        ((Int32PlainDecoder.mk [] 0).init [1, 0, 0, 0, 2, 0] 2).1 [0, 0] = .fault := by
  decide

/-! ## Theorems: dictionary decoder -/

theorem dictFill_spec (values : List Int) (keys : List Int) :
    ∀ (i : Nat) (buf : List Int), (∀ k ∈ keys, 0 ≤ k ∧ k < values.length) →
    i + keys.length ≤ buf.length →
    ∃ buf1, dictFill values keys i buf = some buf1 ∧ buf1.length = buf.length
      ∧ (∀ j, j < i → buf1[j]? = buf[j]?)
      ∧ (∀ j, i + keys.length ≤ j → buf1[j]? = buf[j]?)
      ∧ (∀ (j : Nat) (k : Int), keys[j]? = some k →
          ∃ v, values[k.toNat]? = some v ∧ buf1[i + j]? = some v) := by
  induction keys with
  | nil =>
    intro i buf _ _
    exact ⟨buf, rfl, rfl, fun _ _ => rfl, fun _ _ => rfl, by simp⟩
  | cons k ks ih =>
    intro i buf hr hl
    simp only [List.length_cons] at hl
    have hk := hr k (by simp)
    have hkn : k.toNat < values.length := by omega
    obtain ⟨buf1, h1, h2, h3, h4, h5⟩ := ih (i + 1) (buf.set i (values.getD k.toNat 0))
      (fun k1 hk1 => hr k1 (by simp [hk1])) (by simp; omega)
    refine ⟨buf1, ?_, ?_, ?_, ?_, ?_⟩
    · simp only [dictFill]
      rw [if_pos ⟨hk.1, hk.2, by omega⟩, h1]
    · simpa using h2
    · intro j hj
      rw [h3 j (by omega), List.getElem?_set]
      simp [show i ≠ j by omega]
    · intro j hj
      simp only [List.length_cons] at hj
      rw [h4 j (by omega), List.getElem?_set]
      simp [show i ≠ j by omega]
    · intro j k1 hj
      cases j with
      | zero =>
        simp at hj
        subst hj
        refine ⟨values.getD k.toNat 0, ?_, ?_⟩
        · simp [List.getD, List.getElem?_eq_getElem hkn]
        · rw [Nat.add_zero, h3 i (by omega), List.getElem?_set]
          simp; omega
      | succ j =>
        simp at hj
        obtain ⟨v, hv1, hv2⟩ := h5 j k1 hj
        exact ⟨v, hv1, by rw [← hv2]; congr 1; omega⟩

theorem dictFill_out_of_range (values : List Int) (keys : List Int) :
    ∀ (i : Nat) (buf : List Int), (∃ k ∈ keys, k < 0 ∨ (values.length : Int) ≤ k) →
    dictFill values keys i buf = none := by
  induction keys with
  | nil => intro i buf h; simp at h
  | cons k ks ih =>
    intro i buf h
    simp only [dictFill]
    split
    · rename_i hc
      apply ih
      obtain ⟨k1, hk1, hbad⟩ := h
      simp at hk1
      rcases hk1 with rfl | hk1
      · omega
      · exact ⟨k1, hk1, hbad⟩
    · rfl

/-- C4 (dictionary lookup): when `decodeKeys (len buf)` returns keys without error, every key
is in `[0, len values)` and there are at most `len buf` keys, `decodeInt32` returns
`n = len keys` with no error, and slot `i` of the buffer holds `values[keys[i]]` for every
`i < n` (the slots from `n` on are unchanged). -/
theorem dict_lookup {κ : Type} (decodeKeys : κ → Nat → κ × List Int × Option DecodeError)
    (d : Int32DictDecoder κ) (buf : List Int) (s : κ) (keys : List Int)
    (hkeys : decodeKeys d.dictDecoder buf.length = (s, keys, none))
    (hrange : ∀ k ∈ keys, 0 ≤ k ∧ k < d.values.length)
    (hlen : keys.length ≤ buf.length) :
    ∃ buf1, d.decodeInt32 decodeKeys buf
        = .ret { d with dictDecoder := s } buf1 keys.length none
      ∧ buf1.length = buf.length
      ∧ (∀ (i : Nat) (k : Int), keys[i]? = some k →
          ∃ v, d.values[k.toNat]? = some v ∧ buf1[i]? = some v)
      ∧ (∀ j, keys.length ≤ j → buf1[j]? = buf[j]?) := by
  obtain ⟨buf1, h1, h2, _, h4, h5⟩ := dictFill_spec d.values keys 0 buf hrange (by omega)
  refine ⟨buf1, ?_, h2, ?_, ?_⟩
  · simp only [Int32DictDecoder.decodeInt32, hkeys, h1]
  · intro i k hi
    simpa using h5 i k hi
  · intro j hj
    exact h4 j (by omega)

/-- Witness for C4: values `[10, 20, 30]` and keys `[2, 0, 1, 1]` give `[30, 10, 20, 20]`. -/
theorem dict_lookup_witness :
    (∃ buf1, Int32DictDecoder.decodeInt32 (fun (s : Unit) _ => (s, [2, 0, 1, 1], none))
          ⟨(), [10, 20, 30]⟩ [0, 0, 0, 0]
        = .ret ⟨(), [10, 20, 30]⟩ buf1 4 none
      ∧ buf1.length = 4
      ∧ (∀ (i : Nat) (k : Int), [2, 0, 1, (1 : Int)][i]? = some k →
          ∃ v, [10, 20, (30 : Int)][k.toNat]? = some v ∧ buf1[i]? = some v)
      ∧ (∀ j, 4 ≤ j → buf1[j]? = [0, 0, 0, (0 : Int)][j]?))
    ∧ Int32DictDecoder.decodeInt32 (fun (s : Unit) _ => (s, [2, 0, 1, 1], none))
          ⟨(), [10, 20, 30]⟩ [0, 0, 0, 0]
        = .ret ⟨(), [10, 20, 30]⟩ [30, 10, 20, 20] 4 none :=
  ⟨dict_lookup (fun (s : Unit) _ => (s, [2, 0, 1, 1], none)) ⟨(), [10, 20, 30]⟩ [0, 0, 0, 0] ()
      [2, 0, 1, 1] rfl (by decide) (by decide),
   by decide⟩

/-- C8 (counterexample): with values `[10, 20, 30]` and the single key `3` returned by
`decodeKeys`, `decodeInt32` panics on the table lookup; it returns no error value. -/
theorem dict_out_of_range_counterexample :
    Int32DictDecoder.decodeInt32 (fun (s : Unit) _ => (s, [3], none))
        ⟨(), [10, 20, 30]⟩ [0] = .fault := by
  decide

/-- C8 (amended): when the key sequence returned without error by `decodeKeys` contains a
key `k` with `k < 0` or `k ≥ len values`, `decodeInt32` does no bounds check of its own and
panics (index out of range) instead of returning an error. -/
theorem dict_out_of_range_panics {κ : Type}
    (decodeKeys : κ → Nat → κ × List Int × Option DecodeError)
    (d : Int32DictDecoder κ) (buf : List Int) (s : κ) (keys : List Int)
    (hkeys : decodeKeys d.dictDecoder buf.length = (s, keys, none))
    (hbad : ∃ k ∈ keys, k < 0 ∨ (d.values.length : Int) ≤ k) :
    d.decodeInt32 decodeKeys buf = .fault := by
  simp only [Int32DictDecoder.decodeInt32, hkeys,
    dictFill_out_of_range d.values keys 0 buf hbad]

/-- Witness for C8 (amended): keys `[1, -1]` against the table `[10, 20, 30]`. -/
theorem dict_out_of_range_panics_witness :
    Int32DictDecoder.decodeInt32 (fun (s : Unit) _ => (s, [1, -1], none))
        ⟨(), [10, 20, 30]⟩ [0, 0] = .fault :=
  dict_out_of_range_panics (fun (s : Unit) _ => (s, [1, -1], none)) ⟨(), [10, 20, 30]⟩ [0, 0] ()
    [1, -1] rfl ⟨-1, by decide, by decide⟩

/-- C9 (dictionary error forwarding): whenever `decodeKeys (len buf)` returns an error `e`,
`decodeInt32` returns `n = 0` with exactly `e` and leaves every slot of the buffer as it
was. -/
theorem dict_error_forwarded {κ : Type}
    (decodeKeys : κ → Nat → κ × List Int × Option DecodeError)
    (d : Int32DictDecoder κ) (buf : List Int) (s : κ) (keys : List Int) (e : DecodeError)
    (hkeys : decodeKeys d.dictDecoder buf.length = (s, keys, some e)) :
    d.decodeInt32 decodeKeys buf = .ret { d with dictDecoder := s } buf 0 (some e) := by
  simp only [Int32DictDecoder.decodeInt32, hkeys]

/-- Witness for C9: a key decoder that reports error `keys 7` after producing two keys. -/
theorem dict_error_forwarded_witness :
    Int32DictDecoder.decodeInt32 (fun (s : Unit) _ => (s, [2, 0], some (DecodeError.keys 7)))
        ⟨(), [10, 20, 30]⟩ [5, 6, 7]
      = .ret ⟨(), [10, 20, 30]⟩ [5, 6, 7] 0 (some (DecodeError.keys 7)) :=
  dict_error_forwarded (fun (s : Unit) _ => (s, [2, 0], some (DecodeError.keys 7)))
    ⟨(), [10, 20, 30]⟩ [5, 6, 7] () [2, 0] (DecodeError.keys 7) rfl

/-! ## Theorems: delta decoder, one loop iteration -/

section DeltaStep

open Int32DeltaBinaryPackedDecoder

theorem readBlockHeader_frame (P : Primitives) (d d1 : Int32DeltaBinaryPackedDecoder)
    (e : Option DecodeError) (h : d.readBlockHeader P = .ret d1 e) :
    d1.value = d.value ∧ d1.numValues = d.numValues ∧ d1.i = d.i ∧ d1.data = d.data
      ∧ d1.miniBlockSize = d.miniBlockSize ∧ d1.miniBlocks = d.miniBlocks
      ∧ d1.blockSize = d.blockSize ∧ d1.miniBlockValues = d.miniBlockValues := by
  unfold readBlockHeader at h
  split at h
  · cases h
  · simp only at h
    split at h
    · cases h; exact ⟨rfl, rfl, rfl, rfl, rfl, rfl, rfl, rfl⟩
    · split at h
      · cases h
      · split at h <;> cases h <;> exact ⟨rfl, rfl, rfl, rfl, rfl, rfl, rfl, rfl⟩

theorem startMiniBlock_frame (P : Primitives) (d d1 : Int32DeltaBinaryPackedDecoder)
    (e : Option DecodeError) (h : d.startMiniBlock P = .ret d1 e) :
    d1.value = d.value ∧ d1.numValues = d.numValues ∧ d1.i = d.i ∧ d1.data = d.data
      ∧ d1.miniBlockSize = d.miniBlockSize ∧ d1.miniBlocks = d.miniBlocks
      ∧ d1.blockSize = d.blockSize ∧ d1.miniBlockValues = d.miniBlockValues := by
  unfold startMiniBlock at h
  simp only at h
  split at h
  · cases h
  · rename_i d2 e2 hr
    cases h
    split at hr
    · exact readBlockHeader_frame P _ _ _ hr
    · cases hr
  · rename_i d2 hr
    have hf : d2.value = d.value ∧ d2.numValues = d.numValues ∧ d2.i = d.i ∧ d2.data = d.data
      ∧ d2.miniBlockSize = d.miniBlockSize ∧ d2.miniBlocks = d.miniBlocks
      ∧ d2.blockSize = d.blockSize ∧ d2.miniBlockValues = d.miniBlockValues := by
      split at hr
      · exact readBlockHeader_frame P _ _ _ hr
      · cases hr; exact ⟨rfl, rfl, rfl, rfl, rfl, rfl, rfl, rfl⟩
    split at h
    · cases h
    · split at h
      · cases h
      · cases h; exact hf

theorem unpackGroup_frame (P : Primitives) (d d1 : Int32DeltaBinaryPackedDecoder)
    (e : Option DecodeError) (h : d.unpackGroup P = .ret d1 e) :
    d1.value = d.value ∧ d1.numValues = d.numValues ∧ d1.i = d.i ∧ d1.data = d.data
      ∧ d1.miniBlockSize = d.miniBlockSize ∧ d1.miniBlocks = d.miniBlocks
      ∧ d1.blockSize = d.blockSize ∧ d1.minDelta = d.minDelta := by
  unfold unpackGroup at h
  simp only at h
  split at h
  · cases h; exact ⟨rfl, rfl, rfl, rfl, rfl, rfl, rfl, rfl⟩
  · split at h
    · cases h
    · split at h
      · cases h
      · split at h <;> cases h <;> exact ⟨rfl, rfl, rfl, rfl, rfl, rfl, rfl, rfl⟩

theorem emitValue_eq (d d1 : Int32DeltaBinaryPackedDecoder) (v : Int)
    (h : d.emitValue = .emit d1 v) :
    v = d.value ∧ d1.i = d.i + 1 ∧ d1.numValues = d.numValues
      ∧ d1.value = toInt32 (d.value + toInt32 (d1.miniBlockValues.getD (d.i % 8) 0 + d1.minDelta))
      ∧ d1.miniBlockValues = d.miniBlockValues ∧ d1.minDelta = d.minDelta := by
  unfold emitValue at h
  cases h
  exact ⟨rfl, rfl, rfl, rfl, rfl, rfl⟩

/-- What an emitting iteration of the loop does: it emits the running value, counts it, and
adds to the running value slot `i % 8` of the current group and the current min delta; the
group and the min delta are only replaced when `i` is a multiple of 8. -/
theorem loopBody_emit (P : Primitives) (d d1 : Int32DeltaBinaryPackedDecoder) (v : Int)
    (h : d.loopBody P = .emit d1 v) :
    v = d.value ∧ d1.i = d.i + 1 ∧ d1.numValues = d.numValues
      ∧ d1.value = toInt32 (d.value + toInt32 (d1.miniBlockValues.getD (d.i % 8) 0 + d1.minDelta))
      ∧ (d.i % 8 ≠ 0 → d1.miniBlockValues = d.miniBlockValues ∧ d1.minDelta = d.minDelta) := by
  unfold loopBody at h
  split at h
  · rename_i h8
    split at h
    · cases h
    · simp only at h
      split at h
      · cases h
      · cases h
      · rename_i d2 hr
        have hf : d2.value = d.value ∧ d2.numValues = d.numValues ∧ d2.i = d.i := by
          split at hr
          · obtain ⟨a, b, c, _⟩ := startMiniBlock_frame P _ _ _ hr
            exact ⟨a, b, c⟩
          · cases hr; exact ⟨rfl, rfl, rfl⟩
        split at h
        · cases h
        · cases h
        · rename_i d3 hu
          obtain ⟨a, b, c, _⟩ := unpackGroup_frame P _ _ _ hu
          obtain ⟨e1, e2, e3, e4, _, _⟩ := emitValue_eq _ _ _ h
          refine ⟨by rw [e1, a, hf.1], by rw [e2, c, hf.2.2], by rw [e3, b, hf.2.1], ?_,
            fun hne => absurd h8 hne⟩
          rw [e4, a, hf.1, c, hf.2.2]
  · obtain ⟨e1, e2, e3, e4, e5, e6⟩ := emitValue_eq _ _ _ h
    exact ⟨e1, e2, e3, e4, fun _ => ⟨e5, e6⟩⟩

/-- An iteration that stops with an error has emitted and counted nothing. -/
theorem loopBody_err (P : Primitives) (d d1 : Int32DeltaBinaryPackedDecoder) (e : DecodeError)
    (h : d.loopBody P = .err d1 e) :
    d1.value = d.value ∧ d1.numValues = d.numValues ∧ d1.i = d.i ∧ d1.data = d.data := by
  unfold loopBody at h
  split at h
  · split at h
    · cases h
    · simp only at h
      split at h
      · cases h
      · rename_i d2 e2 hr
        cases h
        split at hr
        · obtain ⟨a, b, c, dd, _⟩ := startMiniBlock_frame P _ _ _ hr
          exact ⟨a, b, c, dd⟩
        · cases hr
      · rename_i d2 hr
        have hf : d2.value = d.value ∧ d2.numValues = d.numValues ∧ d2.i = d.i
            ∧ d2.data = d.data := by
          split at hr
          · obtain ⟨a, b, c, dd, _⟩ := startMiniBlock_frame P _ _ _ hr
            exact ⟨a, b, c, dd⟩
          · cases hr; exact ⟨rfl, rfl, rfl, rfl⟩
        split at h
        · cases h
        · rename_i d3 e3 hu
          cases h
          obtain ⟨a, b, c, dd, _⟩ := unpackGroup_frame P _ _ _ hu
          exact ⟨by rw [a, hf.1], by rw [b, hf.2.1], by rw [c, hf.2.2.1], by rw [dd, hf.2.2.2]⟩
        · unfold emitValue at h; cases h
  · unfold emitValue at h; cases h

end DeltaStep

/-! ## Theorems: delta decoder, loop and traces -/

theorem writeAt_nil (buf : List Int) (n : Nat) : writeAt buf n [] = buf := by
  simp [writeAt]

theorem writeAt_set (buf : List Int) (n : Nat) (v : Int) (out : List Int)
    (h : n < buf.length) :
    writeAt (buf.set n v) (n + 1) out = writeAt buf n (v :: out) := by
  unfold writeAt
  rw [take_succ_set buf n v h, List.drop_set_of_lt v buf (by omega)]
  simp only [List.length_cons, List.append_assoc, List.singleton_append]
  congr 3
  omega

theorem writeAt_take (buf : List Int) (n : Nat) (out : List Int) (h : n ≤ buf.length) :
    (writeAt buf n out).take (n + out.length) = buf.take n ++ out := by
  unfold writeAt
  rw [List.take_append_of_le_length (by simp; omega)]
  rw [List.take_of_length_le (by simp)]

theorem deltaLoop_succ (P : Primitives) (fuel : Nat) (d : Int32DeltaBinaryPackedDecoder)
    (buf : List Int) (n : Nat) :
    deltaLoop P (fuel + 1) d buf n =
      if n < buf.length ∧ (d.i : Int) < d.numValues then
        match d.loopBody P with
        | .fault => .fault
        | .err d1 e => .ret d1 buf n (some e)
        | .emit d1 v => deltaLoop P fuel d1 (buf.set n v) (n + 1)
      else deltaFinish d buf n := rfl

theorem deltaRun_succ (P : Primitives) (k : Nat) (d : Int32DeltaBinaryPackedDecoder) :
    deltaRun P (k + 1) d =
      if (d.i : Int) < d.numValues then
        match d.loopBody P with
        | .fault => none
        | .err d1 e => some ([], d1, some e)
        | .emit d1 v =>
          match deltaRun P k d1 with
          | none => none
          | some (out, d2, e) => some (v :: out, d2, e)
      else some ([], d, none) := rfl

/-- The loop of `decodeInt32` run on a buffer with `fuel` free slots is the trace of `fuel`
iterations, written into the buffer. -/
theorem deltaLoop_eq_run (P : Primitives) (fuel : Nat) :
    ∀ (d : Int32DeltaBinaryPackedDecoder) (buf : List Int) (n : Nat),
    n + fuel ≤ buf.length →
    deltaLoop P fuel d buf n = outcomeOfRun buf n (deltaRun P fuel d) := by
  induction fuel with
  | zero =>
    intro d buf n _
    simp [deltaLoop, deltaRun, outcomeOfRun, writeAt_nil]
  | succ fuel ih =>
    intro d buf n hn
    rw [deltaLoop_succ, deltaRun_succ]
    by_cases hi : (d.i : Int) < d.numValues
    · rw [if_pos ⟨by omega, hi⟩, if_pos hi]
      cases hb : d.loopBody P with
      | fault => rfl
      | err d1 e => simp [outcomeOfRun, writeAt_nil]
      | emit d1 v =>
        simp only
        rw [ih d1 (buf.set n v) (n + 1) (by simp; omega)]
        cases hr : deltaRun P fuel d1 with
        | none => rfl
        | some r =>
          obtain ⟨out, d2, e⟩ := r
          have hw := writeAt_set buf n v out (by omega)
          have hl : n + 1 + out.length = n + (v :: out).length := by simp [Nat.add_assoc, Nat.add_comm 1]
          cases e with
          | none => simp only [outcomeOfRun, hw, hl]
          | some e => simp only [outcomeOfRun, hw, hl]
    · rw [if_neg (fun h => hi h.2), if_neg hi]
      simp [outcomeOfRun, writeAt_nil]

theorem decodeInt32_eq_run (P : Primitives) (d : Int32DeltaBinaryPackedDecoder)
    (buf : List Int) :
    d.decodeInt32 P buf = outcomeOfRun buf 0 (deltaRun P buf.length d) :=
  deltaLoop_eq_run P buf.length d buf 0 (by simp)

theorem deltaRun_done (P : Primitives) (k : Nat) (d : Int32DeltaBinaryPackedDecoder)
    (h : ¬ ((d.i : Int) < d.numValues)) : deltaRun P k d = some ([], d, none) := by
  cases k with
  | zero => rfl
  | succ k => rw [deltaRun_succ, if_neg h]

theorem deltaRun_props (P : Primitives) (k : Nat) :
    ∀ (d d1 : Int32DeltaBinaryPackedDecoder) (out : List Int) (e : Option DecodeError),
    deltaRun P k d = some (out, d1, e) →
    out.length ≤ k ∧ d1.i = d.i + out.length ∧ d1.numValues = d.numValues
      ∧ (e = none → out.length = k ∨ ¬ ((d1.i : Int) < d1.numValues))
      ∧ (e ≠ none → out.length < k) := by
  induction k with
  | zero =>
    intro d d1 out e h
    simp only [deltaRun, Option.some.injEq, Prod.mk.injEq] at h
    obtain ⟨rfl, rfl, rfl⟩ := h
    simp
  | succ k ih =>
    intro d d1 out e h
    rw [deltaRun_succ] at h
    split at h
    · split at h
      · cases h
      · rename_i d2 e2 hb
        simp only [Option.some.injEq, Prod.mk.injEq] at h
        obtain ⟨rfl, rfl, rfl⟩ := h
        obtain ⟨_, b2, b3, _⟩ := loopBody_err P _ _ _ hb
        exact ⟨by simp, by simpa using b3, b2, fun he => (by cases he), fun _ => (by simp)⟩
      · rename_i d2 v hb
        split at h
        · cases h
        · rename_i out2 d3 e3 hr
          simp only [Option.some.injEq, Prod.mk.injEq] at h
          obtain ⟨rfl, rfl, rfl⟩ := h
          obtain ⟨h1, h2, h3, h4, h6⟩ := ih _ _ _ _ hr
          obtain ⟨_, b2, b3, _⟩ := loopBody_emit P _ _ _ hb
          refine ⟨by simp; omega, by simp; omega, by rw [h3, b3], ?_, ?_⟩
          · intro he
            rcases h4 he with h5 | h5
            · left; simp; omega
            · right; exact h5
          · intro he
            have := h6 he
            simp; omega
    · rename_i hi
      simp only [Option.some.injEq, Prod.mk.injEq] at h
      obtain ⟨rfl, rfl, rfl⟩ := h
      simp [hi]


theorem deltaRun_add (P : Primitives) (a b : Nat) :
    ∀ d : Int32DeltaBinaryPackedDecoder, deltaRun P (a + b) d =
      match deltaRun P a d with
      | none => none
      | some (out, d1, some e) => some (out, d1, some e)
      | some (out, d1, none) =>
        match deltaRun P b d1 with
        | none => none
        | some (out2, d2, e) => some (out ++ out2, d2, e) := by
  induction a with
  | zero =>
    intro d
    simp only [Nat.zero_add, deltaRun]
    cases deltaRun P b d with
    | none => rfl
    | some r => obtain ⟨out2, d2, e⟩ := r; simp
  | succ a ih =>
    intro d
    have hab : a + 1 + b = (a + b) + 1 := by omega
    rw [hab, deltaRun_succ, deltaRun_succ]
    by_cases hi : (d.i : Int) < d.numValues
    · rw [if_pos hi, if_pos hi]
      cases hb : d.loopBody P with
      | fault => rfl
      | err d1 e => rfl
      | emit d1 v =>
        simp only
        rw [ih d1]
        cases hr : deltaRun P a d1 with
        | none => rfl
        | some r =>
          obtain ⟨out, d2, e⟩ := r
          cases e with
          | some e => rfl
          | none =>
            simp only
            cases hr2 : deltaRun P b d2 with
            | none => rfl
            | some r2 => obtain ⟨out2, d3, e2⟩ := r2; simp
    · rw [if_neg hi, if_neg hi]
      simp only
      rw [deltaRun_done P b d hi]
      simp
/-- Calls made in order until the first error emit what one run of the loop over the total
capacity emits, and end in the same state, whenever every buffer is non-empty. -/
theorem deltaDecodeUntilError_eq_run (P : Primitives) (bufs : List (List Int)) :
    ∀ d : Int32DeltaBinaryPackedDecoder, (∀ b ∈ bufs, b ≠ []) →
    deltaDecodeUntilError P d bufs =
      (deltaRun P (bufs.map List.length).sum d).map (fun r => (r.1, r.2.1)) := by
  induction bufs with
  | nil => intro d _; rfl
  | cons buf rest ih =>
    intro d hne
    have hbuf : 0 < buf.length := List.length_pos.mpr (hne buf (by simp))
    have hrest : ∀ b ∈ rest, b ≠ [] := fun b hb => hne b (by simp [hb])
    simp only [deltaDecodeUntilError, List.map_cons, List.sum_cons]
    rw [decodeInt32_eq_run, deltaRun_add]
    cases hr : deltaRun P buf.length d with
    | none => rfl
    | some r =>
      obtain ⟨out, d1, e⟩ := r
      have htake : (writeAt buf 0 out).take (0 + out.length) = out := by
        rw [writeAt_take buf 0 out (Nat.zero_le _)]; simp
      obtain ⟨p1, p2, p3, p4, _⟩ := deltaRun_props P _ _ _ _ _ hr
      cases e with
      | some e => simp only [outcomeOfRun, htake, Option.map]
      | none =>
        simp only [outcomeOfRun, deltaFinish]
        by_cases h0 : out.length = 0
        · have hout : out = [] := List.length_eq_zero.mp h0
          have hstop : ¬ ((d1.i : Int) < d1.numValues) := by
            rcases p4 rfl with h | h
            · omega
            · exact h
          subst hout
          simp [deltaRun_done P _ d1 hstop]
        · rw [if_neg (by omega)]
          simp only [htake, ih d1 hrest]
          cases deltaRun P (rest.map List.length).sum d1 with
          | none => rfl
          | some r2 => obtain ⟨out2, d2, e2⟩ := r2; rfl

section DeltaInit

open Int32DeltaBinaryPackedDecoder

theorem readPageHeader_frame (P : Primitives) (d d1 : Int32DeltaBinaryPackedDecoder)
    (e : Option DecodeError) (h : d.readPageHeader P = .ret d1 e) :
    d1.i = d.i ∧ d1.data = d.data := by
  unfold readPageHeader at h
  simp only at h
  repeat' split at h
  all_goals cases h <;> exact ⟨rfl, rfl⟩

/-- After a successful `init` the value index is 0 and the decoder reads from `data`. -/
theorem init_ok (P : Primitives) (d0 d : Int32DeltaBinaryPackedDecoder) (data : List Nat)
    (count : Int) (h : d0.init P data count = .ret d none) : d.i = 0 ∧ d.data = data := by
  unfold init at h
  simp only at h
  split at h
  · cases h
  · cases h
  · rename_i d1 h1
    obtain ⟨a1, a2⟩ := readPageHeader_frame P _ _ _ h1
    split at h
    · cases h
    · cases h
    · rename_i d2 h2
      cases h
      obtain ⟨_, _, b3, b4, _⟩ := readBlockHeader_frame P _ _ _ h2
      exact ⟨by rw [b3, a1], by rw [b4, a2]⟩

end DeltaInit

section DeltaHeaderFields

open Int32DeltaBinaryPackedDecoder

theorem sliceFrom_some (data s : List Nat) (p : Int) (h : sliceFrom data p = some s) :
    0 ≤ p ∧ p ≤ data.length ∧ s = data.drop p.toNat := by
  unfold sliceFrom at h
  split at h
  · rename_i hc
    cases h
    exact ⟨hc.1, hc.2, rfl⟩
  · cases h

theorem readPageHeader_fields (P : Primitives) (d d1 : Int32DeltaBinaryPackedDecoder)
    (h : d.readPageHeader P = .ret d1 none) (hpos : d.pos = 0) :
    d1.blockSize = (pageHeaderFields P d.data).1
      ∧ d1.miniBlocks = (pageHeaderFields P d.data).2.1
      ∧ d1.numValues = (pageHeaderFields P d.data).2.2.1
      ∧ d1.value = (pageHeaderFields P d.data).2.2.2
      ∧ d1.miniBlockSize = toInt32 (Int.tdiv d1.blockSize d1.miniBlocks)
      ∧ 0 < d1.miniBlocks := by
  unfold readPageHeader at h
  simp only at h
  repeat' split at h
  all_goals try cases h
  rename_i s1 hs1 _ _ s2 hs2 _ hneg hzero _ s3 hs3 _ _ s4 hs4 _
  obtain ⟨_, _, rfl⟩ := sliceFrom_some _ _ _ hs1
  obtain ⟨_, _, rfl⟩ := sliceFrom_some _ _ _ hs2
  obtain ⟨_, _, rfl⟩ := sliceFrom_some _ _ _ hs3
  obtain ⟨_, _, rfl⟩ := sliceFrom_some _ _ _ hs4
  simp only [hpos, Int.toNat_zero, List.drop_zero, Int.zero_add] at hneg hzero ⊢
  simp only [pageHeaderFields, true_and]
  omega

/-- After a successful `init` the decoder holds the four page-header fields as the readers
decode them, `miniBlockSize` is the truncated int32 quotient, and the number of mini blocks
is positive. -/
theorem init_fields (P : Primitives) (d0 d : Int32DeltaBinaryPackedDecoder) (data : List Nat)
    (count : Int) (h : d0.init P data count = .ret d none) :
    d.blockSize = (pageHeaderFields P data).1
      ∧ d.miniBlocks = (pageHeaderFields P data).2.1
      ∧ d.numValues = (pageHeaderFields P data).2.2.1
      ∧ d.value = (pageHeaderFields P data).2.2.2
      ∧ d.miniBlockSize = toInt32 (Int.tdiv d.blockSize d.miniBlocks)
      ∧ 0 < d.miniBlocks := by
  unfold init at h
  simp only at h
  split at h
  · cases h
  · cases h
  · rename_i d1 h1
    obtain ⟨a1, a2, a3, a4, a5, a6⟩ := readPageHeader_fields P _ _ h1 rfl
    split at h
    · cases h
    · cases h
    · rename_i d2 h2
      cases h
      obtain ⟨b1, b2, _, _, b5, b6, b7, _⟩ := readBlockHeader_frame P _ _ _ h2
      simp only at a1 a2 a3 a4
      exact ⟨by rw [b7, a1], by rw [b6, a2], by rw [b2, a3], by rw [b1, a4],
        by rw [b5, b7, b6, a5], by rw [b6]; exact a6⟩

end DeltaHeaderFields

theorem deltaRun_saturate (P : Primitives) (a b : Nat) (d : Int32DeltaBinaryPackedDecoder)
    (h : d.numValues ≤ (d.i : Int) + a) : deltaRun P (a + b) d = deltaRun P a d := by
  rw [deltaRun_add]
  cases hr : deltaRun P a d with
  | none => rfl
  | some r =>
    obtain ⟨out, d1, e⟩ := r
    cases e with
    | some e => rfl
    | none =>
      obtain ⟨p1, p2, p3, p4, _⟩ := deltaRun_props P _ _ _ _ _ hr
      have hstop : ¬ ((d1.i : Int) < d1.numValues) := by
        rcases p4 rfl with h5 | h5
        · rw [p2, p3, h5]; push_cast; omega
        · exact h5
      simp [deltaRun_done P b d1 hstop]

theorem deltaDecodeUntilError_single (P : Primitives) (d : Int32DeltaBinaryPackedDecoder)
    (big : List Int) :
    deltaDecodeUntilError P d [big] =
      (deltaRun P big.length d).map (fun r => (r.1, r.2.1)) := by
  cases big with
  | nil => rfl
  | cons b bs =>
    have := deltaDecodeUntilError_eq_run P [b :: bs] d (by simp)
    simpa using this

/-- C3 (resumption independence of the delta decoder). After a successful `init` with total
value count `N`, calls with one-slot buffers repeated until an error or exhaustion (any
number of calls from `N` on) give the same concatenated output and the same final state as a
single call with capacity `N`; and from every state, calls with non-empty buffers made until
the first error give the same concatenated output and final state as one call with the
total capacity (and panic exactly when that call does). -/
theorem delta_resumption_independent (P : Primitives)
    (d0 d : Int32DeltaBinaryPackedDecoder) (data : List Nat) (count : Int)
    (hinit : d0.init P data count = .ret d none) :
    (∀ (ones : List (List Int)) (big : List Int), (∀ b ∈ ones, b.length = 1) →
        d.numValues.toNat ≤ ones.length → big.length = d.numValues.toNat →
        deltaDecodeUntilError P d ones = deltaDecodeUntilError P d [big])
    ∧ (∀ (s : Int32DeltaBinaryPackedDecoder) (bufs : List (List Int)) (big : List Int),
        (∀ b ∈ bufs, b ≠ []) → big.length = (bufs.map List.length).sum →
        deltaDecodeUntilError P s bufs = deltaDecodeUntilError P s [big]) := by
  constructor
  · intro ones big h1 hN hbig
    have hne : ∀ b ∈ ones, b ≠ [] := by
      intro b hb hnil
      have := h1 b hb
      rw [hnil] at this
      simp at this
    have hsum : (ones.map List.length).sum = ones.length := by
      clear hN hne
      induction ones with
      | nil => rfl
      | cons b bs ih =>
        simp only [List.map_cons, List.sum_cons, List.length_cons]
        rw [h1 b (by simp), ih (fun b1 hb1 => h1 b1 (by simp [hb1]))]
        omega
    rw [deltaDecodeUntilError_eq_run P ones d hne, deltaDecodeUntilError_single, hsum, hbig]
    obtain ⟨m, hm⟩ : ∃ m, ones.length = d.numValues.toNat + m := ⟨_, (Nat.add_sub_cancel' hN).symm⟩
    rw [hm, deltaRun_saturate P _ m d (by rw [(init_ok P d0 d data count hinit).1]; omega)]
  · intro s bufs big hne hbig
    rw [deltaDecodeUntilError_eq_run P bufs s hne, deltaDecodeUntilError_single, hbig]

/-- Witness for C3: the 12-value page `packedPage` decoded by 13 one-slot calls, by calls of
capacities 3, 1 and 8, and by one call of capacity 12. -/
theorem delta_resumption_independent_witness :
    deltaDecodeUntilError refPrimitives packedState (List.replicate 13 [0])
      = deltaDecodeUntilError refPrimitives packedState [List.replicate 12 0]
    ∧ deltaDecodeUntilError refPrimitives packedState
          [[0, 0, 0], [0], [0, 0, 0, 0, 0, 0, 0, 0]]
      = deltaDecodeUntilError refPrimitives packedState [List.replicate 12 0] :=
  ⟨(delta_resumption_independent refPrimitives .zero packedState packedPage 12
      (by decide)).1 _ _ (by decide) (by decide) (by decide),
   (delta_resumption_independent refPrimitives .zero packedState packedPage 12
      (by decide)).2 packedState _ _ (by decide) (by decide)⟩

/-- A state that has emitted all its values: every call returns `n = 0` with the no-more-data
error and changes neither the decoder nor the buffer. -/
theorem delta_decode_exhausted (P : Primitives) (d : Int32DeltaBinaryPackedDecoder)
    (buf : List Int) (h : ¬ ((d.i : Int) < d.numValues)) :
    d.decodeInt32 P buf = .ret d buf 0 (some .deltaNoMoreData) := by
  rw [decodeInt32_eq_run, deltaRun_done P _ d h]
  simp [outcomeOfRun, deltaFinish, writeAt_nil]

theorem deltaRun_of_full_decode (P : Primitives) (d dN : Int32DeltaBinaryPackedDecoder)
    (buf bufN : List Int) (e : Option DecodeError)
    (h : d.decodeInt32 P buf = .ret dN bufN buf.length e) :
    ∃ out, deltaRun P buf.length d = some (out, dN, none) ∧ out.length = buf.length := by
  rw [decodeInt32_eq_run] at h
  cases hr : deltaRun P buf.length d with
  | none => rw [hr] at h; cases h
  | some r =>
    obtain ⟨out, d1, e1⟩ := r
    rw [hr] at h
    obtain ⟨p1, _, _, _, p5⟩ := deltaRun_props P _ _ _ _ _ hr
    cases e1 with
    | some e1 =>
      have := p5 (by simp)
      simp only [outcomeOfRun, Outcome.ret.injEq] at h
      omega
    | none =>
      simp only [outcomeOfRun, deltaFinish] at h
      split at h
      · rename_i h0
        simp only [Outcome.ret.injEq] at h
        obtain ⟨rfl, _, hn, _⟩ := h
        exact ⟨out, rfl, by omega⟩
      · simp only [Outcome.ret.injEq] at h
        obtain ⟨rfl, _, hn, _⟩ := h
        exact ⟨out, rfl, by omega⟩

/-- Exhaustion from an error-free trace: when `N` loop iterations from a state with value
index 0 and total count `N` emit `N` values, calls with non-empty buffers emit
`min N (total capacity)` values in total, and once the capacity reaches `N` every further
call returns `n = 0` with the no-more-data error and leaves decoder and buffer unchanged. -/
theorem deltaRun_exhaustion (P : Primitives) (d dN : Int32DeltaBinaryPackedDecoder)
    (N : Nat) (outN : List Int) (hi0 : d.i = 0) (hN : d.numValues = N)
    (hrunN : deltaRun P N d = some (outN, dN, none)) (hlenN : outN.length = N)
    (bufs : List (List Int)) (hne : ∀ b ∈ bufs, b ≠ []) :
    ∃ out dEnd, deltaDecodeUntilError P d bufs = some (out, dEnd)
      ∧ out.length = min N (bufs.map List.length).sum
      ∧ (N ≤ (bufs.map List.length).sum → ∀ buf : List Int,
          dEnd.decodeInt32 P buf = .ret dEnd buf 0 (some .deltaNoMoreData)) := by
  obtain ⟨q1, q2, q3, _, _⟩ := deltaRun_props P _ _ _ _ _ hrunN
  rw [deltaDecodeUntilError_eq_run P bufs d hne]
  by_cases hS : N ≤ (bufs.map List.length).sum
  · obtain ⟨m, hm⟩ : ∃ m, (bufs.map List.length).sum = N + m :=
      ⟨_, (Nat.add_sub_cancel' hS).symm⟩
    rw [hm, deltaRun_saturate P N m d (by rw [hN, hi0]; omega), hrunN]
    refine ⟨outN, dN, rfl, by omega, fun _ buf => ?_⟩
    apply delta_decode_exhausted
    rw [q2, q3, hN, hi0, hlenN]
    omega
  · obtain ⟨m, hm⟩ : ∃ m, N = (bufs.map List.length).sum + m :=
      ⟨_, (Nat.add_sub_cancel' (by omega)).symm⟩
    have hadd := deltaRun_add P (bufs.map List.length).sum m d
    rw [← hm, hrunN] at hadd
    cases hr : deltaRun P (bufs.map List.length).sum d with
    | none => rw [hr] at hadd; cases hadd
    | some r =>
      obtain ⟨out1, d1, e1⟩ := r
      rw [hr] at hadd
      obtain ⟨p1, _, _, _, _⟩ := deltaRun_props P _ _ _ _ _ hr
      cases e1 with
      | some e1 => simp at hadd
      | none =>
        simp only at hadd
        cases hr2 : deltaRun P m d1 with
        | none => rw [hr2] at hadd; cases hadd
        | some r2 =>
          obtain ⟨out2, d2, e2⟩ := r2
          rw [hr2] at hadd
          obtain ⟨p2, _, _, _, _⟩ := deltaRun_props P _ _ _ _ _ hr2
          simp only [Option.some.injEq, Prod.mk.injEq] at hadd
          have hl : outN.length = out1.length + out2.length := by
            rw [hadd.1]; simp
          refine ⟨out1, d1, rfl, by omega, fun h => absurd h hS⟩

theorem toInt32_add_toInt32 (a b : Int) : toInt32 (a + toInt32 b) = toInt32 (a + b) := by
  unfold toInt32; omega

theorem deltaRun_take (P : Primitives) (k : Nat) :
    ∀ (d d1 : Int32DeltaBinaryPackedDecoder) (out : List Int) (e : Option DecodeError),
    deltaRun P k d = some (out, d1, e) → ∀ j, j ≤ out.length →
    ∃ dj, deltaRun P j d = some (out.take j, dj, none) := by
  induction k with
  | zero =>
    intro d d1 out e h j hj
    simp only [deltaRun, Option.some.injEq, Prod.mk.injEq] at h
    obtain ⟨rfl, rfl, rfl⟩ := h
    simp only [List.length_nil, Nat.le_zero_eq] at hj
    subst hj
    exact ⟨d, rfl⟩
  | succ k ih =>
    intro d d1 out e h j hj
    cases j with
    | zero => exact ⟨d, rfl⟩
    | succ j =>
      rw [deltaRun_succ] at h
      rw [deltaRun_succ]
      split at h
      · rename_i hc
        rw [if_pos hc]
        split at h
        · cases h
        · simp only [Option.some.injEq, Prod.mk.injEq] at h
          obtain ⟨rfl, _, _⟩ := h
          simp at hj
        · rename_i d2 v hb
          split at h
          · cases h
          · rename_i out2 d3 e3 hr
            simp only [Option.some.injEq, Prod.mk.injEq] at h
            obtain ⟨rfl, rfl, rfl⟩ := h
            simp only [List.length_cons, Nat.add_le_add_iff_right] at hj
            obtain ⟨dj, hdj⟩ := ih _ _ _ _ hr j hj
            exact ⟨dj, by simp only [hdj, List.take_succ_cons]⟩
      · simp only [Option.some.injEq, Prod.mk.injEq] at h
        obtain ⟨rfl, _, _⟩ := h
        simp at hj

theorem deltaRun_one (P : Primitives) (d d1 : Int32DeltaBinaryPackedDecoder) (out : List Int)
    (e : Option DecodeError) (h : deltaRun P 1 d = some (out, d1, e)) (hl : out.length = 1) :
    ∃ v, d.loopBody P = .emit d1 v ∧ out = [v] := by
  rw [deltaRun_succ] at h
  split at h
  · split at h
    · cases h
    · simp only [Option.some.injEq, Prod.mk.injEq] at h
      obtain ⟨rfl, _, _⟩ := h
      simp at hl
    · rename_i d2 v hb
      simp only [deltaRun, Option.some.injEq, Prod.mk.injEq] at h
      obtain ⟨rfl, rfl, rfl⟩ := h
      exact ⟨v, hb, rfl⟩
  · simp only [Option.some.injEq, Prod.mk.injEq] at h
    obtain ⟨rfl, _, _⟩ := h
    simp at hl

/-- Every value of a trace is emitted by one loop iteration between two states of shorter
traces. -/
theorem deltaRun_step (P : Primitives) (k : Nat) (d d1 : Int32DeltaBinaryPackedDecoder)
    (out : List Int) (e : Option DecodeError) (h : deltaRun P k d = some (out, d1, e))
    (j : Nat) (hj : j < out.length) :
    ∃ sj sj1 v, deltaRun P j d = some (out.take j, sj, none)
      ∧ deltaRun P (j + 1) d = some (out.take (j + 1), sj1, none)
      ∧ sj.loopBody P = .emit sj1 v ∧ out[j]? = some v := by
  obtain ⟨sj, h1⟩ := deltaRun_take P k d d1 out e h j (by omega)
  obtain ⟨sj1, h2⟩ := deltaRun_take P k d d1 out e h (j + 1) (by omega)
  have hadd := deltaRun_add P j 1 d
  rw [h1, h2] at hadd
  simp only at hadd
  cases hr : deltaRun P 1 sj with
  | none => rw [hr] at hadd; cases hadd
  | some r =>
    obtain ⟨out2, d2, e2⟩ := r
    rw [hr] at hadd
    simp only [Option.some.injEq, Prod.mk.injEq] at hadd
    obtain ⟨ho, rfl, rfl⟩ := hadd
    have hl : out2.length = 1 := by
      have := congrArg List.length ho
      simp only [List.length_take, List.length_append] at this
      omega
    obtain ⟨v, hb, rfl⟩ := deltaRun_one P sj sj1 out2 none hr hl
    refine ⟨sj, sj1, v, h1, h2, hb, ?_⟩
    have := congrArg (fun l => l[j]?) ho
    simp only [List.getElem?_take, List.getElem?_append_right (le_of_eq (List.length_take_of_le (Nat.le_of_lt hj))),
      List.length_take_of_le (Nat.le_of_lt hj)] at this
    simpa using this

theorem sum_length_replicate_single (j : Nat) :
    ((List.replicate j [(0 : Int)]).map List.length).sum = j := by
  induction j with
  | zero => rfl
  | succ j ih => simp only [List.replicate_succ, List.map_cons, List.sum_cons, ih]; simp; omega

theorem deltaStateAfter_of_run (P : Primitives) (d dj : Int32DeltaBinaryPackedDecoder)
    (j : Nat) (o : List Int) (e : Option DecodeError)
    (h : deltaRun P j d = some (o, dj, e)) (hl : o.length = j) :
    deltaStateAfter P d j = some dj := by
  unfold deltaStateAfter
  rw [deltaDecodeUntilError_eq_run P _ d (by
    intro b hb; rw [List.eq_of_mem_replicate hb]; simp), sum_length_replicate_single, h]
  simp [hl]

/-- Within a group of 8 value indices the unpacked group held by the decoder does not
change. -/
theorem deltaRun_group_stable (P : Primitives) (k : Nat)
    (d d1 : Int32DeltaBinaryPackedDecoder) (out : List Int) (e : Option DecodeError)
    (h : deltaRun P k d = some (out, d1, e)) (hi : d.i = 0) (q : Nat) :
    ∀ r, r < 8 → 8 * q + r < out.length →
    ∃ g s, deltaRun P (8 * q + 1) d = some (out.take (8 * q + 1), g, none)
      ∧ deltaRun P (8 * q + r + 1) d = some (out.take (8 * q + r + 1), s, none)
      ∧ s.miniBlockValues = g.miniBlockValues := by
  intro r
  induction r with
  | zero =>
    intro _ hlt
    obtain ⟨sj, sj1, v, _, h2, _, _⟩ := deltaRun_step P k d d1 out e h (8 * q) (by omega)
    exact ⟨sj1, sj1, h2, h2, rfl⟩
  | succ r ih =>
    intro hr hlt
    obtain ⟨g, s, hg, hs, hgs⟩ := ih (by omega) (by omega)
    obtain ⟨sj, sj1, v, h1, h2, hb, _⟩ :=
      deltaRun_step P k d d1 out e h (8 * q + r + 1) (by omega)
    rw [hs] at h1
    simp only [Option.some.injEq, Prod.mk.injEq, true_and, and_true] at h1
    subst h1
    obtain ⟨_, p2, _, _, _⟩ := deltaRun_props P _ _ _ _ _ hs
    obtain ⟨_, _, _, _, b5⟩ := loopBody_emit P _ _ _ hb
    have hmod : s.i % 8 ≠ 0 := by
      rw [p2, hi, List.length_take_of_le (by omega)]
      omega
    exact ⟨g, sj1, hg, h2, by rw [(b5 hmod).1, hgs]⟩

/-- The recurrence on a trace of the loop from a state with value index 0: value `j + 1` is
value `j` plus slot `j % 8` of the group held by the state `g` that the iteration at index
`8 * (j / 8)` ends in, plus the min delta held by the state `sj1` that the iteration at
index `j` ends in, in wrapping int32 arithmetic. -/
theorem deltaRun_reconstruction (P : Primitives) (k : Nat)
    (d d1 : Int32DeltaBinaryPackedDecoder) (out : List Int) (e : Option DecodeError)
    (hr : deltaRun P k d = some (out, d1, e)) (hi0 : d.i = 0) (j : Nat)
    (hj : j + 1 < out.length) :
    ∃ s8 g sj1 v8,
      deltaRun P (8 * (j / 8)) d = some (out.take (8 * (j / 8)), s8, none)
      ∧ s8.loopBody P = .emit g v8 ∧ s8.i = 8 * (j / 8)
      ∧ deltaRun P (j + 1) d = some (out.take (j + 1), sj1, none)
      ∧ out[j + 1]? = some (toInt32
          (out.getD j 0 + g.miniBlockValues.getD (j % 8) 0 + sj1.minDelta)) := by
  obtain ⟨sj, sj1, v, h1, h2, hb, hv⟩ := deltaRun_step P _ d d1 out e hr j (by omega)
  obtain ⟨sk, sk1, v1, k1, _, kb, kv⟩ := deltaRun_step P _ d d1 out e hr (j + 1) hj
  rw [h2] at k1
  simp only [Option.some.injEq, Prod.mk.injEq, true_and, and_true] at k1
  subst k1
  obtain ⟨g, s, hg, hs, hgs⟩ := deltaRun_group_stable P _ d d1 out e hr hi0 (j / 8)
    (j % 8) (Nat.mod_lt _ (by decide)) (by omega)
  have hjj : 8 * (j / 8) + j % 8 + 1 = j + 1 := by omega
  rw [hjj, h2] at hs
  simp only [Option.some.injEq, Prod.mk.injEq, true_and, and_true] at hs
  subst hs
  obtain ⟨s8, g2, v8, g1, g3, gb, _⟩ := deltaRun_step P _ d d1 out e hr (8 * (j / 8))
    (by omega)
  rw [hg] at g3
  simp only [Option.some.injEq, Prod.mk.injEq, true_and, and_true] at g3
  subst g3
  obtain ⟨_, p2, _, _, _⟩ := deltaRun_props P _ _ _ _ _ h1
  obtain ⟨_, r2, _, _, _⟩ := deltaRun_props P _ _ _ _ _ g1
  obtain ⟨a1, _, _, a4, _⟩ := loopBody_emit P _ _ _ hb
  obtain ⟨c1, _, _, _, _⟩ := loopBody_emit P _ _ _ kb
  have hsi : sj.i = j := by
    rw [p2, hi0, List.length_take_of_le (by omega)]; omega
  have h8i : s8.i = 8 * (j / 8) := by
    rw [r2, hi0, List.length_take_of_le (by omega)]; omega
  refine ⟨s8, g, sj1, v8, g1, gb, h8i, h2, ?_⟩
  have hgetD : out.getD j 0 = v := by
    simp [List.getD, hv]
  rw [kv, c1, a4, hgetD, ← a1, hsi, hgs, toInt32_add_toInt32, Int.add_assoc]

section DeltaInitFault

open Int32DeltaBinaryPackedDecoder

/-- Whenever the block size is read and the number of mini blocks is read as 0, `init`
panics with an integer division by zero, whatever follows in the data. -/
theorem init_zero_miniBlocks_fault (P : Primitives) (d0 : Int32DeltaBinaryPackedDecoder)
    (data : List Nat) (count : Int)
    (h1 : 0 < (P.varInt32 data).2) (h1b : (P.varInt32 data).2 ≤ data.length)
    (h2 : 0 < (P.varInt32 (data.drop (P.varInt32 data).2.toNat)).2)
    (h0 : (P.varInt32 (data.drop (P.varInt32 data).2.toNat)).1 = 0) :
    d0.init P data count = .fault := by
  have s1 : sliceFrom data 0 = some data := by simp [sliceFrom]
  have s2 : sliceFrom data (0 + (P.varInt32 data).2)
      = some (data.drop (P.varInt32 data).2.toNat) := by
    simp only [sliceFrom, Int.zero_add]
    rw [if_pos ⟨by omega, h1b⟩]
  simp only [init, readPageHeader, s1, s2, h0]
  rw [if_neg (by omega), if_neg (by omega)]
  simp

end DeltaInitFault

/-- C10 (code evaluated at the failing input): on the two bytes `[8, 0]` (block size 8, zero
mini blocks, nothing else) `init` panics on `blockSize / miniBlocks` instead of returning the
error for the missing total value count. -/
theorem delta_init_zero_miniBlocks_panics :
    Int32DeltaBinaryPackedDecoder.zero.init refPrimitives [8, 0] 5 = .fault := by
  decide

/-! ## Theorems: output prefix and frame -/

theorem plainLoop_frame (fuel : Nat) : ∀ (d : Int32PlainDecoder) (buf : List Int) (i : Nat)
    (err : Option DecodeError) (d1 : Int32PlainDecoder) (buf1 : List Int) (n : Nat)
    (e : Option DecodeError),
    plainLoop fuel d buf i err = .ret d1 buf1 n e →
    i ≤ n ∧ ∀ j, n ≤ j → buf1[j]? = buf[j]? := by
  induction fuel with
  | zero =>
    intro d buf i err d1 buf1 n e h
    obtain ⟨rfl, rfl, rfl⟩ := plainFinish_ret _ _ _ _ _ _ _ _ h
    exact ⟨le_refl _, fun _ _ => rfl⟩
  | succ fuel ih =>
    intro d buf i err d1 buf1 n e h
    rw [plainLoop_succ] at h
    split at h
    · split at h
      · cases h
      · obtain ⟨h1, h2⟩ := ih _ _ _ _ _ _ _ _ h
        refine ⟨by omega, fun j hj => ?_⟩
        rw [h2 j hj, List.getElem?_set]
        simp [show i ≠ j by omega]
    · obtain ⟨rfl, rfl, rfl⟩ := plainFinish_ret _ _ _ _ _ _ _ _ h
      exact ⟨le_refl _, fun _ _ => rfl⟩

theorem writeAt_length (buf : List Int) (n : Nat) (out : List Int)
    (h : n + out.length ≤ buf.length) : (writeAt buf n out).length = buf.length := by
  unfold writeAt
  simp only [List.length_append, List.length_take, List.length_drop]
  omega

theorem writeAt_getElem?_ge (buf : List Int) (n : Nat) (out : List Int)
    (h : n + out.length ≤ buf.length) (j : Nat) (hj : n + out.length ≤ j) :
    (writeAt buf n out)[j]? = buf[j]? := by
  unfold writeAt
  have hl : (buf.take n ++ out).length = n + out.length := by
    simp only [List.length_append, List.length_take]; omega
  rw [List.getElem?_append_right (by omega), hl, List.getElem?_drop]
  congr 1
  omega

/-- What a returning `decodeInt32` call of the delta decoder amounts to: a trace `out` of at
most `len buf` loop iterations, written at the front of the buffer. -/
theorem decodeInt32_ret (P : Primitives) (d d1 : Int32DeltaBinaryPackedDecoder)
    (buf buf1 : List Int) (n : Nat) (e : Option DecodeError)
    (h : d.decodeInt32 P buf = .ret d1 buf1 n e) :
    ∃ out e0, deltaRun P buf.length d = some (out, d1, e0) ∧ out.length = n
      ∧ n ≤ buf.length ∧ buf1 = writeAt buf 0 out
      ∧ (e0 = none → e = if n = 0 then some DecodeError.deltaNoMoreData else none)
      ∧ (∀ e1, e0 = some e1 → e = some e1) := by
  rw [decodeInt32_eq_run] at h
  cases hr : deltaRun P buf.length d with
  | none => rw [hr] at h; cases h
  | some r =>
    obtain ⟨out, d2, e0⟩ := r
    rw [hr] at h
    obtain ⟨p1, _, _, _, _⟩ := deltaRun_props P _ _ _ _ _ hr
    cases e0 with
    | some e1 =>
      simp only [outcomeOfRun, Outcome.ret.injEq, Nat.zero_add] at h
      obtain ⟨rfl, rfl, rfl, rfl⟩ := h
      exact ⟨out, some e1, rfl, rfl, p1, rfl, fun h => (by cases h), fun _ h => (by cases h; rfl)⟩
    | none =>
      simp only [outcomeOfRun, deltaFinish, Nat.zero_add] at h
      split at h
      · rename_i h0
        simp only [Outcome.ret.injEq] at h
        obtain ⟨rfl, rfl, rfl, rfl⟩ := h
        exact ⟨out, none, rfl, h0, by omega, rfl, fun _ => (by simp), fun _ h => (by cases h)⟩
      · rename_i h0
        simp only [Outcome.ret.injEq] at h
        obtain ⟨rfl, rfl, rfl, rfl⟩ := h
        exact ⟨out, none, rfl, rfl, p1, rfl, fun _ => (by simp [h0]), fun _ h => (by cases h)⟩

/-- C11 (output prefix bound): whenever `decodeInt32` of the plain decoder or of the delta
decoder returns, from any state and for any buffer, the count satisfies `n ≤ len buf`, the
buffer keeps its length, and every slot `i ≥ n` is unchanged (only slots below `n` are
written). -/
theorem decode_output_bound (P : Primitives) :
    (∀ (d d1 : Int32PlainDecoder) (buf buf1 : List Int) (n : Nat) (e : Option DecodeError),
        d.decodeInt32 buf = .ret d1 buf1 n e →
        n ≤ buf.length ∧ buf1.length = buf.length ∧ ∀ i, n ≤ i → buf1[i]? = buf[i]?)
    ∧ (∀ (d d1 : Int32DeltaBinaryPackedDecoder) (buf buf1 : List Int) (n : Nat)
        (e : Option DecodeError), d.decodeInt32 P buf = .ret d1 buf1 n e →
        n ≤ buf.length ∧ buf1.length = buf.length ∧ ∀ i, n ≤ i → buf1[i]? = buf[i]?) := by
  constructor
  · intro d d1 buf buf1 n e h
    obtain ⟨_, _, h3, h4⟩ := plainLoop_ret _ _ _ _ _ _ _ _ _ (Nat.zero_le _) h
    exact ⟨h4, h3, (plainLoop_frame _ _ _ _ _ _ _ _ _ h).2⟩
  · intro d d1 buf buf1 n e h
    obtain ⟨out, e0, _, hl, hn, rfl, _, _⟩ := decodeInt32_ret P d d1 buf buf1 n e h
    refine ⟨hn, writeAt_length buf 0 out (by omega), fun i hi => ?_⟩
    exact writeAt_getElem?_ge buf 0 out (by omega) i (by omega)

/-- Witness for C11: the plain decoder fills one slot of `[7, 8, 9]` from 4 bytes, the delta
decoder fills five slots of a seven-slot buffer from the example page. -/
theorem decode_output_bound_witness :
    (1 ≤ [7, 8, (9 : Int)].length ∧ [1, 8, (9 : Int)].length = [7, 8, (9 : Int)].length
      ∧ ∀ i, 1 ≤ i → [1, 8, (9 : Int)][i]? = [7, 8, (9 : Int)][i]?)
    ∧ (5 ≤ [9, 9, 9, 9, 9, 9, (9 : Int)].length
      ∧ [100, 102, 104, 106, 108, 9, (9 : Int)].length = [9, 9, 9, 9, 9, 9, (9 : Int)].length
      ∧ ∀ i, 5 ≤ i →
          [100, 102, 104, 106, 108, 9, (9 : Int)][i]? = [9, 9, 9, 9, 9, 9, (9 : Int)][i]?) :=
  ⟨(decode_output_bound refPrimitives).1 ⟨[1, 0, 0, 0], 0⟩ ⟨[1, 0, 0, 0], 4⟩ [7, 8, 9]
      [1, 8, 9] 1 none (by decide),
   (decode_output_bound refPrimitives).2 exampleState
      { exampleState with i := 5, value := 110, miniBlock := 1, unpacker := some 0 }
      [9, 9, 9, 9, 9, 9, 9] [100, 102, 104, 106, 108, 9, 9] 5 none (by decide)⟩

/-! ## Theorems: errors of the delta decoder -/

section DeltaErrors

open Int32DeltaBinaryPackedDecoder

theorem readBlockHeader_err_kind (P : Primitives) (d d1 : Int32DeltaBinaryPackedDecoder)
    (e : DecodeError) (h : d.readBlockHeader P = .ret d1 (some e)) :
    e = .deltaMinDelta ∨ e = .deltaBitWidths := by
  unfold readBlockHeader at h
  simp only at h
  repeat' split at h
  all_goals cases h
  · left; rfl
  · right; rfl

theorem startMiniBlock_err_kind (P : Primitives) (d d1 : Int32DeltaBinaryPackedDecoder)
    (e : DecodeError) (h : d.startMiniBlock P = .ret d1 (some e)) :
    e = .deltaMinDelta ∨ e = .deltaBitWidths := by
  unfold startMiniBlock at h
  simp only at h
  split at h
  · cases h
  · rename_i d2 e2 hr
    cases h
    split at hr
    · exact readBlockHeader_err_kind P _ _ _ hr
    · cases hr
  · split at h
    · cases h
    · split at h <;> cases h

theorem unpackGroup_err (P : Primitives) (d d1 : Int32DeltaBinaryPackedDecoder)
    (e : DecodeError) (h : d.unpackGroup P = .ret d1 (some e)) :
    d1 = d ∧ e = .deltaNotEnoughData
      ∧ d.pos + (d.miniBlockWidth : Int) > (d.data.length : Int) := by
  unfold unpackGroup at h
  simp only at h
  split at h
  · rename_i hc
    cases h
    exact ⟨rfl, rfl, hc⟩
  · split at h
    · cases h
    · split at h
      · cases h
      · split at h <;> cases h

/-- The errors of a loop iteration: a failed block-header read or a truncated mini block. -/
theorem loopBody_err_kind (P : Primitives) (d d1 : Int32DeltaBinaryPackedDecoder)
    (e : DecodeError) (h : d.loopBody P = .err d1 e) :
    e = .deltaMinDelta ∨ e = .deltaBitWidths ∨ e = .deltaNotEnoughData := by
  unfold loopBody at h
  split at h
  · split at h
    · cases h
    · simp only at h
      split at h
      · cases h
      · rename_i d2 e2 hr
        cases h
        split at hr
        · rcases startMiniBlock_err_kind P _ _ _ hr with h1 | h1
          · exact Or.inl h1
          · exact Or.inr (Or.inl h1)
        · cases hr
      · split at h
        · cases h
        · rename_i d3 e3 hu
          cases h
          exact Or.inr (Or.inr (unpackGroup_err P _ _ _ hu).2.1)
        · unfold emitValue at h; cases h
  · unfold emitValue at h; cases h

end DeltaErrors

theorem deltaRun_err_kind (P : Primitives) (k : Nat) :
    ∀ (d d1 : Int32DeltaBinaryPackedDecoder) (out : List Int) (e : DecodeError),
    deltaRun P k d = some (out, d1, some e) →
    e = .deltaMinDelta ∨ e = .deltaBitWidths ∨ e = .deltaNotEnoughData := by
  induction k with
  | zero =>
    intro d d1 out e h
    simp [deltaRun] at h
  | succ k ih =>
    intro d d1 out e h
    rw [deltaRun_succ] at h
    split at h
    · split at h
      · cases h
      · rename_i d2 e2 hb
        simp only [Option.some.injEq, Prod.mk.injEq] at h
        obtain ⟨_, _, he⟩ := h
        cases he
        exact loopBody_err_kind P _ _ _ hb
      · split at h
        · cases h
        · rename_i out2 d3 e3 hr
          simp only [Option.some.injEq, Prod.mk.injEq] at h
          obtain ⟨_, _, rfl⟩ := h
          exact ih _ _ _ _ hr
    · simp at h

/-- C13 (valid prefix on error): when `decodeInt32` of the delta decoder returns `n > 0` with
an error, the error is a failed block-header read or a truncated mini block, and the first
`n` slots hold exactly what a call with an `n`-slot buffer from the same state returns with
no error. -/
theorem delta_valid_prefix_on_error (P : Primitives)
    (d d1 : Int32DeltaBinaryPackedDecoder) (buf buf1 : List Int) (n : Nat) (e : DecodeError)
    (h : d.decodeInt32 P buf = .ret d1 buf1 n (some e)) (hn : 0 < n) :
    (e = .deltaMinDelta ∨ e = .deltaBitWidths ∨ e = .deltaNotEnoughData)
    ∧ ∀ b : List Int, b.length = n →
        ∃ d2, d.decodeInt32 P b = .ret d2 (buf1.take n) n none := by
  obtain ⟨out, e0, hr, hl, hle, rfl, h5, h6⟩ := decodeInt32_ret P d d1 buf buf1 n _ h
  have he0 : e0 = some e := by
    cases e0 with
    | none =>
      have := h5 rfl
      rw [if_neg (by omega)] at this
      cases this
    | some e1 =>
      have := h6 e1 rfl
      cases this
      rfl
  subst he0
  refine ⟨deltaRun_err_kind P _ _ _ _ _ hr, fun b hb => ?_⟩
  obtain ⟨dj, hj⟩ := deltaRun_take P _ _ _ _ _ hr n (by omega)
  refine ⟨dj, ?_⟩
  have ht : out.take n = out := List.take_of_length_le (by omega)
  rw [decodeInt32_eq_run, hb, hj, ht]
  have h1 := writeAt_take buf 0 out (Nat.zero_le _)
  have h2 := writeAt_take b 0 out (Nat.zero_le _)
  simp only [Nat.zero_add, List.take_zero, List.nil_append, hl] at h1 h2
  have h3 : (writeAt b 0 out).length = b.length := writeAt_length b 0 out (by omega)
  rw [List.take_of_length_le (by omega)] at h2
  simp only [outcomeOfRun, deltaFinish, Nat.zero_add, hl, h1, h2]
  rw [if_neg (by omega)]

/-- Witness for C13: on the truncated page a 12-slot call returns 8 values and the
not-enough-data error; an 8-slot call returns the same 8 values with no error. -/
theorem delta_valid_prefix_on_error_witness :
    truncatedState.decodeInt32 refPrimitives (List.replicate 12 0)
      = .ret truncatedStateAfter [1, 0, 0, 1, 3, 6, 10, 15, 0, 0, 0, 0] 8
          (some .deltaNotEnoughData)
    ∧ ((DecodeError.deltaNotEnoughData = .deltaMinDelta
          ∨ DecodeError.deltaNotEnoughData = .deltaBitWidths
          ∨ DecodeError.deltaNotEnoughData = .deltaNotEnoughData)
      ∧ ∀ b : List Int, b.length = 8 →
        ∃ d2, truncatedState.decodeInt32 refPrimitives b
          = .ret d2 (([1, 0, 0, 1, 3, 6, 10, 15, 0, 0, 0, 0] : List Int).take 8) 8 none) :=
  ⟨by decide,
   delta_valid_prefix_on_error refPrimitives truncatedState truncatedStateAfter
     (List.replicate 12 0) [1, 0, 0, 1, 3, 6, 10, 15, 0, 0, 0, 0] 8
     .deltaNotEnoughData (by decide) (by decide)⟩

/-! ## Theorems: inversion of the steps of a loop iteration -/

section DeltaInversion

open Int32DeltaBinaryPackedDecoder

theorem readBlockHeader_ok (P : Primitives) (d d1 : Int32DeltaBinaryPackedDecoder)
    (h : d.readBlockHeader P = .ret d1 none) :
    0 ≤ d.pos ∧ d.pos ≤ d.data.length
      ∧ 0 < (P.zigZagVarInt32 (d.data.drop d.pos.toNat)).2
      ∧ d.pos + (P.zigZagVarInt32 (d.data.drop d.pos.toNat)).2 ≤ d.data.length
      ∧ d.miniBlockWidths.length ≤
          (d.data.drop (d.pos + (P.zigZagVarInt32 (d.data.drop d.pos.toNat)).2).toNat).length
      ∧ d1 = { d with
          minDelta := (P.zigZagVarInt32 (d.data.drop d.pos.toNat)).1
          miniBlockWidths :=
            (d.data.drop (d.pos + (P.zigZagVarInt32 (d.data.drop d.pos.toNat)).2).toNat).take
              d.miniBlockWidths.length
          pos := d.pos + (P.zigZagVarInt32 (d.data.drop d.pos.toNat)).2
                  + d.miniBlockWidths.length
          miniBlock := 0 } := by
  unfold readBlockHeader at h
  split at h
  · cases h
  · rename_i s1 hs1
    obtain ⟨p0, p1, rfl⟩ := sliceFrom_some _ _ _ hs1
    simp only at h
    split at h
    · cases h
    · rename_i hpos
      split at h
      · cases h
      · rename_i s2 hs2
        obtain ⟨q0, q1, rfl⟩ := sliceFrom_some _ _ _ hs2
        split at h
        · cases h
        · rename_i hn
          simp only [ne_eq, List.length_append, List.length_take, List.length_drop,
            Decidable.not_not] at hn
          cases h
          have hle : d.miniBlockWidths.length ≤
              (d.data.drop (d.pos + (P.zigZagVarInt32 (d.data.drop d.pos.toNat)).2).toNat).length := by
            simp only [List.length_drop]
            omega
          refine ⟨p0, p1, by omega, q1, hle, ?_⟩
          have hmin : min d.miniBlockWidths.length
              (d.data.drop (d.pos + (P.zigZagVarInt32 (d.data.drop d.pos.toNat)).2).toNat).length
              = d.miniBlockWidths.length := Nat.min_eq_left hle
          simp only [hmin, List.drop_length, List.append_nil]

theorem startMiniBlock_ok (P : Primitives) (d d1 : Int32DeltaBinaryPackedDecoder)
    (h : d.startMiniBlock P = .ret d1 none) :
    ∃ d0 w, (((d.miniBlock : Int) ≥ d.miniBlocks ∧ d.readBlockHeader P = .ret d0 none)
        ∨ (¬ ((d.miniBlock : Int) ≥ d.miniBlocks) ∧ d0 = d))
      ∧ d0.miniBlockWidths[d0.miniBlock]? = some w ∧ w ≤ 32
      ∧ d1 = { d0 with
          miniBlockWidth := w, unpacker := some w, miniBlockPos := 0,
          miniBlock := d0.miniBlock + 1 } := by
  unfold startMiniBlock at h
  simp only at h
  split at h
  · cases h
  · cases h
  · rename_i d0 hr
    split at h
    · cases h
    · rename_i w hw
      split at h
      · cases h
      · rename_i hw32
        cases h
        refine ⟨d0, w, ?_, hw, by omega, rfl⟩
        split at hr
        · rename_i hc
          exact Or.inl ⟨hc, hr⟩
        · rename_i hc
          cases hr
          exact Or.inr ⟨hc, rfl⟩

theorem unpackGroup_ok (P : Primitives) (d d1 : Int32DeltaBinaryPackedDecoder)
    (h : d.unpackGroup P = .ret d1 none) :
    ∃ t, d.unpacker = some t ∧ 0 ≤ d.pos
      ∧ d.pos + (d.miniBlockWidth : Int) ≤ d.data.length
      ∧ d1 = { d with
          miniBlockValues := List.ofFn (P.unpack8Int32FuncByWidth t
            ((d.data.drop d.pos.toNat).take d.miniBlockWidth))
          miniBlockPos := d.miniBlockPos + d.miniBlockWidth
          pos := if (d.i : Int) + 8 ≥ d.numValues then
              d.pos + d.miniBlockWidth + (Int.tdiv d.miniBlockSize 8 * d.miniBlockWidth
                - (d.miniBlockPos + d.miniBlockWidth))
            else d.pos + d.miniBlockWidth } := by
  unfold unpackGroup at h
  simp only at h
  split at h
  · cases h
  · rename_i hlen
    split at h
    · cases h
    · rename_i hpos
      split at h
      · cases h
      · rename_i t ht
        refine ⟨t, ht, by omega, by omega, ?_⟩
        split at h
        · rename_i hc
          cases h
          simp only [hc, if_true]
        · rename_i hc
          cases h
          simp only [hc, if_false]

/-- The three shapes of a loop iteration. -/
theorem loopBody_eq (P : Primitives) (d : Int32DeltaBinaryPackedDecoder) :
    (d.i % 8 ≠ 0 → d.loopBody P = d.emitValue)
    ∧ (d.i % 8 = 0 → d.miniBlockSize = 0 → d.loopBody P = .fault)
    ∧ (d.i % 8 = 0 → d.miniBlockSize ≠ 0 → Int.tmod d.i d.miniBlockSize ≠ 0 →
        d.loopBody P = match d.unpackGroup P with
          | .fault => .fault
          | .ret d2 (some e) => .err d2 e
          | .ret d2 none => d2.emitValue)
    ∧ (d.i % 8 = 0 → d.miniBlockSize ≠ 0 → Int.tmod d.i d.miniBlockSize = 0 →
        d.loopBody P = match d.startMiniBlock P with
          | .fault => .fault
          | .ret d1 (some e) => .err d1 e
          | .ret d1 none =>
            match d1.unpackGroup P with
            | .fault => .fault
            | .ret d2 (some e) => .err d2 e
            | .ret d2 none => d2.emitValue) := by
  refine ⟨?_, ?_, ?_, ?_⟩
  · intro h; simp only [loopBody, h, if_false]
  · intro h h0; simp only [loopBody, h, h0, if_true]
  · intro h h0 ht; simp only [loopBody, h, h0, ht, if_true, if_false]
  · intro h h0 ht; simp only [loopBody, h, h0, ht, if_true, if_false]

end DeltaInversion

theorem deltaRun_err_split (P : Primitives) (k : Nat) :
    ∀ (d d1 : Int32DeltaBinaryPackedDecoder) (out : List Int) (e : DecodeError),
    deltaRun P k d = some (out, d1, some e) →
    ∃ sn, deltaRun P out.length d = some (out, sn, none)
      ∧ (sn.i : Int) < sn.numValues ∧ sn.loopBody P = .err d1 e := by
  induction k with
  | zero =>
    intro d d1 out e h
    simp [deltaRun] at h
  | succ k ih =>
    intro d d1 out e h
    rw [deltaRun_succ] at h
    split at h
    · rename_i hc
      split at h
      · cases h
      · rename_i d2 e2 hb
        simp only [Option.some.injEq, Prod.mk.injEq] at h
        obtain ⟨rfl, rfl, he⟩ := h
        cases he
        exact ⟨d, rfl, hc, hb⟩
      · rename_i d2 v hb
        split at h
        · cases h
        · rename_i out2 d3 e3 hr
          simp only [Option.some.injEq, Prod.mk.injEq] at h
          obtain ⟨rfl, rfl, rfl⟩ := h
          obtain ⟨sn, h1, h2, h3⟩ := ih _ _ _ _ hr
          refine ⟨sn, ?_, h2, h3⟩
          simp only [List.length_cons]
          rw [deltaRun_succ, if_pos hc, hb]
          simp only [h1]
    · simp at h

section DeltaAtomicity

open Int32DeltaBinaryPackedDecoder

/-- A loop iteration that stops on a truncated group: nothing is emitted or counted; the
state is untouched unless the group is the first of a mini block, in which case the start of
the mini block has already been applied. -/
theorem loopBody_notEnoughData (P : Primitives) (s d1 : Int32DeltaBinaryPackedDecoder)
    (h : s.loopBody P = .err d1 .deltaNotEnoughData) :
    s.i % 8 = 0
      ∧ d1.pos + (d1.miniBlockWidth : Int) > (d1.data.length : Int)
      ∧ (Int.tmod s.i s.miniBlockSize ≠ 0 → d1 = s)
      ∧ (Int.tmod s.i s.miniBlockSize = 0 → s.startMiniBlock P = .ret d1 none
          ∧ d1.miniBlockPos = 0 ∧ d1.unpacker = some d1.miniBlockWidth ∧ 0 < d1.miniBlock) := by
  obtain ⟨e1, e2, e3, e4⟩ := loopBody_eq P s
  by_cases h8 : s.i % 8 = 0
  · by_cases h0 : s.miniBlockSize = 0
    · rw [e2 h8 h0] at h; cases h
    · by_cases ht : Int.tmod s.i s.miniBlockSize = 0
      · rw [e4 h8 h0 ht] at h
        split at h
        · cases h
        · rename_i d2 e hs
          cases h
          rcases startMiniBlock_err_kind P _ _ _ hs with h1 | h1 <;> cases h1
        · rename_i d2 hs
          split at h
          · cases h
          · rename_i d3 e hu
            cases h
            obtain ⟨rfl, _, hgt⟩ := unpackGroup_err P _ _ _ hu
            obtain ⟨d0, w, _, _, _, rfl⟩ := startMiniBlock_ok P _ _ hs
            exact ⟨h8, hgt, fun hne => absurd ht hne,
              fun _ => ⟨hs, rfl, rfl, Nat.succ_pos _⟩⟩
          · unfold emitValue at h; cases h
      · rw [e3 h8 h0 ht] at h
        split at h
        · cases h
        · rename_i d3 e hu
          cases h
          obtain ⟨rfl, _, hgt⟩ := unpackGroup_err P _ _ _ hu
          exact ⟨h8, hgt, fun _ => rfl, fun h => absurd h ht⟩
        · unfold emitValue at h; cases h
  · rw [e1 h8] at h
    unfold emitValue at h; cases h

end DeltaAtomicity

/-- C14 (counterexample): on the truncated page the state before the first group of the
second mini block is attempted is `truncatedStateBefore`; the call that finds the group
truncated returns the not-enough-data error and leaves `truncatedStateAfter`, whose active
mini-block index (2 instead of 1) and in-mini-block offset (0 instead of 3) differ. -/
theorem delta_truncated_group_counterexample :
    truncatedState.decodeInt32 refPrimitives (List.replicate 8 0)
      = .ret truncatedStateBefore [1, 0, 0, 1, 3, 6, 10, 15] 8 none
    ∧ truncatedStateBefore.decodeInt32 refPrimitives [0]
      = .ret truncatedStateAfter [0] 0 (some .deltaNotEnoughData)
    ∧ truncatedStateAfter ≠ truncatedStateBefore
    ∧ truncatedStateAfter.miniBlock = 2 ∧ truncatedStateBefore.miniBlock = 1
    ∧ truncatedStateAfter.miniBlockPos = 0 ∧ truncatedStateBefore.miniBlockPos = 3 := by
  decide

/-- C14 (amended): when `decodeInt32` aborts with the not-enough-data error after `n` values,
no value is emitted or counted for the truncated group: value index, running value, total
count and data are those of the state `sn` in which the group was attempted. If the group
is not the first of its mini block the whole state equals `sn`; if it is the first, the
state is `sn` with the mini block already started (block header read if due, bit width and
unpacker set, in-mini-block offset 0, mini-block index incremented). -/
theorem delta_truncated_group_state (P : Primitives)
    (d d1 : Int32DeltaBinaryPackedDecoder) (buf buf1 : List Int) (n : Nat)
    (h : d.decodeInt32 P buf = .ret d1 buf1 n (some .deltaNotEnoughData)) :
    ∃ sn, deltaStateAfter P d n = some sn
      ∧ d1.i = sn.i ∧ d1.value = sn.value ∧ d1.numValues = sn.numValues
      ∧ d1.data = sn.data ∧ sn.i % 8 = 0
      ∧ d1.pos + (d1.miniBlockWidth : Int) > (d1.data.length : Int)
      ∧ (Int.tmod sn.i sn.miniBlockSize ≠ 0 → d1 = sn)
      ∧ (Int.tmod sn.i sn.miniBlockSize = 0 →
          sn.startMiniBlock P = .ret d1 none ∧ d1.miniBlockPos = 0
          ∧ d1.unpacker = some d1.miniBlockWidth ∧ 0 < d1.miniBlock) := by
  obtain ⟨out, e0, hr, hl, hle, _, h5, h6⟩ := decodeInt32_ret P d d1 buf buf1 n _ h
  have he0 : e0 = some .deltaNotEnoughData := by
    cases e0 with
    | none =>
      have := h5 rfl
      split at this <;> cases this
    | some e1 =>
      have := h6 e1 rfl
      cases this
      rfl
  subst he0
  obtain ⟨sn, h1, _, h3⟩ := deltaRun_err_split P _ _ _ _ _ hr
  rw [hl] at h1
  obtain ⟨a1, a2, a3, a4⟩ := loopBody_err P _ _ _ h3
  obtain ⟨b1, b2, b3, b4⟩ := loopBody_notEnoughData P _ _ h3
  exact ⟨sn, deltaStateAfter_of_run P d sn n out none h1 hl, a3, a1, a2, a4, b1, b2, b3, b4⟩

/-- Witness for C14 (amended): the 12-slot call on the truncated page. -/
theorem delta_truncated_group_state_witness :
    ∃ sn, deltaStateAfter refPrimitives truncatedState 8 = some sn
      ∧ truncatedStateAfter.i = sn.i ∧ truncatedStateAfter.value = sn.value
      ∧ truncatedStateAfter.numValues = sn.numValues
      ∧ truncatedStateAfter.data = sn.data ∧ sn.i % 8 = 0
      ∧ truncatedStateAfter.pos + (truncatedStateAfter.miniBlockWidth : Int)
          > (truncatedStateAfter.data.length : Int)
      ∧ (Int.tmod sn.i sn.miniBlockSize ≠ 0 → truncatedStateAfter = sn)
      ∧ (Int.tmod sn.i sn.miniBlockSize = 0 →
          sn.startMiniBlock refPrimitives = .ret truncatedStateAfter none
          ∧ truncatedStateAfter.miniBlockPos = 0
          ∧ truncatedStateAfter.unpacker = some truncatedStateAfter.miniBlockWidth
          ∧ 0 < truncatedStateAfter.miniBlock) :=
  delta_truncated_group_state refPrimitives truncatedState truncatedStateAfter
    (List.replicate 12 0) [1, 0, 0, 1, 3, 6, 10, 15, 0, 0, 0, 0] 8 (by decide)

/-! ## Theorems: reachable states and invariants of the delta decoder -/

theorem deltaRun_loopReachable (P : Primitives) (d0 : Int32DeltaBinaryPackedDecoder)
    (k : Nat) : ∀ (d d1 : Int32DeltaBinaryPackedDecoder) (out : List Int)
    (e : Option DecodeError), LoopReachable P d0 d →
    deltaRun P k d = some (out, d1, e) → LoopReachable P d0 d1 := by
  induction k with
  | zero =>
    intro d d1 out e hd h
    simp only [deltaRun, Option.some.injEq, Prod.mk.injEq] at h
    obtain ⟨_, rfl, _⟩ := h
    exact hd
  | succ k ih =>
    intro d d1 out e hd h
    rw [deltaRun_succ] at h
    split at h
    · rename_i hc
      split at h
      · cases h
      · rename_i d2 e2 hb
        simp only [Option.some.injEq, Prod.mk.injEq] at h
        obtain ⟨_, rfl, _⟩ := h
        exact LoopReachable.err d d2 e2 hd hc hb
      · rename_i d2 v hb
        split at h
        · cases h
        · rename_i out2 d3 e3 hr
          simp only [Option.some.injEq, Prod.mk.injEq] at h
          obtain ⟨_, rfl, _⟩ := h
          exact ih _ _ _ _ (LoopReachable.emit d d2 v hd hc hb) hr
    · simp only [Option.some.injEq, Prod.mk.injEq] at h
      obtain ⟨_, rfl, _⟩ := h
      exact hd

/-- Every state reached by `decodeInt32` calls is reached by loop iterations. -/
theorem DeltaReachable.loopReachable (P : Primitives)
    (d s : Int32DeltaBinaryPackedDecoder) (h : DeltaReachable P d s) :
    LoopReachable P d s := by
  induction h with
  | start => exact LoopReachable.start
  | call s s1 buf buf1 n e _ hc ih =>
    obtain ⟨out, e0, hr, _⟩ := decodeInt32_ret P s s1 buf buf1 n e hc
    exact deltaRun_loopReachable P d _ _ _ _ _ ih hr

/-- A property kept by every loop iteration holds in every reachable state. -/
theorem LoopReachable.invariant (P : Primitives) (I : Int32DeltaBinaryPackedDecoder → Prop)
    (hemit : ∀ s s1 v, I s → (s.i : Int) < s.numValues → s.loopBody P = .emit s1 v → I s1)
    (herr : ∀ s s1 e, I s → (s.i : Int) < s.numValues → s.loopBody P = .err s1 e → I s1)
    (d s : Int32DeltaBinaryPackedDecoder) (hd : I d) (h : LoopReachable P d s) : I s := by
  induction h with
  | start => exact hd
  | emit s s1 v _ hc hb ih => exact hemit s s1 v ih hc hb
  | err s s1 e _ hc hb ih => exact herr s s1 e ih hc hb

theorem loopReachable_count (P : Primitives) (d s : Int32DeltaBinaryPackedDecoder)
    (h : LoopReachable P d s) (hi : d.i = 0) :
    s.numValues = d.numValues ∧ (s.i : Int) ≤ max d.numValues 0 := by
  refine LoopReachable.invariant P
    (fun s => s.numValues = d.numValues ∧ (s.i : Int) ≤ max d.numValues 0)
    ?_ ?_ d s ⟨rfl, by rw [hi]; simp⟩ h
  · intro s s1 v hI hc hb
    obtain ⟨_, b2, b3, _⟩ := loopBody_emit P _ _ _ hb
    refine ⟨by rw [b3, hI.1], ?_⟩
    rw [b2]
    rw [hI.1] at hc
    push_cast
    omega
  · intro s s1 e hI hc hb
    obtain ⟨_, b2, b3, _⟩ := loopBody_err P _ _ _ hb
    exact ⟨by rw [b2, hI.1], by rw [b3]; exact hI.2⟩

/-- C17 (counterexample): `init` succeeds on a page whose total value count reads as the
`int32` -1; the state it returns is reachable (by no call at all), has value index 0 and
total count -1, so `i ≤ numValues` fails; a decode call from it emits nothing and leaves it
unchanged. -/
theorem delta_negative_count_counterexample :
    Int32DeltaBinaryPackedDecoder.zero.init refPrimitives negCountPage 0
      = .ret negCountState none
    ∧ negCountState.i = 0 ∧ negCountState.numValues = -1
    ∧ ¬ ((negCountState.i : Int) ≤ negCountState.numValues)
    ∧ negCountState.decodeInt32 refPrimitives [0]
      = .ret negCountState [0] 0 (some .deltaNoMoreData) := by
  decide

/-- C17 (amended): in every state reachable from a successful `init` by any sequence of
`decodeInt32` calls the total count is the one read from the page header and the value index
is at most `max numValues 0`; so `i ≤ numValues` whenever the count read is not negative,
and `i = 0` when it is negative. -/
theorem delta_emitted_count_invariant (P : Primitives)
    (d0 d s : Int32DeltaBinaryPackedDecoder) (data : List Nat) (count : Int)
    (hinit : d0.init P data count = .ret d none) (hs : DeltaReachable P d s) :
    s.numValues = (pageHeaderFields P data).2.2.1
    ∧ (s.i : Int) ≤ max s.numValues 0
    ∧ (0 ≤ s.numValues → (s.i : Int) ≤ s.numValues)
    ∧ (s.numValues < 0 → s.i = 0) := by
  obtain ⟨h1, h2⟩ := loopReachable_count P d s (DeltaReachable.loopReachable P d s hs)
    (init_ok P d0 d data count hinit).1
  have h3 := (init_fields P d0 d data count hinit).2.2.1
  refine ⟨by rw [h1, h3], by rw [h1]; exact h2, fun h0 => ?_, fun h0 => ?_⟩
  · rw [h1] at h0 ⊢
    omega
  · rw [h1] at h0
    omega

/-- Witness for C17: the state left by an 8-slot call on the 12-value page `truncatedPage`. -/
theorem delta_emitted_count_invariant_witness :
    truncatedStateBefore.numValues = (pageHeaderFields refPrimitives truncatedPage).2.2.1
    ∧ (truncatedStateBefore.i : Int) ≤ max truncatedStateBefore.numValues 0
    ∧ (0 ≤ truncatedStateBefore.numValues →
        (truncatedStateBefore.i : Int) ≤ truncatedStateBefore.numValues)
    ∧ (truncatedStateBefore.numValues < 0 → truncatedStateBefore.i = 0) :=
  delta_emitted_count_invariant refPrimitives .zero truncatedState truncatedStateBefore
    truncatedPage 12 (by decide)
    (DeltaReachable.call truncatedState truncatedStateBefore (List.replicate 8 0)
      [1, 0, 0, 1, 3, 6, 10, 15] 8 none DeltaReachable.start (by decide))

/-- C18 (code evaluated at failing inputs): `init` panics on a page whose four header fields
are all readable but whose number of mini blocks is 0 (integer division by zero), and on a
page whose number of mini blocks decodes to -1 (`make` with a negative length). -/
theorem delta_init_not_total :
    Int32DeltaBinaryPackedDecoder.zero.init refPrimitives [8, 0, 5, 200, 1, 4, 0] 5 = .fault
    ∧ (refVarInt32 [255, 255, 255, 255, 15, 5, 200, 1, 4, 0]).1 = -1
    ∧ Int32DeltaBinaryPackedDecoder.zero.init refPrimitives
        [8, 255, 255, 255, 255, 15, 5, 200, 1, 4, 0] 5 = .fault := by
  decide

/-! ## Theorems: generic output path -/

theorem copyLoop_spec (b : List Int) (k : Nat) : ∀ (i : Nat) (g : List GenericValue),
    i + k ≤ b.length → i + k ≤ g.length →
    ∃ g1, copyLoop b k i g = some g1 ∧ g1.length = g.length
      ∧ (∀ j, j < i → g1[j]? = g[j]?)
      ∧ (∀ j, i ≤ j → j < i + k → g1[j]? = (b[j]?).map GenericValue.int32)
      ∧ (∀ j, i + k ≤ j → g1[j]? = g[j]?) := by
  induction k with
  | zero =>
    intro i g _ _
    exact ⟨g, rfl, rfl, fun _ _ => rfl, fun j h1 h2 => by omega, fun _ _ => rfl⟩
  | succ k ih =>
    intro i g hb hg
    have hib : i < b.length := by omega
    obtain ⟨g1, h1, h2, h3, h4, h5⟩ := ih (i + 1) (g.set i (.int32 b[i])) (by omega)
      (by simp; omega)
    refine ⟨g1, ?_, by simpa using h2, ?_, ?_, ?_⟩
    · simp only [copyLoop, List.getElem?_eq_getElem hib]
      rw [if_pos (by omega), h1]
    · intro j hj
      rw [h3 j (by omega), List.getElem?_set]
      simp [show i ≠ j by omega]
    · intro j hj1 hj2
      by_cases hji : j = i
      · subst hji
        rw [h3 j (by omega), List.getElem?_set]
        simp [List.getElem?_eq_getElem hib]
        omega
      · exact h4 j (by omega) (by omega)
    · intro j hj
      rw [h5 j (by omega), List.getElem?_set]
      simp [show i ≠ j by omega]

theorem sameTyped_fault {σ : Type} : SameTyped (Outcome.fault : Outcome σ) Outcome.fault :=
  trivial

theorem sameTyped_ret {σ : Type} (d : σ) (b1 b3 : List Int) (n : Nat)
    (e : Option DecodeError) (h : ∀ j, j < n → b3[j]? = b1[j]?) :
    SameTyped (Outcome.ret d b1 n e) (Outcome.ret d b3 n e) :=
  ⟨rfl, rfl, rfl, h⟩

/-- The generic call agrees with a typed call as soon as the typed call on the fresh
zero-filled buffer agrees with it and returns a count within the buffers. -/
theorem decodeEWith_same {σ : Type} (dec : List Int → Outcome σ) (g : List GenericValue)
    (b : List Int) (hsame : SameTyped (dec b) (dec (List.replicate g.length 0)))
    (hbound : ∀ d2 b2 n e, dec (List.replicate g.length 0) = .ret d2 b2 n e →
      n ≤ g.length ∧ n ≤ b2.length) :
    SameResult (dec b) (decodeEWith dec g) g := by
  unfold decodeEWith
  cases h2 : dec (List.replicate g.length 0) with
  | fault =>
    rw [h2] at hsame
    cases h1 : dec b with
    | fault => trivial
    | ret d1 b1 n e => rw [h1] at hsame; exact hsame.elim
  | ret d2 b2 n2 e2 =>
    rw [h2] at hsame
    obtain ⟨hn, hn2⟩ := hbound d2 b2 n2 e2 h2
    cases h1 : dec b with
    | fault => rw [h1] at hsame; exact hsame.elim
    | ret d1 b1 n e =>
      rw [h1] at hsame
      obtain ⟨rfl, rfl, rfl, hv⟩ := hsame
      obtain ⟨g1, c1, c2, _, c4, c5⟩ := copyLoop_spec b2 n2 0 g (by omega) (by omega)
      simp only [c1]
      refine ⟨rfl, rfl, rfl, c2, fun i hi => ?_, fun i hi => c5 i (by omega)⟩
      rw [c4 i (Nat.zero_le _) (by omega), hv i hi]

theorem plainLoop_indep (fuel : Nat) : ∀ (d : Int32PlainDecoder) (b b2 : List Int) (i : Nat)
    (err : Option DecodeError), b2.length = b.length → (∀ j, j < i → b2[j]? = b[j]?) →
    SameTyped (plainLoop fuel d b i err) (plainLoop fuel d b2 i err) := by
  induction fuel with
  | zero =>
    intro d b b2 i err _ hag
    simp only [plainLoop, plainFinish]
    by_cases h0 : i = 0
    · rw [if_pos h0, if_pos h0]; exact sameTyped_ret _ _ _ _ _ hag
    · rw [if_neg h0, if_neg h0]; exact sameTyped_ret _ _ _ _ _ hag
  | succ fuel ih =>
    intro d b b2 i err hlen hag
    rw [plainLoop_succ, plainLoop_succ, hlen]
    by_cases hc : i < b.length ∧ d.pos < d.data.length
    · rw [if_pos hc, if_pos hc]
      cases uint32LE (d.data.drop d.pos) with
      | none => exact sameTyped_fault
      | some u =>
        apply ih
        · simp [hlen]
        · intro j hj
          rw [List.getElem?_set, List.getElem?_set, hlen]
          by_cases hij : i = j
          · simp [hij]
          · simp only [hij, if_false]
            exact hag j (by omega)
    · rw [if_neg hc, if_neg hc]
      simp only [plainFinish]
      by_cases h0 : i = 0
      · rw [if_pos h0, if_pos h0]; exact sameTyped_ret _ _ _ _ _ hag
      · rw [if_neg h0, if_neg h0]; exact sameTyped_ret _ _ _ _ _ hag

theorem dictFill_some (values : List Int) (keys : List Int) :
    ∀ (i : Nat) (b b1 : List Int), dictFill values keys i b = some b1 → i ≤ b.length →
    i + keys.length ≤ b.length ∧ b1.length = b.length := by
  induction keys with
  | nil =>
    intro i b b1 h hi
    simp only [dictFill, Option.some.injEq] at h
    subst h
    exact ⟨by simpa using hi, rfl⟩
  | cons k ks ih =>
    intro i b b1 h hi
    simp only [dictFill] at h
    split at h
    · rename_i hc
      obtain ⟨h1, h2⟩ := ih _ _ _ h (by simp; omega)
      simp only [List.length_set] at h1 h2
      exact ⟨by simp only [List.length_cons]; omega, h2⟩
    · cases h

theorem dictFill_indep (values : List Int) (keys : List Int) :
    ∀ (i : Nat) (b b2 : List Int), b2.length = b.length → (∀ j, j < i → b2[j]? = b[j]?) →
    (dictFill values keys i b = none ∧ dictFill values keys i b2 = none)
    ∨ ∃ b1 b3, dictFill values keys i b = some b1 ∧ dictFill values keys i b2 = some b3
        ∧ ∀ j, j < i + keys.length → b3[j]? = b1[j]? := by
  induction keys with
  | nil =>
    intro i b b2 hlen hag
    exact Or.inr ⟨b, b2, rfl, rfl, by simpa using hag⟩
  | cons k ks ih =>
    intro i b b2 hlen hag
    simp only [dictFill, hlen]
    by_cases hc : 0 ≤ k ∧ k < values.length ∧ i < b.length
    · rw [if_pos hc, if_pos hc]
      rcases ih (i + 1) (b.set i (values.getD k.toNat 0)) (b2.set i (values.getD k.toNat 0))
        (by simp [hlen]) (by
          intro j hj
          rw [List.getElem?_set, List.getElem?_set, hlen]
          by_cases hij : i = j
          · simp [hij]
          · simp only [hij, if_false]
            exact hag j (by omega)) with h | ⟨b1, b3, h1, h3, hv⟩
      · exact Or.inl h
      · exact Or.inr ⟨b1, b3, h1, h3, fun j hj => hv j (by simp only [List.length_cons] at hj; omega)⟩
    · rw [if_neg hc, if_neg hc]
      exact Or.inl ⟨rfl, rfl⟩

theorem writeAt_getElem?_lt (buf : List Int) (out : List Int) (i : Nat)
    (hi : i < out.length) : (writeAt buf 0 out)[i]? = out[i]? := by
  unfold writeAt
  simp only [List.take_zero, List.nil_append, Nat.zero_add]
  rw [List.getElem?_append_left hi]

theorem outcomeOfRun_same (b b2 : List Int)
    (r : Option (List Int × Int32DeltaBinaryPackedDecoder × Option DecodeError)) :
    SameTyped (outcomeOfRun b 0 r) (outcomeOfRun b2 0 r) := by
  have hv : ∀ out : List Int, ∀ j, j < 0 + out.length →
      (writeAt b2 0 out)[j]? = (writeAt b 0 out)[j]? := by
    intro out j hj
    rw [writeAt_getElem?_lt _ out j (by omega), writeAt_getElem?_lt _ out j (by omega)]
  cases r with
  | none => exact sameTyped_fault
  | some r =>
    obtain ⟨out, d1, e⟩ := r
    cases e with
    | some e => exact sameTyped_ret _ _ _ _ _ (hv out)
    | none =>
      simp only [outcomeOfRun, deltaFinish]
      by_cases h0 : 0 + out.length = 0
      · rw [if_pos h0, if_pos h0]; exact sameTyped_ret _ _ _ _ _ (fun j hj => by omega)
      · rw [if_neg h0, if_neg h0]; exact sameTyped_ret _ _ _ _ _ (hv out)

/-- C20 (generic-output path equals typed path): for the plain, the dictionary and the delta
decoder, from every state and for buffers of equal length, `decodeE` panics exactly when
`decodeInt32` does, and otherwise returns the same count and error, leaves the same decoder
state, stores the same int32 values in its first `n` slots and leaves the slots from `n` on
unchanged. -/
theorem generic_path_equals_typed (P : Primitives) :
    (∀ (d : Int32PlainDecoder) (g : List GenericValue) (b : List Int),
        b.length = g.length → SameResult (d.decodeInt32 b) (d.decodeE g) g)
    ∧ (∀ (κ : Type) (decodeKeys : κ → Nat → κ × List Int × Option DecodeError)
        (d : Int32DictDecoder κ) (g : List GenericValue) (b : List Int),
        b.length = g.length →
        SameResult (d.decodeInt32 decodeKeys b) (d.decodeE decodeKeys g) g)
    ∧ (∀ (d : Int32DeltaBinaryPackedDecoder) (g : List GenericValue) (b : List Int),
        b.length = g.length → SameResult (d.decodeInt32 P b) (d.decodeE P g) g) := by
  refine ⟨?_, ?_, ?_⟩
  · intro d g b hlen
    apply decodeEWith_same
    · have h := plainLoop_indep b.length d b (List.replicate g.length 0) 0 none
        (by simp [hlen]) (fun j hj => by omega)
      simpa [Int32PlainDecoder.decodeInt32, hlen] using h
    · intro d2 b2 n e h2
      obtain ⟨_, _, q3, q4⟩ := plainLoop_ret _ _ _ _ _ _ _ _ _ (Nat.zero_le _) h2
      simp only [List.length_replicate] at q3 q4
      exact ⟨q4, by omega⟩
  · intro κ decodeKeys d g b hlen
    apply decodeEWith_same
    · simp only [Int32DictDecoder.decodeInt32, List.length_replicate, hlen]
      rcases hk : decodeKeys d.dictDecoder g.length with ⟨s, keys, e⟩
      cases e with
      | some e => exact sameTyped_ret _ _ _ _ _ (fun j hj => by omega)
      | none =>
        simp only
        rcases dictFill_indep d.values keys 0 b (List.replicate g.length 0) (by simp [hlen])
          (fun j hj => by omega) with ⟨h1, h3⟩ | ⟨b1, b3, h1, h3, hv⟩
        · rw [h1, h3]; exact sameTyped_fault
        · rw [h1, h3]
          exact sameTyped_ret _ _ _ _ _ (fun j hj => hv j (by omega))
    · intro d2 b2 n e h2
      simp only [Int32DictDecoder.decodeInt32, List.length_replicate] at h2
      rcases hk : decodeKeys d.dictDecoder g.length with ⟨s, keys, e1⟩
      rw [hk] at h2
      cases e1 with
      | some e1 =>
        simp only [Outcome.ret.injEq] at h2
        obtain ⟨_, rfl, rfl, _⟩ := h2
        exact ⟨Nat.zero_le _, Nat.zero_le _⟩
      | none =>
        simp only at h2
        cases hf : dictFill d.values keys 0 (List.replicate g.length 0) with
        | none => rw [hf] at h2; cases h2
        | some b3 =>
          rw [hf] at h2
          simp only [Outcome.ret.injEq] at h2
          obtain ⟨_, rfl, rfl, _⟩ := h2
          obtain ⟨q1, q2⟩ := dictFill_some _ _ _ _ _ hf (Nat.zero_le _)
          simp only [List.length_replicate, Nat.zero_add] at q1 q2
          exact ⟨q1, by omega⟩
  · intro d g b hlen
    apply decodeEWith_same
    · rw [decodeInt32_eq_run, decodeInt32_eq_run, List.length_replicate, hlen]
      exact outcomeOfRun_same _ _ _
    · intro d2 b2 n e h2
      obtain ⟨out, e0, _, hl, hn, rfl, _, _⟩ := decodeInt32_ret P _ _ _ _ _ _ h2
      simp only [List.length_replicate] at hn
      rw [writeAt_length _ 0 out (by simp; omega)]
      simp only [List.length_replicate]
      exact ⟨hn, hn⟩

/-- Witness for C20: each decoder on a three-slot (four-slot for the dictionary) generic
buffer and on an int32 buffer of the same length. -/
theorem generic_path_equals_typed_witness :
    SameResult
        (Int32PlainDecoder.decodeInt32 ⟨[1, 0, 0, 0, 2, 0, 0, 0], 0⟩ [7, 8, 9])
        (Int32PlainDecoder.decodeE ⟨[1, 0, 0, 0, 2, 0, 0, 0], 0⟩
          [.other 1, .other 2, .other 3])
        [.other 1, .other 2, .other 3]
    ∧ Int32PlainDecoder.decodeE ⟨[1, 0, 0, 0, 2, 0, 0, 0], 0⟩ [.other 1, .other 2, .other 3]
        = .ret ⟨[1, 0, 0, 0, 2, 0, 0, 0], 8⟩ [.int32 1, .int32 2, .other 3] 2 none
    ∧ SameResult
        (Int32DictDecoder.decodeInt32 (fun (s : Unit) _ => (s, [2, 0, 1, 1], none))
          ⟨(), [10, 20, 30]⟩ [0, 0, 0, 0])
        (Int32DictDecoder.decodeE (fun (s : Unit) _ => (s, [2, 0, 1, 1], none))
          ⟨(), [10, 20, 30]⟩ [.other 1, .other 2, .other 3, .other 4])
        [.other 1, .other 2, .other 3, .other 4]
    ∧ SameResult
        (exampleState.decodeInt32 refPrimitives [7, 8, 9])
        (exampleState.decodeE refPrimitives [.other 1, .other 2, .other 3])
        [.other 1, .other 2, .other 3] :=
  ⟨(generic_path_equals_typed refPrimitives).1 ⟨[1, 0, 0, 0, 2, 0, 0, 0], 0⟩
      [.other 1, .other 2, .other 3] [7, 8, 9] rfl,
   by decide,
   (generic_path_equals_typed refPrimitives).2.1 Unit
      (fun (s : Unit) _ => (s, [2, 0, 1, 1], none)) ⟨(), [10, 20, 30]⟩
      [.other 1, .other 2, .other 3, .other 4] [0, 0, 0, 0] rfl,
   (generic_path_equals_typed refPrimitives).2.2 exampleState
      [.other 1, .other 2, .other 3] [7, 8, 9] rfl⟩

/-! ## Theorems: the shapes of a loop iteration -/

section DeltaShapes

open Int32DeltaBinaryPackedDecoder

theorem emitValue_ok (d d1 : Int32DeltaBinaryPackedDecoder) (v : Int)
    (h : d.emitValue = .emit d1 v) :
    v = d.value ∧ d1 = { d with
      value := toInt32 (d.value + toInt32 (d.miniBlockValues.getD (d.i % 8) 0 + d.minDelta))
      i := d.i + 1 } := by
  unfold emitValue at h
  cases h
  exact ⟨rfl, rfl⟩

theorem readBlockHeader_err (P : Primitives) (d d1 : Int32DeltaBinaryPackedDecoder)
    (e : DecodeError) (h : d.readBlockHeader P = .ret d1 (some e)) :
    0 ≤ d.pos ∧ d.pos ≤ d.data.length
      ∧ (d1 = { d with minDelta := (P.zigZagVarInt32 (d.data.drop d.pos.toNat)).1 }
        ∨ (0 < (P.zigZagVarInt32 (d.data.drop d.pos.toNat)).2
          ∧ d.pos + (P.zigZagVarInt32 (d.data.drop d.pos.toNat)).2 ≤ d.data.length
          ∧ ∃ ws : List Nat, ws.length = d.miniBlockWidths.length
            ∧ d1 = { d with
                minDelta := (P.zigZagVarInt32 (d.data.drop d.pos.toNat)).1
                pos := d.pos + (P.zigZagVarInt32 (d.data.drop d.pos.toNat)).2
                miniBlockWidths := ws })) := by
  unfold readBlockHeader at h
  split at h
  · cases h
  · rename_i s1 hs1
    obtain ⟨p0, p1, rfl⟩ := sliceFrom_some _ _ _ hs1
    simp only at h
    split at h
    · cases h
      exact ⟨p0, p1, Or.inl rfl⟩
    · rename_i hpos
      split at h
      · cases h
      · rename_i s2 hs2
        obtain ⟨q0, q1, rfl⟩ := sliceFrom_some _ _ _ hs2
        split at h
        · cases h
          refine ⟨p0, p1, Or.inr ⟨by omega, q1, _, ?_, rfl⟩⟩
          simp only [List.length_append, List.length_take, List.length_drop]
          omega
        · cases h

/-- An emitting iteration has one of three shapes: no group boundary, a new group inside the
current mini block, or a new mini block and its first group. -/
theorem loopBody_emit_shape (P : Primitives) (s s1 : Int32DeltaBinaryPackedDecoder) (v : Int)
    (h : s.loopBody P = .emit s1 v) :
    (s.i % 8 ≠ 0 ∧ s.emitValue = .emit s1 v)
    ∨ (s.i % 8 = 0 ∧ s.miniBlockSize ≠ 0 ∧ Int.tmod s.i s.miniBlockSize ≠ 0
        ∧ ∃ s2, s.unpackGroup P = .ret s2 none ∧ s2.emitValue = .emit s1 v)
    ∨ (s.i % 8 = 0 ∧ s.miniBlockSize ≠ 0 ∧ Int.tmod s.i s.miniBlockSize = 0
        ∧ ∃ sa s2, s.startMiniBlock P = .ret sa none ∧ sa.unpackGroup P = .ret s2 none
          ∧ s2.emitValue = .emit s1 v) := by
  obtain ⟨e1, e2, e3, e4⟩ := loopBody_eq P s
  by_cases h8 : s.i % 8 = 0
  · by_cases h0 : s.miniBlockSize = 0
    · rw [e2 h8 h0] at h; cases h
    · by_cases ht : Int.tmod s.i s.miniBlockSize = 0
      · rw [e4 h8 h0 ht] at h
        split at h
        · cases h
        · cases h
        · rename_i sa hsa
          split at h
          · cases h
          · cases h
          · rename_i s2 hs2
            exact Or.inr (Or.inr ⟨h8, h0, ht, sa, s2, hsa, hs2, h⟩)
      · rw [e3 h8 h0 ht] at h
        split at h
        · cases h
        · cases h
        · rename_i s2 hs2
          exact Or.inr (Or.inl ⟨h8, h0, ht, s2, hs2, h⟩)
  · rw [e1 h8] at h
    exact Or.inl ⟨h8, h⟩

/-- An iteration that stops with an error has one of three shapes: a truncated group inside
the current mini block, a failed block-header read, or a truncated first group of a new mini
block. -/
theorem loopBody_err_shape (P : Primitives) (s s1 : Int32DeltaBinaryPackedDecoder)
    (e : DecodeError) (h : s.loopBody P = .err s1 e) :
    s.i % 8 = 0 ∧ s.miniBlockSize ≠ 0
    ∧ ((Int.tmod s.i s.miniBlockSize ≠ 0 ∧ s1 = s)
      ∨ (Int.tmod s.i s.miniBlockSize = 0 ∧ (s.miniBlock : Int) ≥ s.miniBlocks
          ∧ s.readBlockHeader P = .ret s1 (some e))
      ∨ (Int.tmod s.i s.miniBlockSize = 0 ∧ s.startMiniBlock P = .ret s1 none)) := by
  obtain ⟨e1, e2, e3, e4⟩ := loopBody_eq P s
  by_cases h8 : s.i % 8 = 0
  · by_cases h0 : s.miniBlockSize = 0
    · rw [e2 h8 h0] at h; cases h
    · refine ⟨h8, h0, ?_⟩
      by_cases ht : Int.tmod s.i s.miniBlockSize = 0
      · rw [e4 h8 h0 ht] at h
        split at h
        · cases h
        · rename_i sa e2 hsa
          cases h
          refine Or.inr (Or.inl ⟨ht, ?_⟩)
          unfold startMiniBlock at hsa
          simp only at hsa
          split at hsa
          · cases hsa
          · rename_i d2 e3 hr
            cases hsa
            split at hr
            · rename_i hc
              exact ⟨hc, hr⟩
            · cases hr
          · split at hsa
            · cases hsa
            · split at hsa <;> cases hsa
        · rename_i sa hsa
          split at h
          · cases h
          · rename_i s2 e2 hs2
            cases h
            obtain ⟨rfl, _, _⟩ := unpackGroup_err P _ _ _ hs2
            exact Or.inr (Or.inr ⟨ht, hsa⟩)
          · unfold emitValue at h; cases h
      · rw [e3 h8 h0 ht] at h
        split at h
        · cases h
        · rename_i s2 e2 hs2
          cases h
          obtain ⟨rfl, _, _⟩ := unpackGroup_err P _ _ _ hs2
          exact Or.inl ⟨ht, rfl⟩
        · unfold emitValue at h; cases h
  · rw [e1 h8] at h
    unfold emitValue at h; cases h

end DeltaShapes

/-! ## Theorems: cursor monotonicity -/

theorem succ_mod_cases (i m : Nat) (hm : 0 < m) :
    (i % m + 1 = m ∧ (i + 1) % m = 0) ∨ (i % m + 1 < m ∧ (i + 1) % m = i % m + 1) := by
  have hlt : i % m < m := Nat.mod_lt _ hm
  have hq := Nat.div_add_mod i m
  by_cases h : i % m + 1 = m
  · left
    refine ⟨h, ?_⟩
    have e : i + 1 = m * (i / m + 1) := by rw [Nat.mul_add, Nat.mul_one]; omega
    rw [e, Nat.mul_mod_right]
  · right
    refine ⟨by omega, ?_⟩
    have e : i + 1 = m * (i / m) + (i % m + 1) := by omega
    rw [e, Nat.mul_add_mod, Nat.mod_eq_of_lt (by omega)]

theorem mod_mod_eight (i m : Nat) (h8 : m % 8 = 0) : (i % m) % 8 = i % 8 :=
  Nat.mod_mod_of_dvd i (Nat.dvd_of_mod_eq_zero h8)

section DeltaOffset

open Int32DeltaBinaryPackedDecoder

theorem readBlockHeader_pos (P : Primitives) (d d1 : Int32DeltaBinaryPackedDecoder)
    (e : Option DecodeError) (h : d.readBlockHeader P = .ret d1 e) :
    d.pos ≤ d1.pos ∧ d1.miniBlockPos = d.miniBlockPos
      ∧ d1.miniBlockWidth = d.miniBlockWidth ∧ d1.unpacker = d.unpacker
      ∧ d1.miniBlockWidths.length = d.miniBlockWidths.length := by
  cases e with
  | none =>
    obtain ⟨_, _, h3, _, h5, rfl⟩ := readBlockHeader_ok P _ _ h
    refine ⟨?_, rfl, rfl, rfl, ?_⟩
    · simp only; omega
    · simp only [List.length_take]; omega
  | some e =>
    obtain ⟨_, _, h3⟩ := readBlockHeader_err P _ _ _ h
    rcases h3 with rfl | ⟨h4, _, ws, hws, rfl⟩
    · exact ⟨le_refl _, rfl, rfl, rfl, rfl⟩
    · exact ⟨by simp only; omega, rfl, rfl, rfl, hws⟩

theorem startMiniBlock_pos (P : Primitives) (d d1 : Int32DeltaBinaryPackedDecoder)
    (h : d.startMiniBlock P = .ret d1 none) :
    d.pos ≤ d1.pos ∧ d1.miniBlockPos = 0 ∧ d1.unpacker = some d1.miniBlockWidth
      ∧ d1.miniBlockWidths.length = d.miniBlockWidths.length := by
  obtain ⟨d0, w, hd0, _, _, rfl⟩ := startMiniBlock_ok P _ _ h
  rcases hd0 with ⟨_, hr⟩ | ⟨_, rfl⟩
  · obtain ⟨a, _, _, _, a5⟩ := readBlockHeader_pos P _ _ _ hr
    exact ⟨a, rfl, rfl, a5⟩
  · exact ⟨le_refl _, rfl, rfl, rfl⟩

/-- An emitting iteration keeps the offset bookkeeping and does not move the cursor
backwards, when the mini-block size is a positive multiple of 8. -/
theorem loopBody_emit_offset (P : Primitives) (m : Nat) (hm : 0 < m) (h8 : m % 8 = 0)
    (s s1 : Int32DeltaBinaryPackedDecoder) (v : Int) (hI : OffsetInvariant m s)
    (h : s.loopBody P = .emit s1 v) : OffsetInvariant m s1 ∧ s.pos ≤ s1.pos := by
  obtain ⟨hms, hoff⟩ := hI
  have hm8 : 8 ≤ m := by omega
  have hmm := mod_mod_eight s.i m h8
  have hlt : s.i % m < m := Nat.mod_lt _ hm
  have htd : Int.tdiv (m : Int) 8 = ((m / 8 : Nat) : Int) := rfl
  rcases loopBody_emit_shape P s s1 v h with ⟨hi8, he⟩ | ⟨hi8, _, ht, s2, hu, he⟩
    | ⟨hi8, _, ht, sa, s2, hsa, hu, he⟩
  · obtain ⟨_, rfl⟩ := emitValue_ok _ _ _ he
    refine ⟨⟨hms, ?_⟩, le_refl _⟩
    intro hne
    simp only at hne ⊢
    have hne0 : s.i % m ≠ 0 := by omega
    rw [hoff hne0]
    rcases succ_mod_cases s.i m hm with ⟨_, h2⟩ | ⟨_, h2⟩
    · exact absurd h2 hne
    · rw [h2]
      have : (s.i % m + 1 + 7) / 8 = (s.i % m + 7) / 8 := by omega
      rw [this]
  · have hne0 : s.i % m ≠ 0 := by
      rw [hms] at ht
      intro h0
      apply ht
      show ((s.i % m : Nat) : Int) = 0
      rw [h0]; rfl
    obtain ⟨t, _, _, _, rfl⟩ := unpackGroup_ok P _ _ hu
    obtain ⟨_, rfl⟩ := emitValue_ok _ _ _ he
    have hk : (s.i % m + 7) / 8 + 1 ≤ m / 8 := by omega
    have hw : (0 : Int) ≤ (s.miniBlockWidth : Int) := Int.ofNat_nonneg _
    have hsucc : (s.i % m + 1 + 7) / 8 = (s.i % m + 7) / 8 + 1 := by omega
    generalize (s.i % m + 7) / 8 = k at hk hoff hsucc
    generalize m / 8 = g at hk htd
    have hkg : ((k : Int) + 1) ≤ (g : Int) := by exact_mod_cast hk
    have hmul : (k : Int) * (s.miniBlockWidth : Int) + (s.miniBlockWidth : Int)
        ≤ (g : Int) * (s.miniBlockWidth : Int) := by
      calc (k : Int) * (s.miniBlockWidth : Int) + (s.miniBlockWidth : Int)
          = ((k : Int) + 1) * (s.miniBlockWidth : Int) := by ring
        _ ≤ (g : Int) * (s.miniBlockWidth : Int) := Int.mul_le_mul_of_nonneg_right hkg hw
    refine ⟨⟨hms, ?_⟩, ?_⟩
    · intro _
      simp only
      rw [hoff hne0]
      rcases succ_mod_cases s.i m hm with ⟨h1, _⟩ | ⟨_, h2⟩
      · omega
      · rw [h2, hsucc]
        push_cast
        ring
    · simp only
      rw [hoff hne0, hms, htd]
      split
      · linarith
      · linarith
  · have h0 : s.i % m = 0 := by
      rw [hms] at ht
      have : ((s.i % m : Nat) : Int) = 0 := ht
      exact_mod_cast this
    obtain ⟨p1, p2, _, _⟩ := startMiniBlock_pos P _ _ hsa
    obtain ⟨_, _, _, _, _, _, a7, _⟩ := startMiniBlock_frame P _ _ _ hsa
    obtain ⟨_, _, f3, _, f5, _⟩ := startMiniBlock_frame P _ _ _ hsa
    obtain ⟨t, _, _, _, rfl⟩ := unpackGroup_ok P _ _ hu
    obtain ⟨_, rfl⟩ := emitValue_ok _ _ _ he
    have hw : (0 : Int) ≤ (sa.miniBlockWidth : Int) := Int.ofNat_nonneg _
    have hk : 1 ≤ m / 8 := by omega
    generalize m / 8 = g at hk htd
    have hkg : (1 : Int) ≤ (g : Int) := by exact_mod_cast hk
    have hmul : (sa.miniBlockWidth : Int) ≤ (g : Int) * (sa.miniBlockWidth : Int) := by
      calc (sa.miniBlockWidth : Int) = 1 * (sa.miniBlockWidth : Int) := by ring
        _ ≤ (g : Int) * (sa.miniBlockWidth : Int) := Int.mul_le_mul_of_nonneg_right hkg hw
    refine ⟨⟨by simp only; rw [f5, hms], ?_⟩, ?_⟩
    · intro _
      simp only
      rw [f3, p2]
      rcases succ_mod_cases s.i m hm with ⟨h1, _⟩ | ⟨_, h2⟩
      · omega
      · rw [h2, h0]
        simp
    · simp only
      rw [p2, f5, hms, htd]
      split
      · linarith
      · linarith

end DeltaOffset

section DeltaOffsetRun

open Int32DeltaBinaryPackedDecoder

/-- An iteration that stops with an error keeps the offset bookkeeping and does not move
the cursor backwards. -/
theorem loopBody_err_offset (P : Primitives) (m : Nat)
    (s s1 : Int32DeltaBinaryPackedDecoder) (e : DecodeError) (hI : OffsetInvariant m s)
    (h : s.loopBody P = .err s1 e) : OffsetInvariant m s1 ∧ s.pos ≤ s1.pos := by
  obtain ⟨hms, hoff⟩ := hI
  obtain ⟨_, _, hshape⟩ := loopBody_err_shape P s s1 e h
  have hzero : Int.tmod s.i s.miniBlockSize = 0 → s.i % m = 0 := by
    intro ht
    rw [hms] at ht
    have : ((s.i % m : Nat) : Int) = 0 := ht
    exact_mod_cast this
  rcases hshape with ⟨_, rfl⟩ | ⟨ht, _, hr⟩ | ⟨ht, hsa⟩
  · exact ⟨⟨hms, hoff⟩, le_refl _⟩
  · obtain ⟨_, _, f3, _, f5, _⟩ := readBlockHeader_frame P _ _ _ hr
    obtain ⟨p1, _⟩ := readBlockHeader_pos P _ _ _ hr
    refine ⟨⟨by rw [f5, hms], fun hne => ?_⟩, p1⟩
    rw [f3] at hne
    exact absurd (hzero ht) hne
  · obtain ⟨_, _, f3, _, f5, _⟩ := startMiniBlock_frame P _ _ _ hsa
    obtain ⟨p1, _⟩ := startMiniBlock_pos P _ _ hsa
    refine ⟨⟨by rw [f5, hms], fun hne => ?_⟩, p1⟩
    rw [f3] at hne
    exact absurd (hzero ht) hne

end DeltaOffsetRun

theorem deltaRun_offset (P : Primitives) (m : Nat) (hm : 0 < m) (h8 : m % 8 = 0) (k : Nat) :
    ∀ (d d1 : Int32DeltaBinaryPackedDecoder) (out : List Int) (e : Option DecodeError),
    OffsetInvariant m d → deltaRun P k d = some (out, d1, e) →
    OffsetInvariant m d1 ∧ d.pos ≤ d1.pos := by
  induction k with
  | zero =>
    intro d d1 out e hI h
    simp only [deltaRun, Option.some.injEq, Prod.mk.injEq] at h
    obtain ⟨_, rfl, _⟩ := h
    exact ⟨hI, le_refl _⟩
  | succ k ih =>
    intro d d1 out e hI h
    rw [deltaRun_succ] at h
    split at h
    · split at h
      · cases h
      · rename_i d2 e2 hb
        simp only [Option.some.injEq, Prod.mk.injEq] at h
        obtain ⟨_, rfl, _⟩ := h
        exact loopBody_err_offset P m _ _ _ hI hb
      · rename_i d2 v hb
        split at h
        · cases h
        · rename_i out2 d3 e3 hr
          simp only [Option.some.injEq, Prod.mk.injEq] at h
          obtain ⟨_, rfl, _⟩ := h
          obtain ⟨h1, h2⟩ := loopBody_emit_offset P m hm h8 _ _ _ hI hb
          obtain ⟨h3, h4⟩ := ih _ _ _ _ h1 hr
          exact ⟨h3, le_trans h2 h4⟩
    · simp only [Option.some.injEq, Prod.mk.injEq] at h
      obtain ⟨_, rfl, _⟩ := h
      exact ⟨hI, le_refl _⟩

theorem deltaReachable_offset (P : Primitives) (m : Nat) (hm : 0 < m) (h8 : m % 8 = 0)
    (d s : Int32DeltaBinaryPackedDecoder) (hI : OffsetInvariant m d)
    (h : DeltaReachable P d s) : OffsetInvariant m s := by
  induction h with
  | start => exact hI
  | call s s1 buf buf1 n e _ hc ih =>
    obtain ⟨out, e0, hr, _⟩ := decodeInt32_ret P s s1 buf buf1 n e hc
    exact (deltaRun_offset P m hm h8 _ _ _ _ _ ih hr).1

/-- C16 (counterexample): on a page with mini-block size 3 (not a multiple of 8) the state
with 8 values emitted is reached from `init` by one call, and the next call, which unpacks
the last group and applies the padding adjustment, moves the cursor from 7 back to 6. -/
theorem delta_cursor_backwards_counterexample :
    Int32DeltaBinaryPackedDecoder.zero.init refPrimitives oddPage 9 = .ret oddState none
    ∧ oddState.decodeInt32 refPrimitives (List.replicate 8 0)
      = .ret oddState8 [0, 1, 2, 3, 4, 5, 6, 7] 8 none
    ∧ oddState8.decodeInt32 refPrimitives [0] = .ret oddState9 [8] 1 none
    ∧ oddState8.pos = 7 ∧ oddState9.pos = 6 := by
  decide

/-- C16 (amended): the cursor of the plain decoder never moves backwards in a `decodeInt32`
call; for the delta decoder, after a successful `init` with a mini-block size that is a
positive multiple of 8, in every state reachable by `decodeInt32` calls a further call
leaves the cursor greater than or equal to what it was, the padding adjustment included. -/
theorem cursor_monotone (P : Primitives) :
    (∀ (d s s1 : Int32PlainDecoder) (buf buf1 : List Int) (n : Nat)
        (e : Option DecodeError), PlainReachable d s →
        s.decodeInt32 buf = .ret s1 buf1 n e → s.pos ≤ s1.pos)
    ∧ (∀ (d0 d : Int32DeltaBinaryPackedDecoder) (data : List Nat) (count : Int) (m : Nat),
        d0.init P data count = .ret d none → d.miniBlockSize = (m : Int) → 0 < m →
        m % 8 = 0 →
        ∀ (s s1 : Int32DeltaBinaryPackedDecoder) (buf buf1 : List Int) (n : Nat)
          (e : Option DecodeError), DeltaReachable P d s →
          s.decodeInt32 P buf = .ret s1 buf1 n e → s.pos ≤ s1.pos) := by
  constructor
  · intro d s s1 buf buf1 n e _ h
    obtain ⟨_, h2, _, _⟩ := plainLoop_ret _ _ _ _ _ _ _ _ _ (Nat.zero_le _) h
    omega
  · intro d0 d data count m hinit hms hm h8 s s1 buf buf1 n e hs h
    have hi0 := (init_ok P d0 d data count hinit).1
    have hI : OffsetInvariant m d := ⟨hms, fun hne => by rw [hi0] at hne; simp at hne⟩
    have hIs := deltaReachable_offset P m hm h8 d s hI hs
    obtain ⟨out, e0, hr, _⟩ := decodeInt32_ret P s s1 buf buf1 n e h
    exact (deltaRun_offset P m hm h8 _ _ _ _ _ hIs hr).2

/-- Witness for C16 (amended): the plain decoder on two values, and the delta decoder on the
12-value page `packedPage` (mini-block size 8) called with 3 and then 9 slots. -/
theorem cursor_monotone_witness :
    (Int32PlainDecoder.mk [1, 0, 0, 0, 2, 0, 0, 0] 4).pos
        ≤ (Int32PlainDecoder.mk [1, 0, 0, 0, 2, 0, 0, 0] 8).pos
    ∧ ({ packedState with
          i := 3, value := 1, miniBlock := 1, miniBlockWidth := 3, unpacker := some 3,
          miniBlockPos := 3, pos := 10,
          miniBlockValues := [0, 1, 2, 3, 4, 5, 6, 7] } : Int32DeltaBinaryPackedDecoder).pos
        ≤ ({ packedState with
          i := 12, pos := 10, value := 17, miniBlock := 2,
          unpacker := some 0 } : Int32DeltaBinaryPackedDecoder).pos :=
  ⟨(cursor_monotone refPrimitives).1 ⟨[1, 0, 0, 0, 2, 0, 0, 0], 0⟩
      ⟨[1, 0, 0, 0, 2, 0, 0, 0], 4⟩ ⟨[1, 0, 0, 0, 2, 0, 0, 0], 8⟩ [0] [2] 1 none
      (PlainReachable.call ⟨[1, 0, 0, 0, 2, 0, 0, 0], 0⟩ ⟨[1, 0, 0, 0, 2, 0, 0, 0], 4⟩ [0] [1]
        1 none PlainReachable.start (by decide))
      (by decide),
   (cursor_monotone refPrimitives).2 .zero packedState packedPage 12 8 (by decide)
      (by decide) (by decide) (by decide) _ _ (List.replicate 9 0)
      [1, 3, 6, 10, 15, 21, 20, 19, 18] 9 none
      (DeltaReachable.call packedState _ [0, 0, 0] [1, 0, 0] 3 none DeltaReachable.start
        (by decide))
      (by decide)⟩

/-! ## Theorems: final-block padding -/

theorem mod_ne_zero_between (m m0 t : Nat) (h0 : m0 % m = 0) (h1 : m0 < t)
    (h2 : t < m0 + m) : t % m ≠ 0 := by
  obtain ⟨q, rfl⟩ := Nat.dvd_of_mod_eq_zero h0
  have e : t = m * q + (t - m * q) := by omega
  rw [e, Nat.mul_add_mod, Nat.mod_eq_of_lt (by omega)]
  omega

theorem tmod_natCast_eq_zero (i m : Nat) (s : Int) (hs : s = (m : Int)) :
    Int.tmod (i : Int) s = 0 ↔ i % m = 0 := by
  subst hs
  constructor
  · intro h
    have : ((i % m : Nat) : Int) = 0 := h
    exact_mod_cast this
  · intro h
    show ((i % m : Nat) : Int) = 0
    rw [h]; rfl

section DeltaPadding

open Int32DeltaBinaryPackedDecoder

/-- The iteration that starts the mini block holding the last group. -/
theorem loopBody_emit_start (P : Primitives) (m N L : Nat)
    (s s1 : Int32DeltaBinaryPackedDecoder) (v : Int)
    (hms : s.miniBlockSize = (m : Int)) (hN : s.numValues = (N : Int))
    (hi8 : s.i % 8 = 0) (him : s.i % m = 0) (hL : s.i ≤ L) (hLN : L < N) (hNL : N ≤ L + 8)
    (hL8 : L % 8 = 0) (h : s.loopBody P = .emit s1 v) :
    ∃ sa, s.startMiniBlock P = .ret sa none
      ∧ LastMiniBlockProgress sa m N L (s.i + 1) s1 := by
  have htd : Int.tdiv (m : Int) 8 = ((m / 8 : Nat) : Int) := rfl
  rcases loopBody_emit_shape P s s1 v h with ⟨h8, _⟩ | ⟨_, _, ht, _⟩
    | ⟨_, _, _, sa, s2, hsa, hu, he⟩
  · exact absurd hi8 h8
  · exact absurd ((tmod_natCast_eq_zero s.i m _ hms).2 him) ht
  · refine ⟨sa, hsa, ?_⟩
    obtain ⟨_, p2, _, _⟩ := startMiniBlock_pos P _ _ hsa
    obtain ⟨_, f2, f3, _, f5, _⟩ := startMiniBlock_frame P _ _ _ hsa
    obtain ⟨t, _, _, _, rfl⟩ := unpackGroup_ok P _ _ hu
    obtain ⟨_, rfl⟩ := emitValue_ok _ _ _ he
    refine ⟨by simp only; rw [f3], by simp only; rw [f5, hms], by simp only; rw [f2, hN], rfl,
      ?_, ?_⟩
    · intro hle
      simp only
      have : ¬ ((sa.i : Int) + 8 ≥ sa.numValues) := by
        rw [f3, f2, hN]
        have : s.i + 8 ≤ L := by omega
        omega
      rw [if_neg this, p2]
      ring
    · intro hlt
      simp only
      have : (sa.i : Int) + 8 ≥ sa.numValues := by
        rw [f3, f2, hN]
        omega
      rw [if_pos this, p2, f5, hms, htd]
      ring

/-- An iteration inside or after the mini block holding the last group. -/
theorem loopBody_emit_progress (P : Primitives) (m N L m0 : Nat)
    (sa s s1 : Int32DeltaBinaryPackedDecoder) (v : Int) (t : Nat)
    (hQ : LastMiniBlockProgress sa m N L t s)
    (h0 : m0 % m = 0) (hm0 : m0 < t) (hLm : L < m0 + m) (hLN : L < N) (hNL : N ≤ L + 8)
    (hL8 : L % 8 = 0) (htN : t < N) (h : s.loopBody P = .emit s1 v) :
    LastMiniBlockProgress sa m N L (t + 1) s1 := by
  obtain ⟨q1, q2, q3, q4, q5, q6⟩ := hQ
  have htd : Int.tdiv (m : Int) 8 = ((m / 8 : Nat) : Int) := rfl
  rcases loopBody_emit_shape P s s1 v h with ⟨h8, he⟩ | ⟨h8, _, ht, s2, hu, he⟩
    | ⟨h8, _, ht, _⟩
  · obtain ⟨_, rfl⟩ := emitValue_ok _ _ _ he
    refine ⟨by simp only; rw [q1], q2, q3, q4, ?_, ?_⟩
    · intro hle
      exact q5 (by omega)
    · intro hlt
      simp only
      by_cases htL : t ≤ L
      · have : t = L := by omega
        rw [q1, this] at h8
        exact absurd hL8 h8
      · exact q6 (by omega)
  · have htL : t ≤ L := by
      by_contra hc
      rw [q1] at h8
      omega
    obtain ⟨u, _, _, _, rfl⟩ := unpackGroup_ok P _ _ hu
    obtain ⟨_, rfl⟩ := emitValue_ok _ _ _ he
    refine ⟨by simp only; rw [q1], q2, q3, q4, ?_, ?_⟩
    · intro hle
      simp only
      have : ¬ ((s.i : Int) + 8 ≥ s.numValues) := by
        rw [q1, q3]
        have : t + 8 ≤ L := by rw [q1] at h8; omega
        omega
      rw [if_neg this]
      have := q5 htL
      linarith
    · intro hlt
      simp only
      have : (s.i : Int) + 8 ≥ s.numValues := by
        rw [q1, q3]
        omega
      rw [if_pos this, q2, htd, q4]
      have := q5 htL
      linarith
  · rw [q1] at ht
    have hz := (tmod_natCast_eq_zero t m _ q2).1 ht
    by_cases htL : t ≤ L
    · exact absurd hz (mod_ne_zero_between m m0 t h0 hm0 (by omega))
    · rw [q1] at h8
      omega

end DeltaPadding


theorem deltaStateAfter_some (P : Primitives) (d s : Int32DeltaBinaryPackedDecoder) (j : Nat)
    (h : deltaStateAfter P d j = some s) :
    ∃ out, deltaRun P j d = some (out, s, none) ∧ out.length = j := by
  unfold deltaStateAfter at h
  rw [deltaDecodeUntilError_eq_run P _ d (by
    intro b hb; rw [List.eq_of_mem_replicate hb]; simp), sum_length_replicate_single] at h
  cases hr : deltaRun P j d with
  | none => rw [hr] at h; simp at h
  | some r =>
    obtain ⟨out, d1, e⟩ := r
    rw [hr] at h
    simp only [Option.map] at h
    split at h
    · rename_i hl
      cases h
      obtain ⟨_, _, _, _, p5⟩ := deltaRun_props P _ _ _ _ _ hr
      cases e with
      | none => exact ⟨out, rfl, hl⟩
      | some e =>
        have := p5 (by simp)
        omega
    · cases h

/-- C12 (final-block padding). After a successful `init` with a mini-block size `m` that is a
positive multiple of 8 and a total count `N > 0`, let `L = 8 * ((N - 1) / 8)` be the value
index of the last group and `L - L % m` the index at which its mini block starts. In every
state `sj` with more than `L` values emitted (the last group is unpacked), the cursor is the
cursor `sa.pos` right after that mini block was started plus the full byte span
`m / 8 * bitWidth` of the mini block. -/
theorem delta_final_padding (P : Primitives) (d0 d : Int32DeltaBinaryPackedDecoder)
    (data : List Nat) (count : Int) (m N j : Nat) (sj : Int32DeltaBinaryPackedDecoder)
    (hinit : d0.init P data count = .ret d none)
    (hms : d.miniBlockSize = (m : Int)) (hm : 0 < m) (h8 : m % 8 = 0)
    (hN : d.numValues = (N : Int)) (hN0 : 0 < N)
    (hj1 : 8 * ((N - 1) / 8) < j) (hj2 : j ≤ N)
    (hsj : deltaStateAfter P d j = some sj) :
    ∃ s0 sa, deltaStateAfter P d (8 * ((N - 1) / 8) - 8 * ((N - 1) / 8) % m) = some s0
      ∧ s0.startMiniBlock P = .ret sa none
      ∧ sj.pos = sa.pos + Int.tdiv d.miniBlockSize 8 * (sa.miniBlockWidth : Int) := by
  obtain ⟨out, hrun, hlen⟩ := deltaStateAfter_some P d sj j hsj
  have hi0 := (init_ok P d0 d data count hinit).1
  have hI : OffsetInvariant m d := ⟨hms, fun hne => by rw [hi0] at hne; simp at hne⟩
  generalize hLdef : 8 * ((N - 1) / 8) = L at hj1 ⊢
  have hL8 : L % 8 = 0 := by omega
  have hLN : L < N := by omega
  have hNL : N ≤ L + 8 := by omega
  have hdm := Nat.div_add_mod L m
  have hmodlt : L % m < m := Nat.mod_lt _ hm
  generalize hm0def : L - L % m = m0
  have hm0e : m0 = m * (L / m) := by omega
  have hm0m : m0 % m = 0 := by rw [hm0e]; exact Nat.mul_mod_right _ _
  have hm0L : m0 ≤ L := by omega
  have hLm : L < m0 + m := by omega
  have hm08 : m0 % 8 = 0 := by
    have : (m0 % m) % 8 = m0 % 8 := mod_mod_eight m0 m h8
    rw [hm0m] at this
    omega
  -- the iteration at index `m0` starts the mini block
  obtain ⟨s0, s1, v, hr0, hr1, hb0, _⟩ :=
    deltaRun_step P j d sj out none hrun m0 (by omega)
  obtain ⟨_, a2, a3, _, _⟩ := deltaRun_props P _ _ _ _ _ hr0
  have hs0i : s0.i = m0 := by
    rw [a2, hi0, List.length_take_of_le (by omega)]; omega
  have hs0m := (deltaRun_offset P m hm h8 _ _ _ _ _ hI hr0).1.1
  obtain ⟨sa, hsa, hQ1⟩ := loopBody_emit_start P m N L s0 s1 v hs0m (by rw [a3, hN])
    (by rw [hs0i]; exact hm08) (by rw [hs0i]; exact hm0m) (by rw [hs0i]; exact hm0L)
    hLN hNL hL8 hb0
  rw [hs0i] at hQ1
  -- the progress invariant holds at every later index up to `j`
  have hall : ∀ t, m0 + 1 ≤ t → t ≤ j →
      ∃ st, deltaRun P t d = some (out.take t, st, none)
        ∧ LastMiniBlockProgress sa m N L t st := by
    intro t ht
    induction t, ht using Nat.le_induction with
    | base => intro _; exact ⟨s1, hr1, hQ1⟩
    | succ t ht ih =>
      intro htj
      obtain ⟨st, hst, hQ⟩ := ih (by omega)
      obtain ⟨st2, st1, v1, k1, k2, kb, _⟩ :=
        deltaRun_step P j d sj out none hrun t (by omega)
      rw [hst] at k1
      simp only [Option.some.injEq, Prod.mk.injEq, true_and, and_true] at k1
      subst k1
      exact ⟨st1, k2, loopBody_emit_progress P m N L m0 sa st st1 v1 t hQ hm0m (by omega)
        hLm hLN hNL hL8 (by omega) kb⟩
  obtain ⟨st, hst, hQ⟩ := hall j (by omega) (le_refl _)
  rw [List.take_of_length_le (by omega), hrun] at hst
  simp only [Option.some.injEq, Prod.mk.injEq, true_and, and_true] at hst
  subst hst
  refine ⟨s0, sa, ?_, hsa, ?_⟩
  · exact deltaStateAfter_of_run P d s0 m0 _ none hr0 (List.length_take_of_le (by omega))
  · rw [hQ.2.2.2.2.2 (by omega), hms]
    rfl

/-- Witness for C12: on `paddedPage` the mini block starts at offset 6 and spans
`16 / 8 * 3 = 6` bytes; once the 5 values are emitted the cursor is 12. -/
theorem delta_final_padding_witness :
    paddedState.decodeInt32 refPrimitives (List.replicate 5 0)
      = .ret paddedStateEnd [1, 0, 0, 1, 3] 5 none
    ∧ paddedStateEnd.pos = 12
    ∧ ∃ s0 sa, deltaStateAfter refPrimitives paddedState
          (8 * ((5 - 1) / 8) - 8 * ((5 - 1) / 8) % 16) = some s0
      ∧ s0.startMiniBlock refPrimitives = .ret sa none
      ∧ paddedStateEnd.pos
          = sa.pos + Int.tdiv paddedState.miniBlockSize 8 * (sa.miniBlockWidth : Int) :=
  ⟨by decide, by decide,
   delta_final_padding refPrimitives .zero paddedState paddedPage 5 16 5 5 paddedStateEnd
     (by decide) (by decide) (by decide) (by decide) (by decide) (by decide) (by decide)
     (by decide) (by decide)⟩

/-! ## Theorems: block headers -/

theorem rep_mod (b M m k r : Nat) : (b * (M * m) + k * m + r) % m = r % m := by
  have e : b * (M * m) + k * m + r = m * (b * M + k) + r := by ring
  rw [e, Nat.mul_add_mod]

theorem rep_r_eq (b M m k r i : Nat) (hi : i = b * (M * m) + k * m + r) (hr1 : 1 ≤ r)
    (hr2 : r ≤ m) : (i % m = 0 ↔ r = m) := by
  rw [hi, rep_mod]
  constructor
  · intro h
    by_contra hne
    rw [Nat.mod_eq_of_lt (by omega)] at h
    omega
  · intro h
    rw [h, Nat.mod_self]

section DeltaBlocks

open Int32DeltaBinaryPackedDecoder

theorem readPageHeader_pos (P : Primitives) (d d1 : Int32DeltaBinaryPackedDecoder)
    (h : d.readPageHeader P = .ret d1 none) (hpos : d.pos = 0) :
    d1.pos = pageHeaderLength P d.data
      ∧ d1.miniBlockWidths.length = d1.miniBlocks.toNat ∧ d1.miniBlock = d.miniBlock := by
  unfold readPageHeader at h
  simp only at h
  repeat' split at h
  all_goals try cases h
  rename_i s1 hs1 _ _ s2 hs2 _ hneg hzero _ s3 hs3 _ _ s4 hs4 _
  obtain ⟨_, _, rfl⟩ := sliceFrom_some _ _ _ hs1
  obtain ⟨_, _, rfl⟩ := sliceFrom_some _ _ _ hs2
  obtain ⟨_, _, rfl⟩ := sliceFrom_some _ _ _ hs3
  obtain ⟨_, _, rfl⟩ := sliceFrom_some _ _ _ hs4
  simp only [hpos, Int.toNat_zero, List.drop_zero, Int.zero_add, pageHeaderLength,
    List.length_replicate, and_self]

/-- After a successful `init` the cursor is past the four page-header fields and the first
block header (its min delta and one bit-width byte per mini block). -/
theorem init_pos (P : Primitives) (d0 d : Int32DeltaBinaryPackedDecoder) (data : List Nat)
    (count : Int) (h : d0.init P data count = .ret d none) :
    d.pos = pageHeaderLength P data
        + (P.zigZagVarInt32 (data.drop (pageHeaderLength P data).toNat)).2 + d.miniBlocks
      ∧ d.minDelta = (P.zigZagVarInt32 (data.drop (pageHeaderLength P data).toNat)).1
      ∧ d.miniBlockWidths.length = d.miniBlocks.toNat ∧ d.miniBlock = 0 := by
  unfold init at h
  simp only at h
  split at h
  · cases h
  · cases h
  · rename_i d1 h1
    obtain ⟨a1, a2, _⟩ := readPageHeader_pos P _ _ h1 rfl
    obtain ⟨_, _, _, _, _, a6⟩ := readPageHeader_fields P _ _ h1 rfl
    obtain ⟨_, e2⟩ := readPageHeader_frame P _ _ _ h1
    simp only at a1 e2
    split at h
    · cases h
    · cases h
    · rename_i d2 h2
      cases h
      obtain ⟨_, _, _, _, hle, rfl⟩ := readBlockHeader_ok P _ _ h2
      refine ⟨?_, ?_, ?_, rfl⟩
      · show d1.pos + (P.zigZagVarInt32 (d1.data.drop d1.pos.toNat)).2
            + (d1.miniBlockWidths.length : Int) = _
        rw [e2, a1, a2, Int.toNat_of_nonneg (by omega)]
      · show (P.zigZagVarInt32 (d1.data.drop d1.pos.toNat)).1 = _
        rw [e2, a1]
      · show (List.take d1.miniBlockWidths.length _).length = _
        rw [List.length_take, Nat.min_eq_left hle, a2]

/-- What `headerDue` decides: an emitting iteration takes the min delta and the bit widths
from a block header it reads when a header is due, and keeps them otherwise. -/
theorem loopBody_emit_header (P : Primitives) (s s1 : Int32DeltaBinaryPackedDecoder) (v : Int)
    (h : s.loopBody P = .emit s1 v) :
    (headerDue s → ∃ sh, s.readBlockHeader P = .ret sh none ∧ s1.minDelta = sh.minDelta
        ∧ s1.miniBlockWidths = sh.miniBlockWidths ∧ s1.miniBlock = 1)
    ∧ (¬ headerDue s → s1.minDelta = s.minDelta ∧ s1.miniBlockWidths = s.miniBlockWidths
        ∧ (s1.miniBlock = s.miniBlock
          ∨ (s1.miniBlock = s.miniBlock + 1 ∧ s.i % 8 = 0
              ∧ Int.tmod s.i s.miniBlockSize = 0))) := by
  rcases loopBody_emit_shape P s s1 v h with ⟨h8, he⟩ | ⟨h8, _, ht, s2, hu, he⟩
    | ⟨h8, _, ht, sa, s2, hsa, hu, he⟩
  · obtain ⟨_, rfl⟩ := emitValue_ok _ _ _ he
    exact ⟨fun hd => absurd hd.1 h8, fun _ => ⟨rfl, rfl, Or.inl rfl⟩⟩
  · obtain ⟨t, _, _, _, rfl⟩ := unpackGroup_ok P _ _ hu
    obtain ⟨_, rfl⟩ := emitValue_ok _ _ _ he
    exact ⟨fun hd => absurd hd.2.1 ht, fun _ => ⟨rfl, rfl, Or.inl rfl⟩⟩
  · obtain ⟨d0, w, hd0, _, _, rfl⟩ := startMiniBlock_ok P _ _ hsa
    obtain ⟨t, _, _, _, rfl⟩ := unpackGroup_ok P _ _ hu
    obtain ⟨_, rfl⟩ := emitValue_ok _ _ _ he
    rcases hd0 with ⟨hge, hr⟩ | ⟨hlt, rfl⟩
    · refine ⟨fun _ => ⟨d0, hr, rfl, rfl, ?_⟩, fun hnd => absurd ⟨h8, ht, hge⟩ hnd⟩
      obtain ⟨_, _, _, _, _, rfl⟩ := readBlockHeader_ok P _ _ hr
      rfl
    · exact ⟨fun hd => absurd hd.2.2 hlt, fun _ => ⟨rfl, rfl, Or.inr ⟨rfl, h8, ht⟩⟩⟩

end DeltaBlocks

section DeltaBlockCount

open Int32DeltaBinaryPackedDecoder

/-- An emitting iteration keeps the bookkeeping of the mini-block index. -/
theorem loopBody_emit_blockCount (P : Primitives) (M m : Nat) (hM : 0 < M) (hm : 0 < m)
    (h8 : m % 8 = 0) (s s1 : Int32DeltaBinaryPackedDecoder) (v : Int)
    (hI : BlockCountInvariant M m s) (h : s.loopBody P = .emit s1 v) :
    BlockCountInvariant M m s1 := by
  obtain ⟨hMs, hms, hrep⟩ := hI
  obtain ⟨_, b2, _, _, _⟩ := loopBody_emit P _ _ _ h
  have hmm := mod_mod_eight s.i m h8
  -- the static fields are kept
  have hstatic : s1.miniBlocks = (M : Int) ∧ s1.miniBlockSize = (m : Int) := by
    rcases loopBody_emit_shape P s s1 v h with ⟨_, he⟩ | ⟨_, _, _, s2, hu, he⟩
      | ⟨_, _, _, sa, s2, hsa, hu, he⟩
    · obtain ⟨_, rfl⟩ := emitValue_ok _ _ _ he
      exact ⟨hMs, hms⟩
    · obtain ⟨_, _, _, _, u5, u6, _⟩ := unpackGroup_frame P _ _ _ hu
      obtain ⟨_, rfl⟩ := emitValue_ok _ _ _ he
      exact ⟨by simp only; rw [u6, hMs], by simp only; rw [u5, hms]⟩
    · obtain ⟨_, _, _, _, f5, f6, _⟩ := startMiniBlock_frame P _ _ _ hsa
      obtain ⟨_, _, _, _, u5, u6, _⟩ := unpackGroup_frame P _ _ _ hu
      obtain ⟨_, rfl⟩ := emitValue_ok _ _ _ he
      exact ⟨by simp only; rw [u6, f6, hMs], by simp only; rw [u5, f5, hms]⟩
  refine ⟨hstatic.1, hstatic.2, Or.inr ?_⟩
  obtain ⟨hdue, hnot⟩ := loopBody_emit_header P s s1 v h
  have hdue_iff : headerDue s ↔ (s.i % 8 = 0 ∧ s.i % m = 0 ∧ M ≤ s.miniBlock) := by
    unfold headerDue
    rw [tmod_natCast_eq_zero s.i m _ hms, hMs]
    constructor
    · intro ⟨a, b, c⟩; exact ⟨a, b, by exact_mod_cast c⟩
    · intro ⟨a, b, c⟩; exact ⟨a, b, by exact_mod_cast c⟩
  have hstart_iff : (s.i % 8 = 0 ∧ Int.tmod s.i s.miniBlockSize = 0) ↔ s.i % m = 0 := by
    rw [tmod_natCast_eq_zero s.i m _ hms]
    constructor
    · intro h; exact h.2
    · intro h; exact ⟨by omega, h⟩
  rcases hrep with ⟨hi0, hmb0⟩ | ⟨b, k, r, hi, hk, hr1, hr2, hmb⟩
  · -- the very first iteration starts mini block 0 of block 0
    have hnd : ¬ headerDue s := by
      rw [hdue_iff, hmb0]; omega
    obtain ⟨_, _, hmb1⟩ := hnot hnd
    refine ⟨0, 0, 1, by rw [b2, hi0]; ring, hM, le_refl _, by omega, ?_⟩
    rcases hmb1 with h1 | ⟨h1, _, _⟩
    · -- the mini-block index cannot stay: a mini block is started at index 0
      exfalso
      rcases loopBody_emit_shape P s s1 v h with ⟨h8', _⟩ | ⟨_, _, ht, _⟩
        | ⟨_, _, _, sa, s2, hsa, hu, he⟩
      · rw [hi0] at h8'; simp at h8'
      · rw [hi0] at ht; simp at ht
      · obtain ⟨d0, w, hd0, _, _, rfl⟩ := startMiniBlock_ok P _ _ hsa
        obtain ⟨t, _, _, _, rfl⟩ := unpackGroup_ok P _ _ hu
        obtain ⟨_, rfl⟩ := emitValue_ok _ _ _ he
        rcases hd0 with ⟨hge, _⟩ | ⟨_, rfl⟩
        · rw [hmb0, hMs] at hge
          have : (M : Int) ≤ 0 := by simpa using hge
          omega
        · simp only at h1
          omega
    · rw [h1, hmb0]
  · have hzero := rep_r_eq b M m k r s.i hi hr1 hr2
    by_cases hrm : r = m
    · -- a mini block starts at this index
      have him : s.i % m = 0 := hzero.2 hrm
      by_cases hkM : k + 1 = M
      · have hd : headerDue s := by
          rw [hdue_iff, hmb]; exact ⟨by omega, him, by omega⟩
        obtain ⟨sh, _, _, _, hmb1⟩ := hdue hd
        refine ⟨b + 1, 0, 1, ?_, hM, le_refl _, by omega, by rw [hmb1]⟩
        rw [b2, hi, hrm, ← hkM]; ring
      · have hnd : ¬ headerDue s := by
          rw [hdue_iff, hmb]; omega
        obtain ⟨_, _, hmb1⟩ := hnot hnd
        refine ⟨b, k + 1, 1, by rw [b2, hi, hrm]; ring, by omega, le_refl _, by omega, ?_⟩
        rcases hmb1 with h1 | ⟨h1, _, _⟩
        · exfalso
          rcases loopBody_emit_shape P s s1 v h with ⟨h8', _⟩ | ⟨_, _, ht, _⟩
            | ⟨_, _, _, sa, s2, hsa, hu, he⟩
          · omega
          · exact ht ((tmod_natCast_eq_zero s.i m _ hms).2 him)
          · obtain ⟨d0, w, hd0, _, _, rfl⟩ := startMiniBlock_ok P _ _ hsa
            obtain ⟨t, _, _, _, rfl⟩ := unpackGroup_ok P _ _ hu
            obtain ⟨_, rfl⟩ := emitValue_ok _ _ _ he
            rcases hd0 with ⟨hge, _⟩ | ⟨_, rfl⟩
            · rw [hmb, hMs] at hge
              have : M ≤ k + 1 := by exact_mod_cast hge
              omega
            · simp only at h1
              omega
        · rw [h1, hmb]
    · -- inside a mini block
      have him : s.i % m ≠ 0 := fun h0 => hrm (hzero.1 h0)
      have hnd : ¬ headerDue s := by
        rw [hdue_iff]; intro hc; exact him hc.2.1
      obtain ⟨_, _, hmb1⟩ := hnot hnd
      refine ⟨b, k, r + 1, by rw [b2, hi]; ring, hk, by omega, by omega, ?_⟩
      rcases hmb1 with h1 | ⟨_, h8', ht⟩
      · rw [h1, hmb]
      · exact absurd ((tmod_natCast_eq_zero s.i m _ hms).1 ht) him

/-- With the bookkeeping of the mini-block index, a block header is due exactly at the
positive multiples of the block length `M * m`. -/
theorem headerDue_iff (M m : Nat) (hM : 0 < M) (hm : 0 < m) (h8 : m % 8 = 0)
    (s : Int32DeltaBinaryPackedDecoder) (hI : BlockCountInvariant M m s) :
    headerDue s ↔ (0 < s.i ∧ s.i % (M * m) = 0) := by
  obtain ⟨hMs, hms, hrep⟩ := hI
  have hmm := mod_mod_eight s.i m h8
  have hdue_iff : headerDue s ↔ (s.i % 8 = 0 ∧ s.i % m = 0 ∧ M ≤ s.miniBlock) := by
    unfold headerDue
    rw [tmod_natCast_eq_zero s.i m _ hms, hMs]
    constructor
    · intro ⟨a, b, c⟩; exact ⟨a, b, by exact_mod_cast c⟩
    · intro ⟨a, b, c⟩; exact ⟨a, b, by exact_mod_cast c⟩
  rw [hdue_iff]
  rcases hrep with ⟨hi0, hmb0⟩ | ⟨b, k, r, hi, hk, hr1, hr2, hmb⟩
  · constructor
    · intro ⟨_, _, hc⟩
      rw [hmb0] at hc
      omega
    · intro ⟨hpos, _⟩
      omega
  · have hzero := rep_r_eq b M m k r s.i hi hr1 hr2
    constructor
    · intro ⟨_, him, hc⟩
      have hrm : r = m := hzero.1 him
      have hkM : k + 1 = M := by omega
      refine ⟨by rw [hi]; omega, ?_⟩
      have e : s.i = (M * m) * (b + 1) := by rw [hi, hrm, ← hkM]; ring
      rw [e, Nat.mul_mod_right]
    · intro ⟨_, hmod⟩
      -- `k * m + r` is a multiple of `M * m` between 1 and `M * m`
      have hle1 : k * m + r ≤ (k + 1) * m := by
        have : (k + 1) * m = k * m + m := by ring
        omega
      have hle2 : (k + 1) * m ≤ M * m := Nat.mul_le_mul_right m (by omega)
      have hmod2 : (k * m + r) % (M * m) = 0 := by
        have e : s.i = (M * m) * b + (k * m + r) := by rw [hi]; ring
        rw [e, Nat.mul_add_mod] at hmod
        exact hmod
      have heq : k * m + r = M * m := by
        rcases Nat.lt_or_ge (k * m + r) (M * m) with hlt | hge
        · rw [Nat.mod_eq_of_lt hlt] at hmod2
          omega
        · omega
      have hrm : r = m := by
        have : (k + 1) * m = k * m + m := by ring
        omega
      have hkM : (k + 1) * m = M * m := by
        have : (k + 1) * m = k * m + m := by ring
        omega
      have hkM2 : k + 1 = M := Nat.eq_of_mul_eq_mul_right hm hkM
      exact ⟨by have := hzero.2 hrm; omega, hzero.2 hrm, by omega⟩

end DeltaBlockCount


theorem deltaRun_errorfree_invariant (P : Primitives)
    (I : Int32DeltaBinaryPackedDecoder → Prop)
    (hemit : ∀ s s1 v, I s → s.loopBody P = .emit s1 v → I s1) (k : Nat) :
    ∀ (d d1 : Int32DeltaBinaryPackedDecoder) (out : List Int) (e : Option DecodeError),
    I d → deltaRun P k d = some (out, d1, e) → out.length = k → I d1 := by
  induction k with
  | zero =>
    intro d d1 out e hI h _
    simp only [deltaRun, Option.some.injEq, Prod.mk.injEq] at h
    obtain ⟨_, rfl, _⟩ := h
    exact hI
  | succ k ih =>
    intro d d1 out e hI h hl
    rw [deltaRun_succ] at h
    split at h
    · split at h
      · cases h
      · simp only [Option.some.injEq, Prod.mk.injEq] at h
        obtain ⟨rfl, _, _⟩ := h
        simp at hl
      · rename_i d2 v hb
        split at h
        · cases h
        · rename_i out2 d3 e3 hr
          simp only [Option.some.injEq, Prod.mk.injEq] at h
          obtain ⟨rfl, rfl, rfl⟩ := h
          exact ih _ _ _ _ (hemit _ _ _ hI hb) hr (by simpa using hl)
    · simp only [Option.some.injEq, Prod.mk.injEq] at h
      obtain ⟨rfl, _, _⟩ := h
      simp at hl

/-- C15 (counterexample): on the example page the four page-header fields take 5 bytes, and
the cursor after a successful `init` is 7: `init` has also read the first block header. -/
theorem delta_init_cursor_counterexample :
    Int32DeltaBinaryPackedDecoder.zero.init refPrimitives examplePage 5
      = .ret exampleState none
    ∧ pageHeaderLength refPrimitives examplePage = 5
    ∧ exampleState.pos = 7 := by
  decide

/-- C15 (amended). A successful `init` consumes the four page-header fields and the first
block header: the cursor is the byte length of the four fields plus that of the min delta of
the first block plus one bit-width byte per mini block. Later block headers are read lazily,
each exactly once: an emitting iteration takes min delta and bit widths from a header it
reads exactly when `headerDue` holds, and, for `M` mini blocks per block of a size `m` that
is a positive multiple of 8, in an error-free decode a header is due at value index `j`
exactly when `j` is a positive multiple of `M * m`. -/
theorem delta_block_headers (P : Primitives) (d0 d : Int32DeltaBinaryPackedDecoder)
    (data : List Nat) (count : Int) (hinit : d0.init P data count = .ret d none) :
    d.pos = pageHeaderLength P data
        + (P.zigZagVarInt32 (data.drop (pageHeaderLength P data).toNat)).2 + d.miniBlocks
    ∧ d.minDelta = (P.zigZagVarInt32 (data.drop (pageHeaderLength P data).toNat)).1
    ∧ (∀ (s s1 : Int32DeltaBinaryPackedDecoder) (v : Int), s.loopBody P = .emit s1 v →
        (headerDue s → ∃ sh, s.readBlockHeader P = .ret sh none ∧ s1.minDelta = sh.minDelta
          ∧ s1.miniBlockWidths = sh.miniBlockWidths)
        ∧ (¬ headerDue s → s1.minDelta = s.minDelta
          ∧ s1.miniBlockWidths = s.miniBlockWidths))
    ∧ (∀ (M m : Nat), d.miniBlocks = (M : Int) → d.miniBlockSize = (m : Int) → 0 < m →
        m % 8 = 0 → ∀ (j : Nat) (sj : Int32DeltaBinaryPackedDecoder),
        deltaStateAfter P d j = some sj → (headerDue sj ↔ (0 < j ∧ j % (M * m) = 0))) := by
  obtain ⟨p1, p2, _, p4⟩ := init_pos P d0 d data count hinit
  obtain ⟨_, _, _, _, _, hMpos⟩ := init_fields P d0 d data count hinit
  have hi0 := (init_ok P d0 d data count hinit).1
  refine ⟨p1, p2, ?_, ?_⟩
  · intro s s1 v h
    obtain ⟨h1, h2⟩ := loopBody_emit_header P s s1 v h
    refine ⟨fun hd => ?_, fun hnd => ⟨(h2 hnd).1, (h2 hnd).2.1⟩⟩
    obtain ⟨sh, a, b, c, _⟩ := h1 hd
    exact ⟨sh, a, b, c⟩
  · intro M m hMs hms hm h8 j sj hsj
    have hM : 0 < M := by
      rw [hMs] at hMpos
      exact_mod_cast hMpos
    obtain ⟨out, hrun, hlen⟩ := deltaStateAfter_some P d sj j hsj
    have hI0 : BlockCountInvariant M m d := ⟨hMs, hms, Or.inl ⟨hi0, p4⟩⟩
    have hI := deltaRun_errorfree_invariant P (BlockCountInvariant M m)
      (fun s s1 v hI hb => loopBody_emit_blockCount P M m hM hm h8 s s1 v hI hb)
      j d sj out none hI0 hrun hlen
    obtain ⟨_, q2, _, _, _⟩ := deltaRun_props P _ _ _ _ _ hrun
    have hsji : sj.i = j := by rw [q2, hi0, hlen]; omega
    rw [headerDue_iff M m hM hm h8 sj hI, hsji]

/-- Witness for C15 (amended): on the two-block page the cursor after `init` is
`4 + 1 + 1 = 6`, and with 8 values emitted the header of the second block is due. -/
theorem delta_block_headers_witness :
    twoBlockState.pos = pageHeaderLength refPrimitives twoBlockPage
        + (refPrimitives.zigZagVarInt32
            (twoBlockPage.drop (pageHeaderLength refPrimitives twoBlockPage).toNat)).2
        + twoBlockState.miniBlocks
    ∧ (headerDue twoBlockState8 ↔ (0 < 8 ∧ 8 % (1 * 8) = 0))
    ∧ twoBlockState.decodeInt32 refPrimitives (List.replicate 12 0)
      = .ret { twoBlockState with
                i := 12, pos := 8, value := 28, minDelta := 3, miniBlock := 1,
                unpacker := some 0 }
          [0, 2, 4, 6, 8, 10, 12, 14, 16, 19, 22, 25] 12 none :=
  ⟨(delta_block_headers refPrimitives .zero twoBlockState twoBlockPage 12 (by decide)).1,
   (delta_block_headers refPrimitives .zero twoBlockState twoBlockPage 12
      (by decide)).2.2.2 1 8 (by decide) (by decide) (by decide) (by decide) 8
      twoBlockState8 (by decide),
   by decide⟩

/-! ## Theorems: fault freedom of the delta decoder -/

section DeltaSafety

open Int32DeltaBinaryPackedDecoder

theorem sliceFrom_ok (data : List Nat) (p : Int) (h0 : 0 ≤ p) (h1 : p ≤ data.length) :
    sliceFrom data p = some (data.drop p.toNat) := by
  unfold sliceFrom
  rw [if_pos ⟨h0, h1⟩]

theorem readBlockHeader_no_fault (P : Primitives)
    (hP : ∀ bs, (P.zigZagVarInt32 bs).2 ≤ (bs.length : Int))
    (s : Int32DeltaBinaryPackedDecoder) (h0 : 0 ≤ s.pos) (h1 : s.pos ≤ s.data.length) :
    s.readBlockHeader P ≠ .fault := by
  unfold readBlockHeader
  rw [sliceFrom_ok _ _ h0 h1]
  simp only
  split
  · intro h; cases h
  · rename_i hn
    have hb := hP (s.data.drop s.pos.toNat)
    simp only [List.length_drop] at hb
    rw [sliceFrom_ok _ _ (by omega) (by omega)]
    simp only
    split <;> (intro h; cases h)

theorem startMiniBlock_no_fault (P : Primitives)
    (hP : ∀ bs, (P.zigZagVarInt32 bs).2 ≤ (bs.length : Int))
    (s : Int32DeltaBinaryPackedDecoder) (h0 : 0 ≤ s.pos) (h1 : s.pos ≤ s.data.length)
    (hM : 0 < s.miniBlocks) (hlen : s.miniBlockWidths.length = s.miniBlocks.toNat)
    (hw : (s.miniBlock : Int) < s.miniBlocks → ∀ w ∈ s.miniBlockWidths, w ≤ 32)
    (hhdr : (s.miniBlock : Int) ≥ s.miniBlocks → ∀ sh, s.readBlockHeader P = .ret sh none →
      ∀ w ∈ sh.miniBlockWidths, w ≤ 32) :
    s.startMiniBlock P ≠ .fault := by
  unfold startMiniBlock
  simp only
  by_cases hc : (s.miniBlock : Int) ≥ s.miniBlocks
  · rw [if_pos hc]
    cases hr : s.readBlockHeader P with
    | fault => exact absurd hr (readBlockHeader_no_fault P hP s h0 h1)
    | ret sh e =>
      cases e with
      | some e => intro h; cases h
      | none =>
        simp only
        have hw2 := hhdr hc sh hr
        obtain ⟨_, _, _, _, a5⟩ := readBlockHeader_pos P _ _ _ hr
        obtain ⟨_, _, _, _, _, a6, _⟩ := readBlockHeader_frame P _ _ _ hr
        obtain ⟨_, _, _, _, _, hsh⟩ := readBlockHeader_ok P _ _ hr
        have hmb : sh.miniBlock = 0 := by rw [hsh]
        have hlt : sh.miniBlock < sh.miniBlockWidths.length := by
          rw [hmb, a5, hlen]; omega
        rw [List.getElem?_eq_getElem hlt]
        simp only
        have := hw2 _ (List.getElem_mem hlt)
        rw [if_neg (by omega)]
        intro h; cases h
  · rw [if_neg hc]
    simp only
    have hlt : s.miniBlock < s.miniBlockWidths.length := by
      rw [hlen]; omega
    rw [List.getElem?_eq_getElem hlt]
    simp only
    have := hw (by omega) _ (List.getElem_mem hlt)
    rw [if_neg (by omega)]
    intro h; cases h

theorem unpackGroup_no_fault (P : Primitives) (s : Int32DeltaBinaryPackedDecoder)
    (h0 : 0 ≤ s.pos) (hu : s.unpacker ≠ none) : s.unpackGroup P ≠ .fault := by
  unfold unpackGroup
  simp only
  split
  · intro h; cases h
  · rw [if_neg (by omega)]
    cases hx : s.unpacker with
    | none => exact absurd hx hu
    | some t =>
      simp only
      split <;> (intro h; cases h)


theorem startMiniBlock_safe (P : Primitives) (s sa : Int32DeltaBinaryPackedDecoder)
    (hw : (s.miniBlock : Int) < s.miniBlocks → ∀ w ∈ s.miniBlockWidths, w ≤ 32)
    (hhdr : (s.miniBlock : Int) ≥ s.miniBlocks → ∀ sh, s.readBlockHeader P = .ret sh none →
      ∀ w ∈ sh.miniBlockWidths, w ≤ 32)
    (h0 : 0 ≤ s.pos) (h1 : s.pos ≤ s.data.length)
    (h : s.startMiniBlock P = .ret sa none) :
    (∀ w ∈ sa.miniBlockWidths, w ≤ 32) ∧ sa.unpacker ≠ none
      ∧ 0 ≤ sa.pos ∧ sa.pos ≤ sa.data.length := by
  obtain ⟨d0, w, hcase, _, _, hsa⟩ := startMiniBlock_ok P s sa h
  have key : (∀ w ∈ d0.miniBlockWidths, w ≤ 32) ∧ 0 ≤ d0.pos ∧ d0.pos ≤ d0.data.length := by
    rcases hcase with ⟨hc, hr⟩ | ⟨hc, rfl⟩
    · refine ⟨hhdr hc d0 hr, ?_⟩
      obtain ⟨b0, b1, b2, b3, b4, hd0⟩ := readBlockHeader_ok P s d0 hr
      simp only [List.length_drop] at b4
      rw [hd0]
      refine ⟨?_, ?_⟩
      · show 0 ≤ s.pos + _ + _
        omega
      · show s.pos + _ + _ ≤ (s.data.length : Int)
        omega
    · exact ⟨hw (by omega), h0, h1⟩
  rw [hsa]
  exact ⟨key.1, (by intro hx; cases hx), key.2.1, key.2.2⟩

theorem startMiniBlock_safeState (P : Primitives) (s sa : Int32DeltaBinaryPackedDecoder)
    (hs : SafeState s) (h0 : 0 ≤ s.pos) (h1 : s.pos ≤ s.data.length)
    (hhdr : (s.miniBlock : Int) ≥ s.miniBlocks → ∀ sh, s.readBlockHeader P = .ret sh none →
      ∀ w ∈ sh.miniBlockWidths, w ≤ 32)
    (h : s.startMiniBlock P = .ret sa none) : SafeState sa := by
  obtain ⟨c1, c2, c3, c4, c5, c6⟩ := hs
  obtain ⟨_, _, _, _, f5, f6, _⟩ := startMiniBlock_frame P s sa _ h
  obtain ⟨_, _, _, g4⟩ := startMiniBlock_pos P s sa h
  obtain ⟨k1, k2, k3, k4⟩ := startMiniBlock_safe P s sa c4 hhdr h0 h1 h
  refine ⟨?_, ?_, ?_, fun _ => k1, fun _ => k2, Or.inl ⟨k3, k4⟩⟩
  · rw [f5]; exact c1
  · rw [f6]; exact c2
  · rw [g4, f6]; exact c3

theorem readBlockHeader_err_safeState (P : Primitives)
    (s s1 : Int32DeltaBinaryPackedDecoder) (e : DecodeError) (hs : SafeState s)
    (hc : (s.miniBlock : Int) ≥ s.miniBlocks)
    (h : s.readBlockHeader P = .ret s1 (some e)) : SafeState s1 := by
  obtain ⟨c1, c2, c3, c4, c5, c6⟩ := hs
  obtain ⟨p0, p1, hcase⟩ := readBlockHeader_err P s s1 e h
  rcases hcase with rfl | ⟨q0, q1, ws, hws, rfl⟩
  · exact ⟨c1, c2, c3, c4, c5, Or.inl ⟨p0, p1⟩⟩
  · refine ⟨c1, c2, ?_, ?_, c5, Or.inl ⟨?_, ?_⟩⟩
    · show ws.length = _
      rw [hws]; exact c3
    · intro hlt
      exact absurd hlt (by show ¬ ((s.miniBlock : Int) < s.miniBlocks); omega)
    · show 0 ≤ s.pos + _
      omega
    · show s.pos + _ ≤ (s.data.length : Int)
      exact q1

theorem unpackGroup_emit_safeState (P : Primitives)
    (s s2 s1 : Int32DeltaBinaryPackedDecoder) (v : Int) (hs : SafeState s)
    (h8 : s.i % 8 = 0) (hu : s.unpackGroup P = .ret s2 none)
    (he : s2.emitValue = .emit s1 v) : SafeState s1 := by
  obtain ⟨c1, c2, c3, c4, c5, c6⟩ := hs
  obtain ⟨t, ht, u0, u1, rfl⟩ := unpackGroup_ok P s s2 hu
  obtain ⟨_, rfl⟩ := emitValue_ok _ s1 v he
  refine ⟨c1, c2, c3, c4, ?_, ?_⟩
  · intro _
    show s.unpacker ≠ none
    rw [ht]; intro hx; cases hx
  · by_cases hpad : (s.i : Int) + 8 ≥ s.numValues
    · right
      show s.numValues ≤ (((s.i + 1 + 7) / 8 * 8 : Nat) : Int)
      omega
    · left
      show 0 ≤ (if (s.i : Int) + 8 ≥ s.numValues then _ else _)
        ∧ (if (s.i : Int) + 8 ≥ s.numValues then _ else _) ≤ (s.data.length : Int)
      rw [if_neg hpad]
      exact ⟨by omega, u1⟩

theorem safeState_cursor (s : Int32DeltaBinaryPackedDecoder) (hs : SafeState s)
    (hi : (s.i : Int) < s.numValues) (h8 : s.i % 8 = 0) :
    0 ≤ s.pos ∧ s.pos ≤ (s.data.length : Int) := by
  rcases hs.2.2.2.2.2 with h | h
  · exact h
  · exfalso; omega

theorem tmod_ne_zero_index (s : Int32DeltaBinaryPackedDecoder)
    (ht : Int.tmod s.i s.miniBlockSize ≠ 0) : s.i ≠ 0 := by
  intro h0
  apply ht
  rw [h0]
  exact Int.zero_tmod _

/-- An iteration of the loop from a safe state does not panic, provided a block header read
in it carries bit widths of at most 32. -/
theorem loopBody_no_fault (P : Primitives)
    (hP : ∀ bs, (P.zigZagVarInt32 bs).2 ≤ (bs.length : Int))
    (s : Int32DeltaBinaryPackedDecoder) (hs : SafeState s)
    (hi : (s.i : Int) < s.numValues)
    (hH : headerDue s → ∀ sh, s.readBlockHeader P = .ret sh none →
      ∀ w ∈ sh.miniBlockWidths, w ≤ 32) :
    s.loopBody P ≠ .fault := by
  obtain ⟨e1, _, e3, e4⟩ := loopBody_eq P s
  by_cases h8 : s.i % 8 = 0
  · obtain ⟨p0, p1⟩ := safeState_cursor s hs hi h8
    by_cases ht : Int.tmod s.i s.miniBlockSize = 0
    · rw [e4 h8 hs.1 ht]
      have hhdr : (s.miniBlock : Int) ≥ s.miniBlocks → ∀ sh,
          s.readBlockHeader P = .ret sh none → ∀ w ∈ sh.miniBlockWidths, w ≤ 32 :=
        fun hc => hH ⟨h8, ht, hc⟩
      cases hsm : s.startMiniBlock P with
      | fault =>
        exact absurd hsm
          (startMiniBlock_no_fault P hP s p0 p1 hs.2.1 hs.2.2.1 hs.2.2.2.1 hhdr)
      | ret sa e =>
        cases e with
        | some e => intro h; cases h
        | none =>
          obtain ⟨_, k2, k3, _⟩ := startMiniBlock_safe P s sa hs.2.2.2.1 hhdr p0 p1 hsm
          simp only
          cases hug : sa.unpackGroup P with
          | fault => exact absurd hug (unpackGroup_no_fault P sa k3 k2)
          | ret s2 e2 =>
            cases e2 with
            | some e2 => intro h; cases h
            | none => simp only; unfold emitValue; intro h; cases h
    · rw [e3 h8 hs.1 ht]
      cases hug : s.unpackGroup P with
      | fault =>
        exact absurd hug
          (unpackGroup_no_fault P s p0 (hs.2.2.2.2.1 (tmod_ne_zero_index s ht)))
      | ret s2 e2 =>
        cases e2 with
        | some e2 => intro h; cases h
        | none => simp only; unfold emitValue; intro h; cases h
  · rw [e1 h8]
    unfold emitValue
    intro h; cases h

/-- An emitting iteration from a safe state ends in a safe state. -/
theorem loopBody_emit_safe (P : Primitives)
    (s s1 : Int32DeltaBinaryPackedDecoder) (v : Int) (hs : SafeState s)
    (hi : (s.i : Int) < s.numValues)
    (hH : headerDue s → ∀ sh, s.readBlockHeader P = .ret sh none →
      ∀ w ∈ sh.miniBlockWidths, w ≤ 32)
    (h : s.loopBody P = .emit s1 v) : SafeState s1 := by
  rcases loopBody_emit_shape P s s1 v h with ⟨h8, he⟩ | ⟨h8, _, ht, s2, hu, he⟩
    | ⟨h8, _, ht, sa, s2, hsm, hu, he⟩
  · obtain ⟨c1, c2, c3, c4, c5, c6⟩ := hs
    obtain ⟨_, rfl⟩ := emitValue_ok _ s1 v he
    refine ⟨c1, c2, c3, c4, fun _ => c5 (by omega), ?_⟩
    rcases c6 with c6 | c6
    · exact Or.inl c6
    · right
      show s.numValues ≤ (((s.i + 1 + 7) / 8 * 8 : Nat) : Int)
      omega
  · exact unpackGroup_emit_safeState P s s2 s1 v hs h8 hu he
  · obtain ⟨p0, p1⟩ := safeState_cursor s hs hi h8
    have hsa := startMiniBlock_safeState P s sa hs p0 p1 (fun hc => hH ⟨h8, ht, hc⟩) hsm
    obtain ⟨_, _, f3, _⟩ := startMiniBlock_frame P s sa _ hsm
    exact unpackGroup_emit_safeState P sa s2 s1 v hsa (by rw [f3]; exact h8) hu he

/-- An iteration that stops on a decoding error from a safe state ends in a safe state. -/
theorem loopBody_err_safe (P : Primitives)
    (s s1 : Int32DeltaBinaryPackedDecoder) (e : DecodeError) (hs : SafeState s)
    (hi : (s.i : Int) < s.numValues)
    (hH : headerDue s → ∀ sh, s.readBlockHeader P = .ret sh none →
      ∀ w ∈ sh.miniBlockWidths, w ≤ 32)
    (h : s.loopBody P = .err s1 e) : SafeState s1 := by
  obtain ⟨h8, _, hcase⟩ := loopBody_err_shape P s s1 e h
  rcases hcase with ⟨_, rfl⟩ | ⟨_, hc, hr⟩ | ⟨ht, hsm⟩
  · exact hs
  · exact readBlockHeader_err_safeState P s s1 e hs hc hr
  · obtain ⟨p0, p1⟩ := safeState_cursor s hs hi h8
    exact startMiniBlock_safeState P s s1 hs p0 p1 (fun hc => hH ⟨h8, ht, hc⟩) hsm

end DeltaSafety
section DeltaSafetyRuns

open Int32DeltaBinaryPackedDecoder

/-- The state after a successful `init` is safe when the mini-block size is non-zero and the
bit widths of the first block header are at most 32. -/
theorem init_safeState (P : Primitives) (d0 d : Int32DeltaBinaryPackedDecoder)
    (data : List Nat) (count : Int) (h : d0.init P data count = .ret d none)
    (hsize : d.miniBlockSize ≠ 0) (hW0 : ∀ w ∈ d.miniBlockWidths, w ≤ 32) :
    SafeState d := by
  obtain ⟨hi, _⟩ := init_ok P d0 d data count h
  obtain ⟨_, _, _, _, _, hM⟩ := init_fields P d0 d data count h
  obtain ⟨_, _, hlen, _⟩ := init_pos P d0 d data count h
  refine ⟨hsize, hM, hlen, fun _ => hW0, fun hne => absurd hi hne, Or.inl ?_⟩
  unfold init at h
  simp only at h
  split at h
  · cases h
  · cases h
  · rename_i d1 h1
    split at h
    · cases h
    · cases h
    · rename_i d2 h2
      cases h
      obtain ⟨b0, b1, b2, b3, b4, rfl⟩ := readBlockHeader_ok P _ _ h2
      simp only [List.length_drop] at b4
      refine ⟨?_, ?_⟩
      · show 0 ≤ d1.pos + _ + _
        omega
      · show d1.pos + _ + _ ≤ (d1.data.length : Int)
        omega

/-- Every state the loop goes through from a safe state is safe, when every block header
read on the way carries bit widths of at most 32. -/
theorem loopReachable_safe (P : Primitives) (d : Int32DeltaBinaryPackedDecoder)
    (hd : SafeState d)
    (hW : ∀ s, LoopReachable P d s → (s.i : Int) < s.numValues → headerDue s → ∀ sh,
      s.readBlockHeader P = .ret sh none → ∀ w ∈ sh.miniBlockWidths, w ≤ 32)
    (s : Int32DeltaBinaryPackedDecoder) (h : LoopReachable P d s) : SafeState s := by
  induction h with
  | start => exact hd
  | emit s s1 v hr hi hb ih => exact loopBody_emit_safe P s s1 v ih hi (hW s hr hi) hb
  | err s s1 e hr hi hb ih => exact loopBody_err_safe P s s1 e ih hi (hW s hr hi) hb

/-- No trace of the loop from a reachable state panics. -/
theorem deltaRun_no_fault (P : Primitives)
    (hP : ∀ bs, (P.zigZagVarInt32 bs).2 ≤ (bs.length : Int))
    (d : Int32DeltaBinaryPackedDecoder) (hd : SafeState d)
    (hW : ∀ s, LoopReachable P d s → (s.i : Int) < s.numValues → headerDue s → ∀ sh,
      s.readBlockHeader P = .ret sh none → ∀ w ∈ sh.miniBlockWidths, w ≤ 32)
    (k : Nat) : ∀ s, LoopReachable P d s → deltaRun P k s ≠ none := by
  induction k with
  | zero => intro s _ h; cases h
  | succ k ih =>
    intro s hr
    unfold deltaRun
    by_cases hi : (s.i : Int) < s.numValues
    · rw [if_pos hi]
      cases hb : s.loopBody P with
      | fault =>
        exact absurd hb
          (loopBody_no_fault P hP s (loopReachable_safe P d hd hW s hr) hi (hW s hr hi))
      | err s1 e => intro h; cases h
      | emit s1 v =>
        simp only
        cases hk : deltaRun P k s1 with
        | none => exact absurd hk (ih s1 (LoopReachable.emit s s1 v hr hi hb))
        | some r => intro h; cases h
    · rw [if_neg hi]
      intro h; cases h

/-- A call whose loop does not panic returns. -/
theorem decodeInt32_returns (P : Primitives) (s : Int32DeltaBinaryPackedDecoder)
    (buf : List Int) (h : deltaRun P buf.length s ≠ none) :
    ∃ s1 buf1 n e, s.decodeInt32 P buf = .ret s1 buf1 n e := by
  rw [decodeInt32_eq_run]
  cases hk : deltaRun P buf.length s with
  | none => exact absurd hk h
  | some r =>
    obtain ⟨out, d1, e⟩ := r
    cases e with
    | some e => exact ⟨_, _, _, _, rfl⟩
    | none =>
      show ∃ s1 buf1 n e, deltaFinish d1 _ _ = .ret s1 buf1 n e
      unfold deltaFinish
      split
      · exact ⟨_, _, _, _, rfl⟩
      · exact ⟨_, _, _, _, rfl⟩

end DeltaSafetyRuns

section DeltaSafetyClaim

open Int32DeltaBinaryPackedDecoder

theorem uvarint_consumed_le (bs : List Nat) : ∀ (shift acc : Nat) (cnt : Int), 0 ≤ cnt →
    (uvarint bs shift acc cnt).2 ≤ cnt + bs.length := by
  induction bs with
  | nil => intro shift acc cnt h; simp [uvarint]; exact h
  | cons b bs ih =>
    intro shift acc cnt h
    unfold uvarint
    split
    · simp only [List.length_cons]; push_cast; omega
    · have := ih (shift + 7) (acc + (b - 128) * 2 ^ shift) (cnt + 1) (by omega)
      simp only [List.length_cons]; push_cast; omega

/-- The reference zig-zag reader reports no more bytes than the slice holds. -/
theorem refPrimitives_consumed_le (bs : List Nat) :
    (refPrimitives.zigZagVarInt32 bs).2 ≤ (bs.length : Int) := by
  have := uvarint_consumed_le bs 0 0 0 (le_refl 0)
  show (uvarint bs 0 0 0).2 ≤ _
  omega

theorem loopBody_emit_data (P : Primitives) (s s1 : Int32DeltaBinaryPackedDecoder) (v : Int)
    (h : s.loopBody P = .emit s1 v) : s1.data = s.data := by
  rcases loopBody_emit_shape P s s1 v h with ⟨_, he⟩ | ⟨_, _, _, s2, hu, he⟩
    | ⟨_, _, _, sa, s2, hsm, hu, he⟩
  · obtain ⟨_, rfl⟩ := emitValue_ok _ s1 v he
    rfl
  · obtain ⟨_, _, _, f4, _⟩ := unpackGroup_frame P s s2 _ hu
    obtain ⟨_, rfl⟩ := emitValue_ok _ s1 v he
    exact f4
  · obtain ⟨_, _, _, g4, _⟩ := startMiniBlock_frame P s sa _ hsm
    obtain ⟨_, _, _, f4, _⟩ := unpackGroup_frame P sa s2 _ hu
    obtain ⟨_, rfl⟩ := emitValue_ok _ s1 v he
    exact f4.trans g4

/-- The loop never changes the data buffer. -/
theorem loopReachable_data (P : Primitives) (d s : Int32DeltaBinaryPackedDecoder)
    (h : LoopReachable P d s) : s.data = d.data := by
  induction h with
  | start => rfl
  | emit s s1 v _ _ hb ih => exact (loopBody_emit_data P s s1 v hb).trans ih
  | err s s1 e _ _ hb ih => exact (loopBody_err P s s1 e hb).2.2.2.trans ih

/-- The bit widths installed by a block header are bytes of the data buffer. -/
theorem readBlockHeader_widths_mem (P : Primitives) (s sh : Int32DeltaBinaryPackedDecoder)
    (h : s.readBlockHeader P = .ret sh none) : ∀ w ∈ sh.miniBlockWidths, w ∈ s.data := by
  obtain ⟨_, _, _, _, _, rfl⟩ := readBlockHeader_ok P s sh h
  intro w hw
  exact List.mem_of_mem_drop (List.mem_of_mem_take hw)

/-- C19. Fault freedom of delta decode on well-formed headers. The varint reader is a
parameter, assumed to report no more bytes than the slice it is given holds. After a
successful `init` with a non-zero mini-block size (in particular a positive multiple of 8),
bit widths of at most 32 in the block header read by `init` and in every block header read
later, the number of mini blocks is at least 1 and every state reached by any sequence of
`decodeInt32` calls is safe (non-zero modulus, one bit width per mini block, cursor within
the data whenever a group or header is still to be read) and every call from it, on any
buffer, returns a count with or without an error value: it never panics. -/
theorem delta_decode_fault_free (P : Primitives)
    (hP : ∀ bs, (P.zigZagVarInt32 bs).2 ≤ (bs.length : Int))
    (d0 d : Int32DeltaBinaryPackedDecoder) (data : List Nat) (count : Int)
    (hinit : d0.init P data count = .ret d none)
    (hsize : d.miniBlockSize ≠ 0)
    (hW0 : ∀ w ∈ d.miniBlockWidths, w ≤ 32)
    (hW : ∀ s, LoopReachable P d s → headerDue s → ∀ sh,
      s.readBlockHeader P = .ret sh none → ∀ w ∈ sh.miniBlockWidths, w ≤ 32) :
    1 ≤ d.miniBlocks
    ∧ ∀ s, DeltaReachable P d s →
        SafeState s ∧ ∀ buf, ∃ s1 buf1 n e, s.decodeInt32 P buf = .ret s1 buf1 n e := by
  have hd := init_safeState P d0 d data count hinit hsize hW0
  refine ⟨hd.2.1, fun s hs => ?_⟩
  have hr := DeltaReachable.loopReachable P d s hs
  exact ⟨loopReachable_safe P d hd (fun s hs _ => hW s hs) s hr,
    fun buf => decodeInt32_returns P s buf
      (deltaRun_no_fault P hP d hd (fun s hs _ => hW s hs) buf.length s hr)⟩

/-- Witness for C19: the two-block page (all of its bytes are at most 32, so are the bit
widths of both block headers) with the reference primitives; the call for 12 values from the
state after `init` returns. -/
theorem delta_decode_fault_free_witness :
    Int32DeltaBinaryPackedDecoder.zero.init refPrimitives twoBlockPage 12
        = .ret twoBlockState none
    ∧ twoBlockState.miniBlockSize ≠ 0
    ∧ 1 ≤ twoBlockState.miniBlocks
    ∧ SafeState twoBlockState
    ∧ ∃ s1 buf1 n e,
        twoBlockState.decodeInt32 refPrimitives (List.replicate 12 0) = .ret s1 buf1 n e :=
  have h := delta_decode_fault_free refPrimitives refPrimitives_consumed_le .zero
    twoBlockState twoBlockPage 12 (by decide) (by decide) (by decide)
    (fun s hr _ sh hsh w hw =>
      have hmem : w ∈ twoBlockState.data := by
        rw [← loopReachable_data refPrimitives twoBlockState s hr]
        exact readBlockHeader_widths_mem refPrimitives s sh hsh w hw
      (by decide : ∀ b ∈ twoBlockPage, b ≤ 32) w hmem)
  ⟨by decide, by decide, h.1, (h.2 twoBlockState .start).1,
    (h.2 twoBlockState .start).2 (List.replicate 12 0)⟩

end DeltaSafetyClaim

/-! ## Theorems: exhaustion of the delta decoder on supplied data -/

section DeltaSupplied

open Int32DeltaBinaryPackedDecoder

/-- With a block header supplied at a cursor inside the data, `readBlockHeader` succeeds. -/
theorem readBlockHeader_supplied (P : Primitives) (s : Int32DeltaBinaryPackedDecoder)
    (h0 : 0 ≤ s.pos) (h1 : s.pos ≤ s.data.length) (hH : HeaderSupplied P s) :
    ∃ sh, s.readBlockHeader P = .ret sh none := by
  obtain ⟨a1, a2, _⟩ := hH
  unfold readBlockHeader
  rw [sliceFrom_ok _ _ h0 h1]
  simp only
  rw [if_neg (by omega)]
  rw [sliceFrom_ok _ _ (by omega) (by omega)]
  simp only
  have hmin : min s.miniBlockWidths.length
      (s.data.drop (s.pos + (P.zigZagVarInt32 (s.data.drop s.pos.toNat)).2).toNat).length
      = s.miniBlockWidths.length := by
    apply Nat.min_eq_left
    simp only [List.length_drop]
    omega
  split
  · rename_i hne
    exfalso
    apply hne
    simp only [List.length_append, List.length_take, List.length_drop, hmin]
    omega
  · exact ⟨_, rfl⟩

/-- The bit widths installed from a supplied block header are at most 32. -/
theorem headerSupplied_widths (P : Primitives) (s sh : Int32DeltaBinaryPackedDecoder)
    (hH : HeaderSupplied P s) (h : s.readBlockHeader P = .ret sh none) :
    ∀ w ∈ sh.miniBlockWidths, w ≤ 32 := by
  obtain ⟨_, _, _, _, _, rfl⟩ := readBlockHeader_ok P s sh h
  exact hH.2.2

/-- With the bytes of the group supplied, `unpackGroup` succeeds. -/
theorem unpackGroup_supplied (P : Primitives) (s : Int32DeltaBinaryPackedDecoder)
    (h0 : 0 ≤ s.pos) (hu : s.unpacker ≠ none)
    (hg : s.pos + (s.miniBlockWidth : Int) ≤ (s.data.length : Int)) :
    ∃ s2, s.unpackGroup P = .ret s2 none := by
  unfold unpackGroup
  simp only
  rw [if_neg (by omega), if_neg (by omega)]
  cases hx : s.unpacker with
  | none => exact absurd hx hu
  | some t =>
    simp only
    split
    · exact ⟨_, rfl⟩
    · exact ⟨_, rfl⟩

/-- With the block header supplied when one is due, the start of a mini block succeeds. -/
theorem startMiniBlock_supplied (P : Primitives) (s : Int32DeltaBinaryPackedDecoder)
    (h0 : 0 ≤ s.pos) (h1 : s.pos ≤ s.data.length)
    (hM : 0 < s.miniBlocks) (hlen : s.miniBlockWidths.length = s.miniBlocks.toNat)
    (hw : (s.miniBlock : Int) < s.miniBlocks → ∀ w ∈ s.miniBlockWidths, w ≤ 32)
    (hH : (s.miniBlock : Int) ≥ s.miniBlocks → HeaderSupplied P s) :
    ∃ sa, s.startMiniBlock P = .ret sa none := by
  unfold startMiniBlock
  simp only
  by_cases hc : (s.miniBlock : Int) ≥ s.miniBlocks
  · rw [if_pos hc]
    obtain ⟨sh, hr⟩ := readBlockHeader_supplied P s h0 h1 (hH hc)
    rw [hr]
    simp only
    have hw2 := headerSupplied_widths P s sh (hH hc) hr
    obtain ⟨_, _, _, _, a5⟩ := readBlockHeader_pos P _ _ _ hr
    obtain ⟨_, _, _, _, _, hsh⟩ := readBlockHeader_ok P _ _ hr
    have hmb : sh.miniBlock = 0 := by rw [hsh]
    have hlt : sh.miniBlock < sh.miniBlockWidths.length := by
      rw [hmb, a5, hlen]; omega
    rw [List.getElem?_eq_getElem hlt]
    simp only
    have := hw2 _ (List.getElem_mem hlt)
    rw [if_neg (by omega)]
    exact ⟨_, rfl⟩
  · rw [if_neg hc]
    simp only
    have hlt : s.miniBlock < s.miniBlockWidths.length := by
      rw [hlen]; omega
    rw [List.getElem?_eq_getElem hlt]
    simp only
    have := hw (by omega) _ (List.getElem_mem hlt)
    rw [if_neg (by omega)]
    exact ⟨_, rfl⟩

/-- An iteration of the loop from a safe state whose data is supplied emits a value. -/
theorem loopBody_supplied (P : Primitives) (s : Int32DeltaBinaryPackedDecoder)
    (hs : SafeState s) (hi : (s.i : Int) < s.numValues)
    (hD : s.i % 8 = 0 → DataSupplied P s) :
    ∃ s1 v, s.loopBody P = .emit s1 v := by
  obtain ⟨e1, _, e3, e4⟩ := loopBody_eq P s
  by_cases h8 : s.i % 8 = 0
  · obtain ⟨p0, p1⟩ := safeState_cursor s hs hi h8
    obtain ⟨d1, d2, d3⟩ := hD h8
    by_cases ht : Int.tmod s.i s.miniBlockSize = 0
    · rw [e4 h8 hs.1 ht]
      have hH : (s.miniBlock : Int) ≥ s.miniBlocks → HeaderSupplied P s :=
        fun hc => d1 ⟨h8, ht, hc⟩
      obtain ⟨sa, hsm⟩ :=
        startMiniBlock_supplied P s p0 p1 hs.2.1 hs.2.2.1 hs.2.2.2.1 hH
      obtain ⟨_, k2, k3, _⟩ := startMiniBlock_safe P s sa hs.2.2.2.1
        (fun hc sh hr => headerSupplied_widths P s sh (hH hc) hr) p0 p1 hsm
      obtain ⟨s2, hug⟩ := unpackGroup_supplied P sa k3 k2 (d3 ht sa hsm)
      rw [hsm]
      simp only
      rw [hug]
      exact ⟨_, _, rfl⟩
    · rw [e3 h8 hs.1 ht]
      obtain ⟨s2, hug⟩ := unpackGroup_supplied P s p0
        (hs.2.2.2.2.1 (tmod_ne_zero_index s ht)) (d2 ht)
      rw [hug]
      exact ⟨_, _, rfl⟩
  · rw [e1 h8]
    exact ⟨_, _, rfl⟩

end DeltaSupplied
section DeltaSuppliedRuns

open Int32DeltaBinaryPackedDecoder

/-- On supplied data no trace of the loop from a reachable state panics or stops on an
error. -/
theorem deltaRun_supplied (P : Primitives) (d : Int32DeltaBinaryPackedDecoder)
    (hd : SafeState d)
    (hdata : ∀ s, LoopReachable P d s → (s.i : Int) < s.numValues → s.i % 8 = 0 →
      DataSupplied P s)
    (k : Nat) : ∀ s, LoopReachable P d s → ∃ out s1, deltaRun P k s = some (out, s1, none) := by
  have hW : ∀ s, LoopReachable P d s → (s.i : Int) < s.numValues → headerDue s → ∀ sh,
      s.readBlockHeader P = .ret sh none → ∀ w ∈ sh.miniBlockWidths, w ≤ 32 :=
    fun s hr hi hdue sh hsh =>
      headerSupplied_widths P s sh ((hdata s hr hi hdue.1).1 hdue) hsh
  induction k with
  | zero => intro s _; exact ⟨[], s, rfl⟩
  | succ k ih =>
    intro s hr
    rw [deltaRun_succ]
    by_cases hi : (s.i : Int) < s.numValues
    · rw [if_pos hi]
      obtain ⟨s1, v, hb⟩ := loopBody_supplied P s (loopReachable_safe P d hd hW s hr) hi
        (hdata s hr hi)
      obtain ⟨out, s2, hk⟩ := ih s1 (LoopReachable.emit s s1 v hr hi hb)
      rw [hb]
      simp only
      rw [hk]
      exact ⟨_, _, rfl⟩
    · rw [if_neg hi]
      exact ⟨_, _, rfl⟩

/-- When `N` iterations from `d` emit `N` values, the states the loop goes through from `d`
are the states of the shorter traces. -/
theorem loopReachable_run (P : Primitives) (d dN : Int32DeltaBinaryPackedDecoder) (N : Nat)
    (outN : List Int) (hi0 : d.i = 0) (hN : d.numValues = N)
    (hrun : deltaRun P N d = some (outN, dN, none)) (hlen : outN.length = N)
    (s : Int32DeltaBinaryPackedDecoder) (h : LoopReachable P d s) :
    ∃ j o, j ≤ N ∧ deltaRun P j d = some (o, s, none) ∧ o.length = j := by
  induction h with
  | start => exact ⟨0, [], Nat.zero_le _, rfl, rfl⟩
  | emit s s1 v hr hi hb ih =>
    obtain ⟨j, o, hj, hrj, hoj⟩ := ih
    obtain ⟨_, p2, p3, _, _⟩ := deltaRun_props P _ _ _ _ _ hrj
    have hlt : j < N := by
      rw [p2, p3, hN, hi0, hoj] at hi
      omega
    refine ⟨j + 1, o ++ [v], hlt, ?_, by simp [hoj]⟩
    rw [deltaRun_add, hrj]
    simp only
    rw [deltaRun_succ, if_pos hi, hb]
    rfl
  | err s s1 e hr hi hb ih =>
    exfalso
    obtain ⟨j, o, hj, hrj, hoj⟩ := ih
    obtain ⟨_, p2, p3, _, _⟩ := deltaRun_props P _ _ _ _ _ hrj
    have hlt : j < N := by
      rw [p2, p3, hN, hi0, hoj] at hi
      omega
    obtain ⟨m, hm⟩ : ∃ m, N = j + (m + 1) := ⟨N - j - 1, by omega⟩
    have hadd := deltaRun_add P j (m + 1) d
    rw [← hm, hrun, hrj] at hadd
    simp only at hadd
    rw [deltaRun_succ, if_pos hi, hb] at hadd
    simp at hadd

end DeltaSuppliedRuns
section DeltaExhaustionClaim

open Int32DeltaBinaryPackedDecoder

/-- The only state the loop goes through on `zeroSizePage` is the state after `init`: its
first iteration panics. -/
theorem zeroSizeState_reachable (s : Int32DeltaBinaryPackedDecoder)
    (h : LoopReachable refPrimitives zeroSizeState s) : s = zeroSizeState := by
  have hf : zeroSizeState.loopBody refPrimitives = .fault := by decide
  induction h with
  | start => rfl
  | emit s s1 v _ _ hb ih => rw [ih, hf] at hb; cases hb
  | err s s1 e _ _ hb ih => rw [ih, hf] at hb; cases hb

/-- The data of `zeroSizePage` supplies what the first iteration reads: no header is due and
the group of bit width 0 takes no byte. -/
theorem zeroSizeState_supplied : DataSupplied refPrimitives zeroSizeState := by
  refine ⟨fun h => absurd h.2.2 (by decide), fun h => absurd (by decide) h,
    fun _ sa hsa => ?_⟩
  have e : zeroSizeState.startMiniBlock refPrimitives
      = .ret { zeroSizeState with unpacker := some 0, miniBlock := 1 } none := by decide
  rw [e] at hsa
  cases hsa
  decide

/-- C5 (counterexample): on a page with block size 1 and 2 mini blocks `init` succeeds with
total count 5 and mini-block size 0; the data supplies the block header (bit widths 0 and 0,
read by `init`) and the bytes of every group (none), in every state the loop goes through;
yet the first decode call with a non-empty buffer panics on the modulus by the mini-block
size, and no value is emitted. The same happens with block size 0 and 1 mini block, where
the block size is a multiple of the number of mini blocks. -/
theorem delta_exhaustion_zero_size_counterexample :
    Int32DeltaBinaryPackedDecoder.zero.init refPrimitives zeroSizePage 5
      = .ret zeroSizeState none
    ∧ zeroSizeState.numValues = 5
    ∧ (∀ w ∈ zeroSizeState.miniBlockWidths, w ≤ 32)
    ∧ (∀ s, LoopReachable refPrimitives zeroSizeState s → s.i < 5 → s.i % 8 = 0 →
        DataSupplied refPrimitives s)
    ∧ zeroSizeState.miniBlockSize = 0
    ∧ zeroSizeState.decodeInt32 refPrimitives [0] = .fault
    ∧ deltaDecodeUntilError refPrimitives zeroSizeState [[0]] = none
    ∧ Int32DeltaBinaryPackedDecoder.zero.init refPrimitives [0, 1, 5, 0, 0, 0] 5
      = .ret { zeroSizeState with
                data := [0, 1, 5, 0, 0, 0], blockSize := 0, miniBlocks := 1,
                miniBlockWidths := [0], pos := 6 } none
    ∧ Int32DeltaBinaryPackedDecoder.decodeInt32 refPrimitives
        { zeroSizeState with
          data := [0, 1, 5, 0, 0, 0], blockSize := 0, miniBlocks := 1,
          miniBlockWidths := [0], pos := 6 } [0] = .fault :=
  ⟨by decide, by decide, by decide,
    fun s hr _ _ => (zeroSizeState_reachable s hr) ▸ zeroSizeState_supplied,
    by decide, by decide, by decide, by decide, by decide⟩

/-- C5 (amended). After a successful `init` with total value count `N ≥ 0`, a non-zero
mini-block size and bit widths of at most 32 in the first block header, on a page whose data
supplies, in every state the loop goes through with a group due below `N`, a block header
with bit widths of at most 32 when one is due and the bytes of the group: calls with
non-empty buffers emit `min N (total capacity)` values in total, hence exactly `N` once the
capacity reaches `N`; and then every further call returns `n = 0` with the no-more-data
error and leaves decoder and buffer unchanged. -/
theorem delta_exhaustion (P : Primitives) (d0 d : Int32DeltaBinaryPackedDecoder)
    (data : List Nat) (count : Int) (N : Nat)
    (hinit : d0.init P data count = .ret d none) (hN : d.numValues = N)
    (hsize : d.miniBlockSize ≠ 0) (hW0 : ∀ w ∈ d.miniBlockWidths, w ≤ 32)
    (hdata : ∀ s, LoopReachable P d s → s.i < N → s.i % 8 = 0 → DataSupplied P s)
    (bufs : List (List Int)) (hne : ∀ b ∈ bufs, b ≠ []) :
    ∃ out dEnd, deltaDecodeUntilError P d bufs = some (out, dEnd)
      ∧ out.length = min N (bufs.map List.length).sum
      ∧ (N ≤ (bufs.map List.length).sum → ∀ buf : List Int,
          dEnd.decodeInt32 P buf = .ret dEnd buf 0 (some .deltaNoMoreData)) := by
  have hi0 := (init_ok P d0 d data count hinit).1
  have hd := init_safeState P d0 d data count hinit hsize hW0
  have hdata2 : ∀ s, LoopReachable P d s → (s.i : Int) < s.numValues → s.i % 8 = 0 →
      DataSupplied P s := by
    intro s hr hi h8
    apply hdata s hr _ h8
    rw [(loopReachable_count P d s hr hi0).1, hN] at hi
    omega
  obtain ⟨outN, dN, hrun⟩ := deltaRun_supplied P d hd hdata2 N d LoopReachable.start
  obtain ⟨q1, q2, q3, q4, _⟩ := deltaRun_props P _ _ _ _ _ hrun
  have hlen : outN.length = N := by
    rcases q4 rfl with h | h
    · exact h
    · rw [q2, q3, hN, hi0] at h
      omega
  exact deltaRun_exhaustion P d dN N outN hi0 hN hrun hlen bufs hne

/-- The data of `mixedPage` supplies what every iteration with a group due reads: at value
index 0 the byte of the first group, at value index 8 the second block header and the two
bytes of its group. -/
theorem mixedPage_supplied (s : Int32DeltaBinaryPackedDecoder)
    (hr : LoopReachable refPrimitives mixedState s) (_ : s.i < 12) (h8 : s.i % 8 = 0) :
    DataSupplied refPrimitives s := by
  obtain ⟨j, o, _, hrj, hoj⟩ := loopReachable_run refPrimitives mixedState mixedStateEnd 12
    [0, 2, 5, 7, 10, 12, 15, 17, 20, 19, 19, 20] rfl rfl (by decide) rfl s hr
  obtain ⟨_, p2, _⟩ := deltaRun_props refPrimitives _ _ _ _ _ hrj
  have hsi : s.i = j := by rw [p2, hoj]; exact Nat.zero_add _
  have hj : j = 0 ∨ j = 8 := by omega
  rcases hj with rfl | rfl
  · simp only [deltaRun, Option.some.injEq, Prod.mk.injEq, and_true] at hrj
    rw [← hrj.2]
    refine ⟨fun h => absurd h.2.2 (by decide), fun h => absurd (by decide) h,
      fun _ sa hsa => ?_⟩
    have e : mixedState.startMiniBlock refPrimitives
        = .ret { mixedState with miniBlockWidth := 1, unpacker := some 1, miniBlock := 1 }
            none := by decide
    rw [e] at hsa
    cases hsa
    decide
  · have e8 : deltaRun refPrimitives 8 mixedState
        = some ([0, 2, 5, 7, 10, 12, 15, 17], mixedState8, none) := by decide
    rw [e8] at hrj
    simp only [Option.some.injEq, Prod.mk.injEq, and_true] at hrj
    rw [← hrj.2]
    refine ⟨fun _ => (by unfold HeaderSupplied; decide), fun h => absurd (by decide) h,
      fun _ sa hsa => ?_⟩
    have e : mixedState8.startMiniBlock refPrimitives = .ret mixedState8Start none := by
      decide
    rw [e] at hsa
    cases hsa
    decide

/-- Witness for C5 (amended): the 12-value two-block page `mixedPage` decoded with
capacities 5, 5 and 5. -/
theorem delta_exhaustion_witness :
    ∃ out dEnd, deltaDecodeUntilError refPrimitives mixedState
          [List.replicate 5 0, List.replicate 5 0, List.replicate 5 0] = some (out, dEnd)
      ∧ out.length = min 12
          ([List.replicate 5 (0 : Int), List.replicate 5 0, List.replicate 5 0].map
            List.length).sum
      ∧ (12 ≤ ([List.replicate 5 (0 : Int), List.replicate 5 0, List.replicate 5 0].map
            List.length).sum → ∀ buf : List Int,
          dEnd.decodeInt32 refPrimitives buf = .ret dEnd buf 0 (some .deltaNoMoreData)) :=
  delta_exhaustion refPrimitives .zero mixedState mixedPage 12 12 (by decide) (by decide)
    (by decide) (by decide) mixedPage_supplied _ (by decide)

end DeltaExhaustionClaim
/-! ## Theorems: reconstruction of the values from the page bytes -/

section DeltaReconstruction

open Int32DeltaBinaryPackedDecoder

theorem ofFn_getD_eight (f : Fin 8 → Int) (i : Nat) (h : i < 8) :
    (List.ofFn f).getD i 0 = f ⟨i, h⟩ := by
  rw [List.getD_eq_getElem _ _ (by rw [List.length_ofFn]; exact h), List.getElem_ofFn]

/-- Once a value has been emitted, the unpacker is the table entry of the active bit
width. -/
theorem loopReachable_unpacker (P : Primitives) (d s : Int32DeltaBinaryPackedDecoder)
    (h : LoopReachable P d s) (hi : d.i = 0) :
    s.i ≠ 0 → s.unpacker = some s.miniBlockWidth := by
  refine LoopReachable.invariant P (fun s => s.i ≠ 0 → s.unpacker = some s.miniBlockWidth)
    ?_ ?_ d s (fun hne => absurd hi hne) h
  · intro s s1 v hI _ hb _
    rcases loopBody_emit_shape P s s1 v hb with ⟨h8, he⟩ | ⟨_, _, ht, s2, hu, he⟩
      | ⟨_, _, _, sa, s2, hsm, hu, he⟩
    · obtain ⟨_, rfl⟩ := emitValue_ok _ s1 v he
      exact hI (by omega)
    · obtain ⟨_, _, _, _, rfl⟩ := unpackGroup_ok P s s2 hu
      obtain ⟨_, rfl⟩ := emitValue_ok _ s1 v he
      exact hI (tmod_ne_zero_index s ht)
    · obtain ⟨_, _, g3, _⟩ := startMiniBlock_pos P s sa hsm
      obtain ⟨_, _, _, _, rfl⟩ := unpackGroup_ok P sa s2 hu
      obtain ⟨_, rfl⟩ := emitValue_ok _ s1 v he
      exact g3
  · intro s s1 e hI _ hb hne
    obtain ⟨_, _, hcase⟩ := loopBody_err_shape P s s1 e hb
    obtain ⟨_, _, b3, _⟩ := loopBody_err P s s1 e hb
    rcases hcase with ⟨_, rfl⟩ | ⟨_, _, hr⟩ | ⟨_, hsm⟩
    · exact hI hne
    · obtain ⟨_, _, a3, a4, _⟩ := readBlockHeader_pos P s s1 _ hr
      rw [a4, a3]
      exact hI (by rw [← b3]; exact hne)
    · exact (startMiniBlock_pos P s s1 hsm).2.2.1

/-- The group held after an emitting iteration at a value index that is a multiple of 8 is
the output of the unpacker of the active bit width on the bytes at the cursor at which the
group is unpacked. -/
theorem loopBody_emit_group (P : Primitives) (s g : Int32DeltaBinaryPackedDecoder) (v : Int)
    (h : s.loopBody P = .emit g v) (h8 : s.i % 8 = 0)
    (hu : s.i ≠ 0 → s.unpacker = some s.miniBlockWidth) :
    ∃ sa, ((Int.tmod s.i s.miniBlockSize = 0 ∧ s.startMiniBlock P = .ret sa none)
        ∨ (Int.tmod s.i s.miniBlockSize ≠ 0 ∧ sa = s))
      ∧ sa.data = s.data
      ∧ g.miniBlockValues = List.ofFn (P.unpack8Int32FuncByWidth sa.miniBlockWidth
          ((sa.data.drop sa.pos.toNat).take sa.miniBlockWidth)) := by
  rcases loopBody_emit_shape P s g v h with ⟨hn, _⟩ | ⟨_, _, ht, s2, hug, he⟩
    | ⟨_, _, ht, sa, s2, hsm, hug, he⟩
  · exact absurd h8 hn
  · obtain ⟨t, ht2, _, _, rfl⟩ := unpackGroup_ok P s s2 hug
    obtain ⟨_, rfl⟩ := emitValue_ok _ g v he
    rw [hu (tmod_ne_zero_index s ht)] at ht2
    cases ht2
    exact ⟨s, Or.inr ⟨ht, rfl⟩, rfl, rfl⟩
  · obtain ⟨_, _, g3, _⟩ := startMiniBlock_pos P s sa hsm
    obtain ⟨_, _, _, f4, _⟩ := startMiniBlock_frame P s sa _ hsm
    obtain ⟨t, ht2, _, _, rfl⟩ := unpackGroup_ok P sa s2 hug
    obtain ⟨_, rfl⟩ := emitValue_ok _ g v he
    rw [g3] at ht2
    cases ht2
    exact ⟨sa, Or.inl ⟨ht, hsm⟩, f4, rfl⟩

/-- The min delta held after each emitting iteration of a trace from the state after `init`
is the one of the block header in force, read from the page bytes. -/
theorem deltaRun_headerInForce (P : Primitives) (d0 d : Int32DeltaBinaryPackedDecoder)
    (data : List Nat) (count : Int) (hinit : d0.init P data count = .ret d none)
    (k : Nat) (d1 : Int32DeltaBinaryPackedDecoder) (out : List Int)
    (e : Option DecodeError) (hr : deltaRun P k d = some (out, d1, e)) :
    ∀ j, j < out.length → ∃ sj1 h hpos,
      deltaRun P (j + 1) d = some (out.take (j + 1), sj1, none)
      ∧ HeaderInForce P d data j h hpos
      ∧ sj1.minDelta = (P.zigZagVarInt32 (data.drop hpos.toNat)).1 := by
  have hdata := (init_ok P d0 d data count hinit).2
  intro j
  induction j with
  | zero =>
    intro hj
    obtain ⟨sj, sj1, v, h1, h2, hb, _⟩ := deltaRun_step P _ d d1 out e hr 0 hj
    simp only [deltaRun, List.take_zero, Option.some.injEq, Prod.mk.injEq, true_and,
      and_true] at h1
    subst h1
    obtain ⟨_, a2, _, a4⟩ := init_pos P d0 d data count hinit
    have hM := (init_fields P d0 d data count hinit).2.2.2.2.2
    have hnd : ¬ headerDue d := by
      intro hdue
      have := hdue.2.2
      rw [a4] at this
      simp only [Nat.cast_zero] at this
      omega
    refine ⟨sj1, 0, pageHeaderLength P data, h2, ⟨le_refl 0, Or.inl ⟨rfl, rfl, hnd⟩,
      fun k hk1 hk2 => absurd hk2 (by omega)⟩, ?_⟩
    rw [((loopBody_emit_header P d sj1 v hb).2 hnd).1, a2]
  | succ j ih =>
    intro hj
    obtain ⟨sj1, h, hpos, hrun1, hif, hmd⟩ := ih (by omega)
    obtain ⟨sk, sk1, v, k1, k2, kb, _⟩ := deltaRun_step P _ d d1 out e hr (j + 1) hj
    rw [hrun1] at k1
    simp only [Option.some.injEq, Prod.mk.injEq, true_and, and_true] at k1
    subst k1
    have hst : deltaStateAfter P d (j + 1) = some sj1 :=
      deltaStateAfter_of_run P d sj1 _ _ none hrun1 (List.length_take_of_le (by omega))
    by_cases hdue : headerDue sj1
    · obtain ⟨sh, hsh, hm, _⟩ := (loopBody_emit_header P sj1 sk1 v kb).1 hdue
      obtain ⟨_, _, _, _, _, rfl⟩ := readBlockHeader_ok P sj1 _ hsh
      have hd1 : sj1.data = data :=
        (loopReachable_data P d sj1
          (deltaRun_loopReachable P d _ d sj1 _ _ LoopReachable.start hrun1)).trans hdata
      refine ⟨sk1, j + 1, sj1.pos, k2, ⟨le_refl _, Or.inr ⟨by omega, sj1, hst, hdue, rfl⟩,
        fun k hk1 hk2 => absurd hk2 (by omega)⟩, ?_⟩
      rw [hm, ← hd1]
    · refine ⟨sk1, h, hpos, k2, ⟨by have := hif.1; omega, hif.2.1, ?_⟩, ?_⟩
      · intro k hk1 hk2 sk hsk
        by_cases hkj : k ≤ j
        · exact hif.2.2 k hk1 hkj sk hsk
        · have hk : k = j + 1 := by omega
          subst hk
          rw [hst] at hsk
          cases hsk
          exact hdue
      · rw [((loopBody_emit_header P sj1 sk1 v kb).2 hdue).1, hmd]

end DeltaReconstruction
section DeltaReconstructionClaim

open Int32DeltaBinaryPackedDecoder

/-- C2 (delta reconstruction). After a successful `init`, for calls made with non-empty
buffers until the first error, the concatenated output `out` starts with the first value
field of the page header, and `out[j+1] = out[j] + rawDelta_j + minDelta_b` in wrapping int32
arithmetic, where `rawDelta_j` is slot `j % 8` of the output of the unpacker of the active
bit width on the page bytes at the cursor at which the group containing `j` is unpacked (the
state `sa`: the state `s8` with `8 * (j / 8)` values emitted, after the start of a new mini
block when one starts there), and `minDelta_b` is the min delta read from the page bytes at
the cursor `hpos` of the block header in force at index `j` (`HeaderInForce`). -/
theorem delta_reconstruction (P : Primitives) (d0 d : Int32DeltaBinaryPackedDecoder)
    (data : List Nat) (count : Int) (hinit : d0.init P data count = .ret d none)
    (bufs : List (List Int)) (hne : ∀ b ∈ bufs, b ≠ [])
    (out : List Int) (dEnd : Int32DeltaBinaryPackedDecoder)
    (hrun : deltaDecodeUntilError P d bufs = some (out, dEnd)) :
    (∀ v, out[0]? = some v → v = (pageHeaderFields P data).2.2.2)
    ∧ (∀ j, j + 1 < out.length → ∃ s8 sa h hpos,
        deltaStateAfter P d (8 * (j / 8)) = some s8
        ∧ ((Int.tmod s8.i s8.miniBlockSize = 0 ∧ s8.startMiniBlock P = .ret sa none)
          ∨ (Int.tmod s8.i s8.miniBlockSize ≠ 0 ∧ sa = s8))
        ∧ HeaderInForce P d data j h hpos
        ∧ out[j + 1]? = some (toInt32
            (out.getD j 0
              + P.unpack8Int32FuncByWidth sa.miniBlockWidth
                  ((data.drop sa.pos.toNat).take sa.miniBlockWidth)
                  ⟨j % 8, Nat.mod_lt j (by decide)⟩
              + (P.zigZagVarInt32 (data.drop hpos.toNat)).1))) := by
  obtain ⟨hi0, hdata⟩ := init_ok P d0 d data count hinit
  rw [deltaDecodeUntilError_eq_run P bufs d hne] at hrun
  cases hr : deltaRun P (bufs.map List.length).sum d with
  | none => rw [hr] at hrun; cases hrun
  | some r =>
    obtain ⟨out1, d1, e⟩ := r
    rw [hr] at hrun
    simp only [Option.map, Option.some.injEq, Prod.mk.injEq] at hrun
    obtain ⟨rfl, rfl⟩ := hrun
    constructor
    · intro v hv
      have hlen : 0 < out1.length := by
        cases out1 with
        | nil => simp at hv
        | cons a as => simp
      obtain ⟨sj, sj1, v1, h1, _, hb, hv1⟩ := deltaRun_step P _ d d1 out1 e hr 0 hlen
      simp only [deltaRun, List.take_zero, Option.some.injEq, Prod.mk.injEq, true_and,
        and_true] at h1
      subst h1
      rw [hv] at hv1
      cases hv1
      rw [(loopBody_emit P _ _ _ hb).1]
      exact (init_fields P d0 _ data count hinit).2.2.2.1
    · intro j hj
      obtain ⟨s8, g, sj1, v8, g1, gb, h8i, h2, hrec⟩ :=
        deltaRun_reconstruction P _ d d1 out1 e hr hi0 j hj
      have hreach : LoopReachable P d s8 :=
        deltaRun_loopReachable P d _ d s8 _ _ LoopReachable.start g1
      obtain ⟨sa, hcase, hsad, hg⟩ := loopBody_emit_group P s8 g v8 gb
        (by rw [h8i]; omega) (loopReachable_unpacker P d s8 hreach hi0)
      obtain ⟨sj2, h, hpos, hrun2, hif, hmd⟩ :=
        deltaRun_headerInForce P d0 d data count hinit _ d1 out1 e hr j (by omega)
      rw [h2] at hrun2
      simp only [Option.some.injEq, Prod.mk.injEq, true_and, and_true] at hrun2
      subst hrun2
      have hd8 : sa.data = data := hsad.trans ((loopReachable_data P d s8 hreach).trans hdata)
      refine ⟨s8, sa, h, hpos,
        deltaStateAfter_of_run P d s8 _ _ none g1 (List.length_take_of_le (by omega)),
        hcase, hif, ?_⟩
      rw [hrec, hg, ofFn_getD_eight _ _ (Nat.mod_lt j (by decide)), hd8, hmd]

/-- Witness for C2: the two-block page `mixedPage` (bit widths 1 and 2, min deltas 2 and -1)
decoded in calls of capacities 5 and 7; the unpacker outputs on the group bytes and the
decoded values are evaluated, and the example page of the spec (bit width 0, min delta 2)
decodes to `[100, 102, 104, 106, 108]`. -/
theorem delta_reconstruction_witness :
    Int32DeltaBinaryPackedDecoder.zero.init refPrimitives mixedPage 12
      = .ret mixedState none
    ∧ mixedState.decodeInt32 refPrimitives (List.replicate 12 0)
      = .ret mixedStateEnd [0, 2, 5, 7, 10, 12, 15, 17, 20, 19, 19, 20] 12 none
    ∧ List.ofFn (refPrimitives.unpack8Int32FuncByWidth 1 [170]) = [0, 1, 0, 1, 0, 1, 0, 1]
    ∧ List.ofFn (refPrimitives.unpack8Int32FuncByWidth 2 [228, 228])
      = [0, 1, 2, 3, 0, 1, 2, 3]
    ∧ (refPrimitives.zigZagVarInt32 (mixedPage.drop 4)).1 = 2
    ∧ (refPrimitives.zigZagVarInt32 (mixedPage.drop 7)).1 = -1
    ∧ exampleState.decodeInt32 refPrimitives (List.replicate 5 0)
      = .ret { exampleState with i := 5, value := 110, miniBlock := 1, unpacker := some 0 }
          [100, 102, 104, 106, 108] 5 none
    ∧ ((∀ v, [0, 2, 5, 7, 10, 12, 15, 17, 20, 19, 19, (20 : Int)][0]? = some v →
          v = (pageHeaderFields refPrimitives mixedPage).2.2.2)
      ∧ (∀ j, j + 1 < [0, 2, 5, 7, 10, 12, 15, 17, 20, 19, 19, (20 : Int)].length →
          ∃ s8 sa h hpos,
          deltaStateAfter refPrimitives mixedState (8 * (j / 8)) = some s8
          ∧ ((Int.tmod s8.i s8.miniBlockSize = 0
              ∧ s8.startMiniBlock refPrimitives = .ret sa none)
            ∨ (Int.tmod s8.i s8.miniBlockSize ≠ 0 ∧ sa = s8))
          ∧ HeaderInForce refPrimitives mixedState mixedPage j h hpos
          ∧ [0, 2, 5, 7, 10, 12, 15, 17, 20, 19, 19, (20 : Int)][j + 1]? = some (toInt32
              ([0, 2, 5, 7, 10, 12, 15, 17, 20, 19, 19, (20 : Int)].getD j 0
                + refPrimitives.unpack8Int32FuncByWidth sa.miniBlockWidth
                    ((mixedPage.drop sa.pos.toNat).take sa.miniBlockWidth)
                    ⟨j % 8, Nat.mod_lt j (by decide)⟩
                + (refPrimitives.zigZagVarInt32 (mixedPage.drop hpos.toNat)).1)))) :=
  ⟨by decide, by decide, by decide, by decide, by decide, by decide, by decide,
   delta_reconstruction refPrimitives .zero mixedState mixedPage 12 (by decide)
     [[0, 0, 0, 0, 0], [0, 0, 0, 0, 0, 0, 0]] (by decide)
     [0, 2, 5, 7, 10, 12, 15, 17, 20, 19, 19, 20] mixedStateEnd (by decide)⟩

end DeltaReconstructionClaim
end Parquet
